import Mathlib

/-!
# m5C-UBSseq-Optimized: merge_split_bam and the hisat-3n-table driver

A shallow embedding of the two programs of the repository

* `src/merge_split_bam/merge_split_bam_htslib_omp.cpp` (namespace `MergeSplitBam`),
* `src/hisat-3n-table/hisat_3n_table.cpp` (namespace `Hisat3nTable`),

followed by theorems about them.

Library code is modelled by its documented contract:

* `std::sort(first, last, comp)` is any function that returns a permutation of
  its input in which no element is `comp`-smaller than an earlier one; the
  relative order of equivalent elements is not fixed (`StdSort`); the
  implementation of libstdc++ is given as well (`LibStdCxx.sort`) and meets
  this contract (`LibStdCxx.sort_perm`, `LibStdCxx.sort_sorted`);
* htslib calls (`sam_open`, `sam_hdr_read`, `sam_read1`, `sam_write1`, ...)
  are outcomes supplied by an environment (`MergeSplitBam.Env`);
* the OpenMP loop over output buckets is run bucket by bucket: iteration `b`
  touches only `outs[b]` and the chromosome vectors listed in `bucket_chrs[b]`,
  and the lists `bucket_chrs[b]` are pairwise disjoint
  (`MergeSplitBam.bucket_chrs_build_disjoint`);
* `std::stoll` follows `strtoll` in base 10 (`Hisat3nTable.stoll`).

Left out: the reading of the command line, the messages written to `cerr`,
and the release of memory and handles. Counts and sizes (`uint64_t`, `size_t`)
are natural numbers; `tid` and `pos` of a record are integers; string indices
(`int` in `getSAMChromosomePos`) are natural numbers, the lines coming from a
buffer of 1000007 bytes; `reloadPos` (`long long`) is an integer.
-/

/-! ## `std::sort` -/

/-- The comparator requirement of `std::sort`: a strict weak ordering, given as
irreflexivity, transitivity and negative transitivity. -/
structure StrictWeakOrder {α : Type} (comp : α → α → Bool) : Prop where
  irrefl : ∀ a, comp a a = false
  trans : ∀ a b c, comp a b = true → comp b c = true → comp a c = true
  neg_trans : ∀ a b c, comp a b = false → comp b c = false → comp a c = false

/-- An implementation of `std::sort`: on a strict weak ordering the result is a
permutation of the input and is sorted with respect to `comp`, that is, no
element compares less than an element placed before it. Nothing is promised
about the order of equivalent elements. -/
structure StdSort where
  sort : {α : Type} → (α → α → Bool) → List α → List α
  perm : ∀ {α : Type} (comp : α → α → Bool) (l : List α),
    StrictWeakOrder comp → (sort comp l).Perm l
  sorted : ∀ {α : Type} (comp : α → α → Bool) (l : List α),
    StrictWeakOrder comp → (sort comp l).Pairwise (fun a b => comp b a = false)

/-- Insertion sort driven by a `bool` comparator; equivalent elements keep
their input order. -/
def insertionSortBy {α : Type} (comp : α → α → Bool) (l : List α) : List α :=
  List.insertionSort (fun a b => comp b a = false) l

/-- A `std::sort` that keeps equivalent elements in input order. -/
def stableSort : StdSort where
  sort := fun comp l => insertionSortBy comp l
  perm := fun comp l _ => List.perm_insertionSort (fun a b => comp b a = false) l
  sorted := by
    intro α comp l h
    haveI : IsTotal α (fun a b => comp b a = false) := ⟨fun a b => by
      cases hba : comp b a with
      | false => exact Or.inl rfl
      | true =>
        cases hab : comp a b with
        | false => exact Or.inr rfl
        | true =>
          have h1 := h.trans a b a hab hba
          rw [h.irrefl a] at h1
          exact absurd h1 (by decide)⟩
    haveI : IsTrans α (fun a b => comp b a = false) :=
      ⟨fun a b c hab hbc => h.neg_trans c b a hbc hab⟩
    exact List.sorted_insertionSort (fun a b => comp b a = false) l

/-! ## `std::sort` as libstdc++ implements it

The functions of `bits/stl_algo.h` and `bits/stl_heap.h` (GCC 12) that
`std::sort(first, last, comp)` runs, on a vector given as a list, under the
library's names without the leading underscores. An iterator is an index into
the list. A read outside the vector, which the library never makes when `comp`
is a strict weak ordering, ends the loop it occurs in. -/

namespace LibStdCxx

/-- The constant `_S_threshold`. -/
def S_threshold : Nat := 16

/-- The call `__comp(i, j)` on two iterators. -/
def compAt {α : Type} (comp : α → α → Bool) (a : List α) (i j : Nat) : Bool :=
  match a[i]?, a[j]? with
  | some x, some y => comp x y
  | _, _ => false

/-- The call `std::iter_swap(i, j)`. -/
def iter_swap {α : Type} (a : List α) (i j : Nat) : List α :=
  match a[i]?, a[j]? with
  | some x, some y => (a.set i y).set j x
  | _, _ => a

/-- The number of times `n` can be halved before it is at most 1, with `k`
halvings left. -/
def lg_loop : Nat → Nat → Nat
  | 0, _ => 0
  | k + 1, n => if n ≤ 1 then 0 else lg_loop k (n / 2) + 1

/-- The function `std::__lg(n)`: the position of the highest set bit of `n`,
which the library takes from the count of leading zero bits. -/
def lg (n : Nat) : Nat := lg_loop n n

/-- The function `__move_median_to_first(result, a, b, c, comp)`. -/
def move_median_to_first {α : Type} (comp : α → α → Bool) (v : List α)
    (result a b c : Nat) : List α :=
  if compAt comp v a b then
    if compAt comp v b c then iter_swap v result b
    else if compAt comp v a c then iter_swap v result c
    else iter_swap v result a
  else if compAt comp v a c then iter_swap v result a
  else if compAt comp v b c then iter_swap v result c
  else iter_swap v result b

/-- The loop `while (__comp(first, pivot)) ++first`, with `k` steps left. It
ends at the end of the vector at the latest (`scan_up_fuel`). -/
def scan_up {α : Type} (comp : α → α → Bool) (v : List α) (pivot : Nat) : Nat → Nat → Nat
  | 0, first => first
  | k + 1, first => if compAt comp v first pivot then scan_up comp v pivot k (first + 1) else first

/-- The loop `while (__comp(pivot, last)) --last`. -/
def scan_down {α : Type} (comp : α → α → Bool) (v : List α) (pivot : Nat) : Nat → Nat
  | 0 => 0
  | last + 1 => if compAt comp v pivot (last + 1) then scan_down comp v pivot last else last + 1

/-- The function `__unguarded_partition(first, last, pivot, comp)`, with `k`
passes through `while (true)` left; the result is the vector and the iterator
returned. -/
def unguarded_partition {α : Type} (comp : α → α → Bool) (pivot : Nat) :
    Nat → List α → Nat → Nat → List α × Nat
  | 0, v, first, _ => (v, first)
  | k + 1, v, first, last =>
    let first1 := scan_up comp v pivot v.length first
    let last1 := scan_down comp v pivot (last - 1)
    if !(first1 < last1) then (v, first1)
    else unguarded_partition comp pivot k (iter_swap v first1 last1) (first1 + 1) last1

/-- The function `__unguarded_partition_pivot(first, last, comp)`. Every pass
of the partition loop moves `first` up by at least one, so `last - first`
passes are enough (`unguarded_partition_pivot_fuel`). -/
def unguarded_partition_pivot {α : Type} (comp : α → α → Bool) (v : List α)
    (first last : Nat) : List α × Nat :=
  let mid := first + (last - first) / 2
  let v1 := move_median_to_first comp v first (first + 1) mid (last - 1)
  unguarded_partition comp first (last - first) v1 (first + 1) last

/-- The function `__push_heap(first, holeIndex, topIndex, value, comp)`, with
`k` iterations left. -/
def push_heap {α : Type} (comp : α → α → Bool) (first : Nat) (value : α) (topIndex : Nat) :
    Nat → List α → Nat → List α
  | 0, v, holeIndex => v.set (first + holeIndex) value
  | k + 1, v, holeIndex =>
    if holeIndex > topIndex then
      match v[first + (holeIndex - 1) / 2]? with
      | some p =>
        if comp p value then
          push_heap comp first value topIndex k (v.set (first + holeIndex) p) ((holeIndex - 1) / 2)
        else v.set (first + holeIndex) value
      | none => v.set (first + holeIndex) value
    else v.set (first + holeIndex) value

/-- The `while` loop of `__adjust_heap`, with `k` iterations left; the result
is the vector, `holeIndex` and `secondChild`. -/
def adjust_heap_loop {α : Type} (comp : α → α → Bool) (first len : Nat) :
    Nat → List α → Nat → Nat → List α × Nat × Nat
  | 0, v, holeIndex, secondChild => (v, holeIndex, secondChild)
  | k + 1, v, holeIndex, secondChild =>
    if secondChild < (len - 1) / 2 then
      let s := 2 * (secondChild + 1)
      let s1 := if compAt comp v (first + s) (first + (s - 1)) then s - 1 else s
      match v[first + s1]? with
      | some x => adjust_heap_loop comp first len k (v.set (first + holeIndex) x) s1 s1
      | none => (v, holeIndex, secondChild)
    else (v, holeIndex, secondChild)

/-- The function `__adjust_heap(first, holeIndex, len, value, comp)`.
`secondChild` grows with every pass of the `while` loop, so `len` passes are
enough (`adjust_heap_loop_fuel`); `__push_heap` halves `holeIndex` in every
iteration, so `holeIndex` iterations are enough (`push_heap_fuel`). -/
def adjust_heap {α : Type} (comp : α → α → Bool) (v : List α) (first holeIndex len : Nat)
    (value : α) : List α :=
  let r := adjust_heap_loop comp first len len v holeIndex holeIndex
  let r2 : List α × Nat :=
    if len % 2 = 0 ∧ r.2.2 = (len - 2) / 2 then
      match r.1[first + (2 * (r.2.2 + 1) - 1)]? with
      | some x => (r.1.set (first + r.2.1) x, 2 * (r.2.2 + 1) - 1)
      | none => (r.1, r.2.1)
    else (r.1, r.2.1)
  push_heap comp first value holeIndex r2.2 r2.1 r2.2

/-- The function `__pop_heap(first, last, result, comp)`. -/
def pop_heap {α : Type} (comp : α → α → Bool) (v : List α) (first last result : Nat) : List α :=
  match v[result]?, v[first]? with
  | some value, some x => adjust_heap comp (v.set result x) first 0 (last - first) value
  | _, _ => v

/-- One pass through the loop of `__make_heap`, at `parent`. -/
def make_heap_step {α : Type} (comp : α → α → Bool) (first len : Nat) (v : List α)
    (parent : Nat) : List α :=
  match v[first + parent]? with
  | some value => adjust_heap comp v first parent len value
  | none => v

/-- The loop of `__make_heap`, from `parent` down to 0. -/
def make_heap_loop {α : Type} (comp : α → α → Bool) (first len : Nat) : Nat → List α → List α
  | 0, v => make_heap_step comp first len v 0
  | parent + 1, v =>
    make_heap_loop comp first len parent (make_heap_step comp first len v (parent + 1))

/-- The function `__make_heap(first, last, comp)`. -/
def make_heap {α : Type} (comp : α → α → Bool) (v : List α) (first last : Nat) : List α :=
  if last - first < 2 then v
  else make_heap_loop comp first (last - first) ((last - first - 2) / 2) v

/-- The function `__sort_heap(first, last, comp)`, with `n = last - first`. -/
def sort_heap {α : Type} (comp : α → α → Bool) (first : Nat) : Nat → List α → List α
  | n + 2, v => sort_heap comp first (n + 1) (pop_heap comp v first (first + n + 1) (first + n + 1))
  | _, v => v

/-- The call `__partial_sort(first, last, last, comp)`: `__heap_select` with
`middle == last` is `__make_heap`, its loop over `[middle, last)` being empty;
then `__sort_heap`. -/
def partial_sort {α : Type} (comp : α → α → Bool) (v : List α) (first last : Nat) : List α :=
  sort_heap comp first (last - first) (make_heap comp v first last)

/-- The function `__introsort_loop(first, last, depth_limit, comp)`. Both the
`while` loop and the recursive call go on with `depth_limit - 1`. -/
def introsort_loop {α : Type} (comp : α → α → Bool) : Nat → List α → Nat → Nat → List α
  | 0, v, first, last =>
    if last - first > S_threshold then partial_sort comp v first last else v
  | depth_limit + 1, v, first, last =>
    if last - first > S_threshold then
      let r := unguarded_partition_pivot comp v first last
      let v1 := introsort_loop comp depth_limit r.1 r.2 last
      introsort_loop comp depth_limit v1 first r.2
    else v

/-- The loop of `__unguarded_linear_insert(last, comp)` for the value `val`
taken out of position `last`. -/
def linear_insert_loop {α : Type} (comp : α → α → Bool) (val : α) : Nat → List α → List α
  | 0, v => v.set 0 val
  | next + 1, v =>
    match v[next]? with
    | some x =>
      if comp val x then linear_insert_loop comp val next (v.set (next + 1) x)
      else v.set (next + 1) val
    | none => v.set (next + 1) val

/-- The function `__unguarded_linear_insert(last, comp)`. -/
def unguarded_linear_insert {α : Type} (comp : α → α → Bool) (v : List α) (last : Nat) : List α :=
  match v[last]? with
  | some val => linear_insert_loop comp val last v
  | none => v

/-- One pass through the loop of `__insertion_sort(begin, last, comp)`, at `i`:
either the element at `i` goes to the front and `[begin, i)` moves up by one,
or it is inserted by `__unguarded_linear_insert`. -/
def insertion_step {α : Type} (comp : α → α → Bool) (v : List α) (i : Nat) : List α :=
  if compAt comp v i 0 then
    match v[i]? with
    | some val => val :: v.take i ++ v.drop (i + 1)
    | none => v
  else unguarded_linear_insert comp v i

/-- The loop of `__insertion_sort`, at `i`, with `k` iterations left. -/
def insertion_sort_loop {α : Type} (comp : α → α → Bool) : Nat → Nat → List α → List α
  | 0, _, v => v
  | k + 1, i, v => insertion_sort_loop comp k (i + 1) (insertion_step comp v i)

/-- The call `__insertion_sort(begin, begin + last, comp)`. -/
def insertion_sort {α : Type} (comp : α → α → Bool) (v : List α) (last : Nat) : List α :=
  if last = 0 then v else insertion_sort_loop comp (last - 1) 1 v

/-- The loop of `__unguarded_insertion_sort`, at `i`, with `k` iterations
left. -/
def unguarded_insertion_sort_loop {α : Type} (comp : α → α → Bool) :
    Nat → Nat → List α → List α
  | 0, _, v => v
  | k + 1, i, v => unguarded_insertion_sort_loop comp k (i + 1) (unguarded_linear_insert comp v i)

/-- The call `__final_insertion_sort(begin, end, comp)`. -/
def final_insertion_sort {α : Type} (comp : α → α → Bool) (v : List α) : List α :=
  if v.length > S_threshold then
    unguarded_insertion_sort_loop comp (v.length - S_threshold) S_threshold
      (insertion_sort comp v S_threshold)
  else insertion_sort comp v v.length

/-- The call `std::sort(v.begin(), v.end(), comp)`, that is `__sort`. -/
def sort {α : Type} (comp : α → α → Bool) (v : List α) : List α :=
  if v.length = 0 then v
  else final_insertion_sort comp (introsort_loop comp (lg v.length * 2) v 0 v.length)

end LibStdCxx

namespace MergeSplitBam

/-! ## Data model -/

/-- One entry of the reference dictionary: `target_name[i]`, `target_len[i]`. -/
structure Target where
  name : String
  len : Nat
deriving DecidableEq, Repr, Inhabited

/-- The part of htslib's `bam_hdr_t` the program reads: the reference
dictionary. `n_targets` is the number of entries. -/
structure bam_hdr_t where
  targets : List Target
deriving DecidableEq, Repr

def bam_hdr_t.n_targets (h : bam_hdr_t) : Nat := h.targets.length

def bam_hdr_t.target_name (h : bam_hdr_t) (i : Nat) : String := (h.targets.getD i default).name

def bam_hdr_t.target_len (h : bam_hdr_t) (i : Nat) : Nat := (h.targets.getD i default).len

/-- An alignment record (`bam1_t`): `core.tid`, `core.pos` and the rest of the
record as uninterpreted data. -/
structure bam1_t where
  tid : Int
  pos : Int
  data : List Nat
deriving DecidableEq, Repr

/-- The struct `Rec`: a duplicated record with its `tid` and `pos` copied out. -/
structure Rec where
  b : bam1_t
  tid : Int
  pos : Int
deriving DecidableEq, Repr

/-- The constructor `Rec(const bam1_t* src)`. -/
def Rec.ofBam (src : bam1_t) : Rec := { b := src, tid := src.tid, pos := src.pos }

/-- The comparison `Rec::operator<`. -/
def Rec.lt (a other : Rec) : Bool := decide (a.pos < other.pos)

/-- The local struct `ChrStat`. -/
structure ChrStat where
  tid : Nat
  reads : Nat
deriving DecidableEq, Repr, Inhabited

/-- The comparator passed to `sort` for `chr_stats`: `a.reads > b.reads`. -/
def ChrStat.byReadsDesc (a b : ChrStat) : Bool := decide (a.reads > b.reads)

/-- An input file as `sam_open`/`sam_hdr_read`/`sam_read1` deliver it: the
header (`none` when `sam_hdr_read` fails) and the records `sam_read1` returns
before its first negative return value. -/
structure InputFile where
  hdr : Option bam_hdr_t
  recs : List bam1_t
deriving DecidableEq, Repr

/-- Outcomes of the htslib calls.
`sam_open_in i` is `sam_open` on `<pfx>.<i>.bam` with mode `rb`;
`sam_open_out path` tells whether `sam_open` for writing succeeds;
`bam_hdr_dup_ok b` whether the header copy for bucket `b` succeeds;
`sam_hdr_write_ok path` whether the header write succeeds;
`sam_write1_ok b k` whether the `k`-th call of `sam_write1` on bucket `b`
returns a non-negative value. -/
structure Env where
  sam_open_in : Nat → Option InputFile
  sam_open_out : String → Bool
  bam_hdr_dup_ok : Nat → Bool
  sam_hdr_write_ok : String → Bool
  sam_write1_ok : Nat → Nat → Bool

/-- An output file: the struct `OutHandle` together with what has reached the
file. `hdr` is the header written by `sam_hdr_write`, `written` the records for
which `sam_write1` succeeded, in order, and `failed` the records for which it
returned a negative value. -/
structure OutHandle where
  path : String
  mode : String
  hdr : Option bam_hdr_t
  written : List bam1_t
  failed : List bam1_t
deriving DecidableEq, Repr

/-- What a run leaves behind: the exit status and the output files created. -/
structure RunResult where
  status : Int
  outs : List OutHandle
deriving DecidableEq, Repr

/-! ## `headers_compatible` -/

/-- The loop of `headers_compatible`, from index `i`, with `k` iterations left. -/
def headers_compatible_loop (a b : bam_hdr_t) : Nat → Nat → Bool
  | 0, _ => true
  | k + 1, i =>
    if a.target_name i != b.target_name i then false
    else if a.target_len i != b.target_len i then false
    else headers_compatible_loop a b k (i + 1)

def headers_compatible (a b : bam_hdr_t) : Bool :=
  if a.n_targets != b.n_targets then false
  else headers_compatible_loop a b a.n_targets 0

/-! ## Loading -/

/-- The `while (sam_read1(...) >= 0)` loop over one input file. -/
def load_records (n_targets : Nat) : List bam1_t → List (List Rec) → List (List Rec)
  | [], chr_vec => chr_vec
  | b :: rest, chr_vec =>
    if b.tid < 0 ∨ b.tid ≥ (n_targets : Int) then load_records n_targets rest chr_vec
    else load_records n_targets rest (chr_vec.modify (fun v => v ++ [Rec.ofBam b]) b.tid.toNat)

/-- The loop over input files, from file `i`, with `k` files left. An error is
a call of `die`. -/
def load_inputs (env : Env) (master_hdr : bam_hdr_t) (n_targets : Nat) :
    Nat → Nat → List (List Rec) → Except String (List (List Rec))
  | 0, _, chr_vec => .ok chr_vec
  | k + 1, i, chr_vec =>
    match env.sam_open_in i with
    | none => .error "Failed to open input"
    | some fp =>
      match fp.hdr with
      | none => .error "Failed to read header"
      | some hdr =>
        if !headers_compatible master_hdr hdr then
          .error "Headers are not compatible across inputs"
        else load_inputs env master_hdr n_targets k (i + 1) (load_records n_targets fp.recs chr_vec)

/-! ## Statistics and round-robin assignment -/

/-- The loop that fills `chr_stats` before it is sorted. -/
def chr_stats_build (chr_vec : List (List Rec)) (n_targets : Nat) : List ChrStat :=
  (List.range n_targets).foldl
    (fun chr_stats tid =>
      if !(chr_vec.getD tid []).isEmpty then
        chr_stats ++ [{ tid := tid, reads := (chr_vec.getD tid []).length }]
      else chr_stats)
    []

/-- The vector `chr_stats` after the call of `sort`. -/
def chr_stats_sorted (S : StdSort) (chr_vec : List (List Rec)) (n_targets : Nat) : List ChrStat :=
  S.sort ChrStat.byReadsDesc (chr_stats_build chr_vec n_targets)

/-- The round-robin loop, at index `i`, over the entries not yet visited. -/
def bucket_chrs_loop (output_num : Nat) : Nat → List ChrStat → List (List Nat) → List (List Nat)
  | _, [], bucket_chrs => bucket_chrs
  | i, cs :: rest, bucket_chrs =>
    bucket_chrs_loop output_num (i + 1) rest
      (bucket_chrs.modify (fun v => v ++ [cs.tid]) (i % output_num))

/-- The vector `bucket_chrs`. -/
def bucket_chrs_build (chr_stats : List ChrStat) (output_num : Nat) : List (List Nat) :=
  bucket_chrs_loop output_num 0 chr_stats (List.replicate output_num [])

/-- The number `sum` printed for a bucket: the sizes of its chromosome vectors
added up. -/
def bucket_reads (chr_vec : List (List Rec)) (tids : List Nat) : Nat :=
  tids.foldl (fun sum tid => sum + (chr_vec.getD tid []).length) 0

/-- The largest single chromosome count of a statistics list (0 for the empty
list). -/
def largest_count (chr_stats : List ChrStat) : Nat :=
  (chr_stats.map ChrStat.reads).foldr max 0

/-- The sum of the counts `c` whose index, counted from `i`, is congruent to
`b` modulo `n`. -/
def strideSum (n b : Nat) : Nat → List Nat → Nat
  | _, [] => 0
  | i, x :: c => (if i % n = b then x else 0) + strideSum n b (i + 1) c

/-- The chromosome vectors of the example A:100, B:80, C:20 (A, B, C being
`tid` 0, 1, 2). -/
def abc_chr_vec : List (List Rec) :=
  [List.replicate 100 (Rec.ofBam { tid := 0, pos := 0, data := [] }),
   List.replicate 80 (Rec.ofBam { tid := 1, pos := 0, data := [] }),
   List.replicate 20 (Rec.ofBam { tid := 2, pos := 0, data := [] })]

/-- Chromosome vectors of seventeen chromosomes (`tid` 0 to 16) with one record
each. -/
def tied_chr_vec : List (List Rec) :=
  (List.range 17).map (fun tid => [Rec.ofBam { tid := tid, pos := 0, data := [] }])

/-! ## Opening the outputs -/

def out_ext (out_fmt : String) : String := if out_fmt == "BAM" then "bam" else "sam"

def out_mode (out_fmt : String) : String := if out_fmt == "BAM" then "wb" else "w"

def out_path (pfx : String) (b : Nat) (out_fmt : String) : String :=
  pfx ++ ".sorted.split." ++ toString b ++ "." ++ out_ext out_fmt

/-- The loop that opens the outputs, at bucket `b`, with `k` buckets left.
An error is a call of `die`; it carries the files created up to that point. -/
def open_outputs (env : Env) (pfx out_fmt : String) (master_hdr : bam_hdr_t) :
    Nat → Nat → List OutHandle → Except (List OutHandle) (List OutHandle)
  | 0, _, outs => .ok outs
  | k + 1, b, outs =>
    let path := out_path pfx b out_fmt
    if !env.sam_open_out path then .error outs
    else
      let fresh : OutHandle :=
        { path := path, mode := out_mode out_fmt, hdr := none, written := [], failed := [] }
      if !env.bam_hdr_dup_ok b then .error (outs ++ [fresh])
      else if !env.sam_hdr_write_ok path then .error (outs ++ [fresh])
      else open_outputs env pfx out_fmt master_hdr k (b + 1)
        (outs ++ [{ fresh with hdr := some master_hdr }])

/-! ## Writing -/

/-- One call `sam_write1(fp, hdr, r.b)` on bucket `b`; the flag is
`sam_write1(...) >= 0`. -/
def sam_write1 (env : Env) (b : Nat) (out : OutHandle) (r : bam1_t) : Bool × OutHandle :=
  if env.sam_write1_ok b (out.written.length + out.failed.length) then
    (true, { out with written := out.written ++ [r] })
  else
    (false, { out with failed := out.failed ++ [r] })

/-- The loop `for (auto& r : vec)`: a failed write is reported and the loop
goes on. -/
def write_vec (env : Env) (b : Nat) : List Rec → OutHandle → OutHandle
  | [], out => out
  | r :: rest, out => write_vec env b rest (sam_write1 env b out r.b).2

/-- The loop `for (int tid : bucket_chrs[b])`: sort the chromosome vector in
place, then write it. -/
def write_bucket (S : StdSort) (env : Env) (b : Nat) :
    List Nat → List (List Rec) → OutHandle → List (List Rec) × OutHandle
  | [], chr_vec, out => (chr_vec, out)
  | tid :: rest, chr_vec, out =>
    let vec := S.sort Rec.lt (chr_vec.getD tid [])
    write_bucket S env b rest (chr_vec.set tid vec) (write_vec env b vec out)

/-- The loop over output buckets, at bucket `b`, with `k` buckets left. -/
def write_outputs (S : StdSort) (env : Env) (bucket_chrs : List (List Nat)) :
    Nat → Nat → List (List Rec) → List OutHandle → List (List Rec) × List OutHandle
  | 0, _, chr_vec, outs => (chr_vec, outs)
  | k + 1, b, chr_vec, outs =>
    match outs[b]? with
    | none => write_outputs S env bucket_chrs k (b + 1) chr_vec outs
    | some out =>
      let res := write_bucket S env b (bucket_chrs.getD b []) chr_vec out
      write_outputs S env bucket_chrs k (b + 1) res.1 (outs.set b res.2)

/-! ## Descriptions used in the statements -/

/-- The records of `recs` whose write succeeds when `recs` are handed to
`sam_write1` as calls number `k`, `k + 1`, ... on bucket `b`. -/
def surviving (env : Env) (b k : Nat) (recs : List Rec) : List bam1_t :=
  ((recs.enumFrom k).filter (fun p => env.sam_write1_ok b p.1)).map (fun p => p.2.b)

/-- The records of `recs` whose write fails, under the same numbering. -/
def rejected (env : Env) (b k : Nat) (recs : List Rec) : List bam1_t :=
  ((recs.enumFrom k).filter (fun p => !env.sam_write1_ok b p.1)).map (fun p => p.2.b)

/-- The chromosome vector `chr_vec[tid]` after `sort(vec.begin(), vec.end())`. -/
def sorted_chr (S : StdSort) (chr_vec : List (List Rec)) (tid : Nat) : List Rec :=
  S.sort Rec.lt (chr_vec.getD tid [])

/-- The sorted chromosome vectors of the chromosomes `tids`, one after the
other. -/
def write_sequence (S : StdSort) (chr_vec : List (List Rec)) (tids : List Nat) : List Rec :=
  tids.flatMap (sorted_chr S chr_vec)

/-- All records of the input files, in reading order. -/
def input_records (sources : List InputFile) : List bam1_t :=
  sources.flatMap InputFile.recs

/-- The input records whose `tid` lies in `[0, n_targets)`. -/
def mapped_records (n_targets : Nat) (sources : List InputFile) : List bam1_t :=
  (input_records sources).filter (fun b => 0 ≤ b.tid ∧ b.tid < (n_targets : Int))

/-- The vector `chr_vec` after all input files have been read. -/
def loaded_chr_vec (n_targets : Nat) (sources : List InputFile) : List (List Rec) :=
  load_records n_targets (input_records sources) (List.replicate n_targets [])

/-- An output file right after its header has been written. -/
def opened_out (pfx out_fmt : String) (master_hdr : bam_hdr_t) (b : Nat) : OutHandle :=
  { path := out_path pfx b out_fmt, mode := out_mode out_fmt, hdr := some master_hdr,
    written := [], failed := [] }

/-- The vector `bucket_chrs` of a run on the input files `sources` with
dictionary `master_hdr` and `n` output buckets. -/
def run_bucket_chrs (S : StdSort) (master_hdr : bam_hdr_t) (sources : List InputFile)
    (n : Nat) : List (List Nat) :=
  bucket_chrs_build
    (chr_stats_sorted S (loaded_chr_vec master_hdr.n_targets sources) master_hdr.n_targets) n

/-- The records handed to `sam_write1` on bucket `b`, in call order. -/
def run_write_sequence (S : StdSort) (master_hdr : bam_hdr_t) (sources : List InputFile)
    (n b : Nat) : List Rec :=
  write_sequence S (loaded_chr_vec master_hdr.n_targets sources)
    ((run_bucket_chrs S master_hdr sources n).getD b [])

/-- The output file of bucket `b` at the end of such a run. -/
def final_out (S : StdSort) (env : Env) (pfx out_fmt : String) (master_hdr : bam_hdr_t)
    (sources : List InputFile) (n b : Nat) : OutHandle :=
  write_vec env b (run_write_sequence S master_hdr sources n b)
    (opened_out pfx out_fmt master_hdr b)

/-! ## `main`, after the command line has been read -/

/-- The call `die(msg)`: exit status 1. -/
def die (outs : List OutHandle) : RunResult := { status := 1, outs := outs }

/-- The function `main` from the check of `input_num` and `output_num` on.
`pfx`, `input_num`, `output_num` and `out_fmt` are the values read from the
command line. -/
def main (S : StdSort) (env : Env) (pfx : String) (input_num output_num : Int)
    (out_fmt : String) : RunResult :=
  if input_num ≤ 0 ∨ output_num ≤ 0 then die []
  else
    match env.sam_open_in 0 with
    | none => die []
    | some fp0 =>
      match fp0.hdr with
      | none => die []
      | some master_hdr =>
        let n_targets := master_hdr.n_targets
        match load_inputs env master_hdr n_targets input_num.toNat 0 (List.replicate n_targets []) with
        | .error _ => die []
        | .ok chr_vec =>
          let chr_stats := chr_stats_sorted S chr_vec n_targets
          let bucket_chrs := bucket_chrs_build chr_stats output_num.toNat
          match open_outputs env pfx out_fmt master_hdr output_num.toNat 0 [] with
          | .error created => die created
          | .ok outs =>
            { status := 0
              outs := (write_outputs S env bucket_chrs output_num.toNat 0 chr_vec outs).2 }

/-! ## A small run used in the examples -/

/-- A dictionary with two reference sequences. -/
def demo_hdr : bam_hdr_t :=
  { targets := [{ name := "chr1", len := 1000 }, { name := "chr2", len := 500 }] }

/-- The same names with a different length for `chr2`. -/
def demo_hdr_other : bam_hdr_t :=
  { targets := [{ name := "chr1", len := 1000 }, { name := "chr2", len := 501 }] }

/-- Two input files with the dictionary `demo_hdr`: five mapped records and
one unmapped record. -/
def demo_sources : List InputFile :=
  [{ hdr := some demo_hdr
     recs := [{ tid := 0, pos := 30, data := [1] }, { tid := -1, pos := 0, data := [2] },
              { tid := 1, pos := 7, data := [3] }] },
   { hdr := some demo_hdr
     recs := [{ tid := 0, pos := 10, data := [4] }, { tid := 1, pos := 5, data := [5] },
              { tid := 0, pos := 20, data := [6] }] }]

/-- Two input files without any mapped record. -/
def demo_sources_unmapped : List InputFile :=
  [{ hdr := some demo_hdr, recs := [{ tid := -1, pos := 0, data := [1] }] },
   { hdr := some demo_hdr, recs := [] }]

/-- Two input files, the second with a different dictionary. -/
def demo_sources_mismatch : List InputFile :=
  [{ hdr := some demo_hdr, recs := [{ tid := 0, pos := 30, data := [1] }] },
   { hdr := some demo_hdr_other, recs := [{ tid := 1, pos := 7, data := [3] }] }]

/-- An environment that serves the files `sources`, creates every output, and
lets every write succeed except the second write on bucket 0. -/
def demo_env (sources : List InputFile) : Env :=
  { sam_open_in := fun i => sources[i]?
    sam_open_out := fun _ => true
    bam_hdr_dup_ok := fun _ => true
    sam_hdr_write_ok := fun _ => true
    sam_write1_ok := fun b k => !(b == 0 && k == 1) }

end MergeSplitBam

namespace Hisat3nTable

/-! ## Strings -/

/-- Search for `c` in `l`, whose first character has index `i`. -/
def findFrom (c : Char) : List Char → Nat → Option Nat
  | [], _ => none
  | x :: xs, i => if x = c then some i else findFrom c xs (i + 1)

/-- The call `line.find(c, start)`; `none` is `string::npos`. -/
def find (line : List Char) (c : Char) (start : Nat) : Option Nat :=
  findFrom c (line.drop start) start

/-- The call `line.substr(start, len)` for `start <= line.size()`. -/
def substr (line : List Char) (start len : Nat) : List Char :=
  (line.drop start).take len

/-- The two exceptions of `std::stoll`. -/
inductive StollError where
  | invalid_argument
  | out_of_range
deriving DecidableEq, Repr

/-- The function `isspace` in the C locale. -/
def isspace (c : Char) : Bool :=
  c = ' ' || c = '\t' || c = '\n' || c = '\x0b' || c = '\x0c' || c = '\r'

/-- The value of a decimal digit character. -/
def digitVal (c : Char) : Nat := c.toNat - '0'.toNat

/-- The value of a string of decimal digits, most significant digit first. -/
def digitsValue (ds : List Char) : Nat := ds.foldl (fun acc c => acc * 10 + digitVal c) 0

/-- The sign and the rest of a number after leading white space has been
skipped. -/
def splitSign : List Char → Bool × List Char
  | '-' :: r => (true, r)
  | '+' :: r => (false, r)
  | s => (false, s)

/-- The call `std::stoll(s)` (base 10): skip white space, read an optional sign
and the longest run of digits; no digit is `invalid_argument`, a value outside
`long long` is `out_of_range`; what follows the digits is ignored. -/
def stoll (s : List Char) : Except StollError Int :=
  let signed := splitSign (s.dropWhile isspace)
  let ds := signed.2.takeWhile Char.isDigit
  if ds = [] then .error .invalid_argument
  else
    let v : Int := if signed.1 then -(digitsValue ds : Int) else (digitsValue ds : Int)
    if v < -(2 : Int) ^ 63 ∨ v > (2 : Int) ^ 63 - 1 then .error .out_of_range
    else .ok v

/-! ## `getSAMChromosomePos` -/

/-- The `while` loop of `getSAMChromosomePos`, with `k` iterations left. The
result is the return value together with the values left in `chr` and `pos`;
an error is an exception thrown by `stoll`. -/
def getSAMChromosomePos_loop (line : List Char) :
    Nat → Nat → Nat → List Char → Int → Except StollError (Bool × List Char × Int)
  | 0, _, _, chr, pos => .ok (false, chr, pos)
  | k + 1, start, count, chr, pos =>
    match find line '\t' start with
    | none => .ok (false, chr, pos)
    | some e =>
      if count = 2 then
        getSAMChromosomePos_loop line k (e + 1) (count + 1) (substr line start (e - start)) pos
      else if count = 3 then
        match stoll (substr line start (e - start)) with
        | .error err => .error err
        | .ok v => if chr = ['*'] then .ok (false, chr, v) else .ok (true, chr, v)
      else getSAMChromosomePos_loop line k (e + 1) (count + 1) chr pos

/-- The function `getSAMChromosomePos(line, chr, pos)`. `count` starts at 0 and
the iteration with `count == 3` returns, so the loop body runs at most four
times. -/
def getSAMChromosomePos (line : List Char) (chr : List Char) (pos : Int) :
    Except StollError (Bool × List Char × Int) :=
  getSAMChromosomePos_loop line 4 0 0 chr pos

/-- The integer a sign and a string of decimal digits denote. -/
def signedValue (sgn ds : List Char) : Int :=
  if sgn = ['-'] then -((Nat.ofDigits 10 (ds.reverse.map digitVal) : Nat) : Int)
  else ((Nat.ofDigits 10 (ds.reverse.map digitVal) : Nat) : Int)

/-- The value of a string that is a decimal integer: an optional sign followed
by one or more decimal digits and nothing else. -/
def decimalInteger : List Char → Option Int
  | '-' :: ds =>
    if ds ≠ [] ∧ ds.all Char.isDigit = true then some (signedValue ['-'] ds) else none
  | '+' :: ds =>
    if ds ≠ [] ∧ ds.all Char.isDigit = true then some (signedValue ['+'] ds) else none
  | ds =>
    if ds ≠ [] ∧ ds.all Char.isDigit = true then some (signedValue [] ds) else none

/-- A line with four tabs whose fourth field is a decimal integer above the
largest `long long`. -/
def overflow_line : List Char := "r1\t0\tchr1\t99999999999999999999\t60\n".toList

/-- A mapped SAM line. -/
def mapped_line : List Char := "r1\t0\tchr1\t100\t60\t5M\n".toList

/-! ## The stream loop of `hisat_3n_table` -/

/-- The operations of the class `Positions` (declared in
`position_3n_table.h`) that the driver uses, over a state `P`: the member
`chromosome`, `startOutput(flag)`, `loadNewChromosome(name, meetNext)` and
`loadMore(meetNext)` with the value left in `meetNext`, and `appendSync(line)`. -/
structure PositionsOps (P : Type) where
  chromosome : P → List Char
  startOutput : P → Bool → P
  loadNewChromosome : P → List Char → P × Int
  loadMore : P → P × Int
  appendSync : P → List Char → P

/-- A call the driver makes on `positions`; `appendSync` is recorded with the
value of `samPos` at the call, `stop` is the assignment `working = false`. -/
inductive Call where
  | startOutput (flag : Bool)
  | loadNewChromosome (name : List Char)
  | loadMore
  | appendSync (line : List Char) (samPos : Int)
  | stop
deriving DecidableEq, Repr

def INF : Int := 0x3f3f3f3f

def LOADING_BLOCK_SIZE : Int := 1000000

/-- The local variables of `hisat_3n_table` and the calls made so far on
`positions`, oldest first. -/
structure Driver (P : Type) where
  positions : P
  samChromosome : List Char
  samPos : Int
  reloadPos : Int
  lastPos : Int
  firstChromLoaded : Bool
  calls : List Call

/-- The loop `while (samPos > reloadPos)`, with `k` iterations left. -/
def reload_loop {P : Type} (ops : PositionsOps P) : Nat → Driver P → Driver P
  | 0, d => d
  | k + 1, d =>
    if d.samPos > d.reloadPos then
      let p1 := ops.startOutput d.positions false
      let r := ops.loadMore p1
      reload_loop ops k
        { d with
          positions := r.1
          reloadPos := d.reloadPos + (if r.2 ≠ 0 then INF else LOADING_BLOCK_SIZE)
          calls := d.calls ++ [Call.startOutput false, Call.loadMore] }
    else d

/-- How one pass through the body of `while (true)` ends, after the line has
been read. -/
inductive Step (P : Type) where
  | next (d : Driver P)
  | ret (code : Int) (d : Driver P)
  | thrown (err : StollError) (d : Driver P)

/-- The local variables at the end of the pass. -/
def Step.driver {P : Type} : Step P → Driver P
  | .next d => d
  | .ret _ d => d
  | .thrown _ d => d

/-- The block `if (!firstChromLoaded || samChromosome != positions.chromosome)`. -/
def switch_chromosome {P : Type} (ops : PositionsOps P) (d : Driver P) : Driver P :=
  if !d.firstChromLoaded ∨ d.samChromosome ≠ ops.chromosome d.positions then
    let p1 := ops.startOutput d.positions true
    let r := ops.loadNewChromosome p1 d.samChromosome
    { d with
      positions := r.1
      reloadPos := if r.2 ≠ 0 then INF else LOADING_BLOCK_SIZE
      lastPos := 0
      firstChromLoaded := true
      calls := d.calls ++ [Call.startOutput true, Call.loadNewChromosome d.samChromosome] }
  else d

/-- The body of `while (true)` for the line `line` returned by `fgets`. Each
iteration of the reload loop adds at least 1 to `reloadPos`, so
`samPos - reloadPos` iterations are enough. -/
def step {P : Type} (ops : PositionsOps P) (d : Driver P) (line : List Char) : Step P :=
  if line = [] ∨ line.head? = some '@' then .next d
  else
    match getSAMChromosomePos line d.samChromosome d.samPos with
    | .error err => .thrown err d
    | .ok (mapped, chr, pos) =>
      let d1 := { d with samChromosome := chr, samPos := pos }
      if !mapped then .next d1
      else
        let d2 := switch_chromosome ops d1
        let d3 := reload_loop ops (d2.samPos - d2.reloadPos).toNat d2
        if d3.lastPos > d3.samPos then .ret 1 d3
        else
          .next
            { d3 with
              positions := ops.appendSync d3.positions line
              lastPos := d3.samPos
              calls := d3.calls ++ [Call.appendSync line d3.samPos] }

/-- How the stream loop ends: end of input, a `return`, or an exception. -/
inductive LoopEnd where
  | eof
  | ret (code : Int)
  | thrown (err : StollError)
deriving DecidableEq, Repr

/-- The loop `while (true)` over the lines `fgets` returns. -/
def stream_loop {P : Type} (ops : PositionsOps P) : List (List Char) → Driver P → LoopEnd × Driver P
  | [], d => (.eof, d)
  | line :: rest, d =>
    match step ops d line with
    | .next d1 => stream_loop ops rest d1
    | .ret code d1 => (.ret code, d1)
    | .thrown err d1 => (.thrown err, d1)

/-- The local variables at the start of the stream loop. -/
def init_driver {P : Type} (p0 : P) : Driver P :=
  { positions := p0, samChromosome := [], samPos := 0, reloadPos := 0, lastPos := 0,
    firstChromLoaded := false, calls := [] }

/-- What `hisat_3n_table` leaves: the value returned (or the exception that
leaves the function) and the calls made on `positions`. -/
structure Outcome where
  status : Except StollError Int
  calls : List Call
deriving Repr

/-- The function `hisat_3n_table`. `fin` is the input as the lines `fgets`
returns, `none` when `fopen` fails; `p0` is the object `positions` after its
construction. -/
def hisat_3n_table {P : Type} (ops : PositionsOps P) (p0 : P)
    (fin : Option (List (List Char))) : Outcome :=
  match fin with
  | none => { status := .ok 1, calls := [] }
  | some lines =>
    match stream_loop ops lines (init_driver p0) with
    | (.eof, d) => { status := .ok 0, calls := d.calls ++ [Call.startOutput true, Call.stop] }
    | (.ret code, d) => { status := .ok code, calls := d.calls }
    | (.thrown err, d) => { status := .error err, calls := d.calls }

/-! ## Descriptions used in the statements -/

/-- The position of the last `appendSync` since the last `loadNewChromosome`,
starting from `prev`. -/
def lastAppended : Option Int → List Call → Option Int
  | prev, [] => prev
  | _, Call.appendSync _ p :: cs => lastAppended (some p) cs
  | _, Call.loadNewChromosome _ :: cs => lastAppended none cs
  | prev, _ :: cs => lastAppended prev cs

/-- Every `appendSync` has a position not below that of the `appendSync`
before it, unless a `loadNewChromosome` lies between the two. -/
def appendsOrdered : Option Int → List Call → Prop
  | _, [] => True
  | prev, Call.appendSync _ p :: cs =>
    (∀ q, prev = some q → q ≤ p) ∧ appendsOrdered (some p) cs
  | _, Call.loadNewChromosome _ :: cs => appendsOrdered none cs
  | prev, _ :: cs => appendsOrdered prev cs

/-- The `appendSync` calls of a list of calls. -/
def appends (cs : List Call) : List Call :=
  cs.filter (fun c => match c with
    | Call.appendSync _ _ => true
    | _ => false)

/-- The calls of the reload loop: `startOutput()` and `loadMore`. -/
def reloadCalls (cs : List Call) : Prop :=
  ∀ c ∈ cs, c = Call.startOutput false ∨ c = Call.loadMore

/-- The relation the stream loop keeps between `lastPos` and the calls made:
the `appendSync` calls are ordered, and `lastPos` is the position of the last
`appendSync` since the last `loadNewChromosome`. -/
def Inv {P : Type} (d : Driver P) : Prop :=
  appendsOrdered none d.calls ∧
  ∀ q, lastAppended none d.calls = some q → q = d.lastPos ∧ d.firstChromLoaded = true

/-- A header line, two records of `chr1` and one record of `chr2`, in
coordinate order. -/
def sorted_lines : List (List Char) :=
  ["@HD\tVN:1.0\n".toList, "r1\t0\tchr1\t100\t60\n".toList,
   "r2\t0\tchr1\t2000100\t60\n".toList, "r3\t0\tchr2\t5\t60\n".toList]

/-- A record of `chr2` at position 4. -/
def unsorted_line : List Char := "r4\t0\tchr2\t4\t60\n".toList

/-- A record of `chr2` at position 9. -/
def later_lines : List (List Char) := ["r5\t0\tchr2\t9\t60\n".toList]

/-- A `Positions` that only remembers the name of the loaded chromosome. -/
def nameOnlyOps : PositionsOps (List Char) :=
  { chromosome := fun p => p
    startOutput := fun p _ => p
    loadNewChromosome := fun _ name => (name, 0)
    loadMore := fun p => (p, 0)
    appendSync := fun p _ => p }

end Hisat3nTable
/-! # Theorems -/

namespace LibStdCxx

/-! ## `LibStdCxx.sort` returns a permutation -/

theorem set_perm_cons {α : Type} (v : List α) (i : Nat) (old x : α) (h : v[i]? = some old) :
    (old :: v.set i x).Perm (x :: v) := by
  induction v generalizing i with
  | nil => simp at h
  | cons a v ih =>
    cases i with
    | zero =>
      simp only [List.getElem?_cons_zero, Option.some.injEq] at h
      subst h
      simp only [List.set_cons_zero]
      exact List.Perm.swap _ _ _
    | succ i =>
      simp only [List.getElem?_cons_succ] at h
      simp only [List.set_cons_succ]
      exact (List.Perm.swap _ _ _).trans (((ih i h).cons a).trans (List.Perm.swap _ _ _))

theorem get_set_move {α : Type} (v : List α) (i j : Nat) (x y : α)
    (hi : v[i]? = some x) (hj : v[j]? = some y) : (v.set i y)[j]? = some y := by
  obtain ⟨hlt, _⟩ := List.getElem?_eq_some_iff.1 hi
  rw [List.getElem?_set]
  by_cases hij : i = j
  · subst hij
    simp [hlt]
  · simp [hij, hj]

/-- Two moves through a hole, one after the other. -/
theorem hole_step {α : Type} (v w r : List α) (old x value : α)
    (h1 : (old :: w).Perm (x :: v)) (h2 : (x :: r).Perm (value :: w)) :
    (old :: r).Perm (value :: v) := by
  have h3 : (x :: old :: r).Perm (x :: value :: v) :=
    (List.Perm.swap _ _ _).trans (((h2.cons old).trans (List.Perm.swap _ _ _)).trans
      ((h1.cons value).trans (List.Perm.swap _ _ _)))
  exact h3.cons_inv

theorem iter_swap_perm {α : Type} (v : List α) (i j : Nat) : (iter_swap v i j).Perm v := by
  unfold iter_swap
  cases hi : v[i]? with
  | none => exact List.Perm.refl _
  | some x =>
    cases hj : v[j]? with
    | none => exact List.Perm.refl _
    | some y =>
      simp only
      have h1 := set_perm_cons v i x y hi
      have h2 := set_perm_cons (v.set i y) j y x (get_set_move v i j x y hi hj)
      exact (hole_step v (v.set i y) ((v.set i y).set j x) x y x h1 h2).cons_inv

theorem move_median_to_first_perm {α : Type} (comp : α → α → Bool) (v : List α)
    (result a b c : Nat) : (move_median_to_first comp v result a b c).Perm v := by
  unfold move_median_to_first
  repeat' split
  all_goals exact iter_swap_perm _ _ _

theorem unguarded_partition_perm {α : Type} (comp : α → α → Bool) (pivot : Nat) (k : Nat) :
    ∀ (v : List α) (first last : Nat),
      (unguarded_partition comp pivot k v first last).1.Perm v := by
  induction k with
  | zero => intro v first last; exact List.Perm.refl _
  | succ k ih =>
    intro v first last
    simp only [unguarded_partition]
    split
    · exact List.Perm.refl _
    · exact (ih _ _ _).trans (iter_swap_perm _ _ _)

theorem unguarded_partition_pivot_perm {α : Type} (comp : α → α → Bool) (v : List α)
    (first last : Nat) : (unguarded_partition_pivot comp v first last).1.Perm v := by
  unfold unguarded_partition_pivot
  exact (unguarded_partition_perm comp _ _ _ _ _).trans (move_median_to_first_perm _ _ _ _ _ _)

theorem push_heap_perm {α : Type} (comp : α → α → Bool) (first : Nat) (value : α)
    (topIndex : Nat) (k : Nat) :
    ∀ (v : List α) (holeIndex : Nat) (old : α), v[first + holeIndex]? = some old →
      (old :: push_heap comp first value topIndex k v holeIndex).Perm (value :: v) := by
  induction k with
  | zero => intro v holeIndex old h; exact set_perm_cons v _ old value h
  | succ k ih =>
    intro v holeIndex old h
    simp only [push_heap]
    split
    · cases hp : v[first + (holeIndex - 1) / 2]? with
      | none => exact set_perm_cons v _ old value h
      | some p =>
        simp only
        split
        · have h1 := set_perm_cons v _ old p h
          have h2 := ih (v.set (first + holeIndex) p) ((holeIndex - 1) / 2) p
            (get_set_move v _ _ old p h hp)
          exact hole_step v _ _ old p value h1 h2
        · exact set_perm_cons v _ old value h
    · exact set_perm_cons v _ old value h

theorem adjust_heap_loop_perm {α : Type} (comp : α → α → Bool) (first len : Nat) (k : Nat) :
    ∀ (v : List α) (holeIndex secondChild : Nat) (old : α), v[first + holeIndex]? = some old →
      ∃ old1,
        (adjust_heap_loop comp first len k v holeIndex secondChild).1[first +
          (adjust_heap_loop comp first len k v holeIndex secondChild).2.1]? = some old1 ∧
        (old :: (adjust_heap_loop comp first len k v holeIndex secondChild).1).Perm
          (old1 :: v) := by
  induction k with
  | zero => intro v holeIndex secondChild old h; exact ⟨old, h, List.Perm.refl _⟩
  | succ k ih =>
    intro v holeIndex secondChild old h
    simp only [adjust_heap_loop]
    split
    · split
      · rename_i x hx
        obtain ⟨old1, hr, hp⟩ := ih (v.set (first + holeIndex) x) _ _ x
          (get_set_move v _ _ old x h hx)
        refine ⟨old1, hr, ?_⟩
        exact hole_step v _ _ old x old1 (set_perm_cons v _ old x h) hp
      · exact ⟨old, h, List.Perm.refl _⟩
    · exact ⟨old, h, List.Perm.refl _⟩

theorem adjust_heap_perm {α : Type} (comp : α → α → Bool) (v : List α)
    (first holeIndex len : Nat) (value old : α) (h : v[first + holeIndex]? = some old) :
    (old :: adjust_heap comp v first holeIndex len value).Perm (value :: v) := by
  obtain ⟨old1, hr, hp⟩ := adjust_heap_loop_perm comp first len len v holeIndex holeIndex old h
  unfold adjust_heap
  generalize adjust_heap_loop comp first len len v holeIndex holeIndex = r at hr hp
  simp only
  split
  · split
    · rename_i x hx
      simp only
      have h2 := push_heap_perm comp first value holeIndex (2 * (r.2.2 + 1) - 1)
        (r.1.set (first + r.2.1) x) (2 * (r.2.2 + 1) - 1) x (get_set_move r.1 _ _ old1 x hr hx)
      have h1 : (old :: r.1.set (first + r.2.1) x).Perm (x :: v) :=
        hole_step v r.1 _ old old1 x hp (set_perm_cons r.1 _ old1 x hr)
      exact hole_step v _ _ old x value h1 h2
    · simp only
      exact hole_step v _ _ old old1 value hp (push_heap_perm comp first value holeIndex _ _ _ _ hr)
  · simp only
    exact hole_step v _ _ old old1 value hp (push_heap_perm comp first value holeIndex _ _ _ _ hr)

theorem pop_heap_perm {α : Type} (comp : α → α → Bool) (v : List α) (first last result : Nat) :
    (pop_heap comp v first last result).Perm v := by
  unfold pop_heap
  cases hr : v[result]? with
  | none => exact List.Perm.refl _
  | some value =>
    cases hf : v[first]? with
    | none => exact List.Perm.refl _
    | some x =>
      simp only
      have h1 := set_perm_cons v result value x hr
      have h2 := adjust_heap_perm comp (v.set result x) first 0 (last - first) value x
        (get_set_move v result first value x hr hf)
      exact (hole_step v _ _ value x value h1 h2).cons_inv

theorem make_heap_step_perm {α : Type} (comp : α → α → Bool) (first len : Nat) (v : List α)
    (parent : Nat) : (make_heap_step comp first len v parent).Perm v := by
  unfold make_heap_step
  cases hp : v[first + parent]? with
  | none => exact List.Perm.refl _
  | some value => exact (adjust_heap_perm comp v first parent len value value hp).cons_inv

theorem make_heap_loop_perm {α : Type} (comp : α → α → Bool) (first len : Nat) (parent : Nat) :
    ∀ v : List α, (make_heap_loop comp first len parent v).Perm v := by
  induction parent with
  | zero => intro v; exact make_heap_step_perm comp first len v 0
  | succ parent ih =>
    intro v
    simp only [make_heap_loop]
    exact (ih _).trans (make_heap_step_perm comp first len v _)

theorem make_heap_perm {α : Type} (comp : α → α → Bool) (v : List α) (first last : Nat) :
    (make_heap comp v first last).Perm v := by
  unfold make_heap
  split
  · exact List.Perm.refl _
  · exact make_heap_loop_perm comp _ _ _ v

theorem sort_heap_perm {α : Type} (comp : α → α → Bool) (first : Nat) (n : Nat) :
    ∀ v : List α, (sort_heap comp first n v).Perm v := by
  induction n using Nat.strong_induction_on with
  | _ n ih =>
    intro v
    match n with
    | 0 => exact List.Perm.refl _
    | 1 => exact List.Perm.refl _
    | n + 2 =>
      simp only [sort_heap]
      exact (ih (n + 1) (by omega) _).trans (pop_heap_perm comp v _ _ _)

theorem partial_sort_perm {α : Type} (comp : α → α → Bool) (v : List α) (first last : Nat) :
    (partial_sort comp v first last).Perm v := by
  unfold partial_sort
  exact (sort_heap_perm comp first _ _).trans (make_heap_perm comp v first last)

theorem introsort_loop_perm {α : Type} (comp : α → α → Bool) (depth_limit : Nat) :
    ∀ (v : List α) (first last : Nat),
      (introsort_loop comp depth_limit v first last).Perm v := by
  induction depth_limit with
  | zero =>
    intro v first last
    simp only [introsort_loop]
    split
    · exact partial_sort_perm comp v first last
    · exact List.Perm.refl _
  | succ d ih =>
    intro v first last
    simp only [introsort_loop]
    split
    · exact (ih _ _ _).trans ((ih _ _ _).trans (unguarded_partition_pivot_perm comp v first last))
    · exact List.Perm.refl _

theorem linear_insert_loop_perm {α : Type} (comp : α → α → Bool) (val : α) (hole : Nat) :
    ∀ (v : List α) (old : α), v[hole]? = some old →
      (old :: linear_insert_loop comp val hole v).Perm (val :: v) := by
  induction hole with
  | zero => intro v old h; exact set_perm_cons v 0 old val h
  | succ next ih =>
    intro v old h
    simp only [linear_insert_loop]
    cases hx : v[next]? with
    | none => exact set_perm_cons v _ old val h
    | some x =>
      simp only
      split
      · exact hole_step v _ _ old x val (set_perm_cons v _ old x h)
          (ih (v.set (next + 1) x) x (get_set_move v _ _ old x h hx))
      · exact set_perm_cons v _ old val h

theorem unguarded_linear_insert_perm {α : Type} (comp : α → α → Bool) (v : List α) (last : Nat) :
    (unguarded_linear_insert comp v last).Perm v := by
  unfold unguarded_linear_insert
  cases h : v[last]? with
  | none => exact List.Perm.refl _
  | some val => exact (linear_insert_loop_perm comp val last v val h).cons_inv

theorem rotate_front_eq {α : Type} (v : List α) (i : Nat) (val : α) (h : v[i]? = some val) :
    v = v.take i ++ val :: v.drop (i + 1) := by
  obtain ⟨hlt, hv⟩ := List.getElem?_eq_some_iff.1 h
  rw [← hv, List.getElem_cons_drop, List.take_append_drop]

theorem insertion_step_perm {α : Type} (comp : α → α → Bool) (v : List α) (i : Nat) :
    (insertion_step comp v i).Perm v := by
  unfold insertion_step
  split
  · cases h : v[i]? with
    | none => exact List.Perm.refl _
    | some val =>
      simp only
      have hv := rotate_front_eq v i val h
      have h1 : (val :: List.take i v ++ List.drop (i + 1) v).Perm
          (List.take i v ++ val :: List.drop (i + 1) v) := by
        rw [List.cons_append]
        exact List.perm_middle.symm
      rw [← hv] at h1
      exact h1
  · exact unguarded_linear_insert_perm comp v i

theorem insertion_sort_loop_perm {α : Type} (comp : α → α → Bool) (k : Nat) :
    ∀ (i : Nat) (v : List α), (insertion_sort_loop comp k i v).Perm v := by
  induction k with
  | zero => intro i v; exact List.Perm.refl _
  | succ k ih =>
    intro i v
    simp only [insertion_sort_loop]
    exact (ih _ _).trans (insertion_step_perm comp v i)

theorem insertion_sort_perm {α : Type} (comp : α → α → Bool) (v : List α) (last : Nat) :
    (insertion_sort comp v last).Perm v := by
  unfold insertion_sort
  split
  · exact List.Perm.refl _
  · exact insertion_sort_loop_perm comp _ _ v

theorem unguarded_insertion_sort_loop_perm {α : Type} (comp : α → α → Bool) (k : Nat) :
    ∀ (i : Nat) (v : List α), (unguarded_insertion_sort_loop comp k i v).Perm v := by
  induction k with
  | zero => intro i v; exact List.Perm.refl _
  | succ k ih =>
    intro i v
    simp only [unguarded_insertion_sort_loop]
    exact (ih _ _).trans (unguarded_linear_insert_perm comp v i)

theorem final_insertion_sort_perm {α : Type} (comp : α → α → Bool) (v : List α) :
    (final_insertion_sort comp v).Perm v := by
  unfold final_insertion_sort
  split
  · exact (unguarded_insertion_sort_loop_perm comp _ _ _).trans (insertion_sort_perm comp v _)
  · exact insertion_sort_perm comp v _

/-- The result of `std::sort` is a permutation of the input vector. -/
theorem sort_perm {α : Type} (comp : α → α → Bool) (v : List α) : (sort comp v).Perm v := by
  unfold sort
  split
  · exact List.Perm.refl _
  · exact (final_insertion_sort_perm comp _).trans (introsort_loop_perm comp _ v 0 v.length)

/-! ## `LibStdCxx.sort` returns a sorted list -/

theorem swo_asymm {α : Type} {comp : α → α → Bool} (h : StrictWeakOrder comp) (a b : α)
    (hab : comp a b = true) : comp b a = false := by
  cases hba : comp b a with
  | false => rfl
  | true =>
    have h1 := h.trans a b a hab hba
    rw [h.irrefl a] at h1
    cases h1

theorem set_after_concat {α : Type} (q : List α) (x y w : α) (s : List α) :
    (q ++ [x] ++ y :: s).set (q.length + 1) w = q ++ x :: w :: s := by
  rw [List.append_assoc, List.set_append_right _ _ (by omega)]
  simp

theorem linear_insert_loop_sorted {α : Type} (comp : α → α → Bool) (h : StrictWeakOrder comp)
    (val : α) (p : List α) :
    ∀ (y : α) (s : List α), p.Pairwise (fun a b => comp b a = false) →
      ∃ p', linear_insert_loop comp val p.length (p ++ y :: s) = p' ++ s ∧
        p'.length = p.length + 1 ∧
        p'.Pairwise (fun a b => comp b a = false) ∧ ∀ z ∈ p', z = val ∨ z ∈ p := by
  induction p using List.reverseRecOn with
  | nil =>
    intro y s _
    refine ⟨[val], ?_, rfl, List.pairwise_singleton _ _, ?_⟩
    · simp [linear_insert_loop]
    · intro z hz
      simp only [List.mem_singleton] at hz
      exact Or.inl hz
  | append_singleton q x ih =>
    intro y s hp
    rw [List.pairwise_append] at hp
    obtain ⟨hq, _, hqx⟩ := hp
    have hlen : (q ++ [x]).length = q.length + 1 := by simp
    rw [hlen]
    simp only [linear_insert_loop]
    have hx : (q ++ [x] ++ y :: s)[q.length]? = some x := by
      rw [List.append_assoc, List.getElem?_append_right (le_refl _), Nat.sub_self]
      rfl
    rw [hx]
    simp only
    split
    · rename_i hc
      rw [set_after_concat]
      obtain ⟨p2, he, hl, hs, hm⟩ := ih x (x :: s) hq
      refine ⟨p2 ++ [x], ?_, ?_, ?_, ?_⟩
      · rw [he]
        simp
      · simp [hl]
      · rw [List.pairwise_append]
        refine ⟨hs, List.pairwise_singleton _ _, ?_⟩
        intro a ha b hb
        simp only [List.mem_singleton] at hb
        subst hb
        rcases hm a ha with rfl | haq
        · exact swo_asymm h _ _ hc
        · exact hqx a haq b (by simp)
      · intro z hz
        simp only [List.mem_append, List.mem_singleton] at hz ⊢
        rcases hz with hz | hz
        · rcases hm z hz with h1 | h1
          · exact Or.inl h1
          · exact Or.inr (Or.inl h1)
        · exact Or.inr (Or.inr hz)
    · rename_i hc
      rw [set_after_concat]
      have hc2 : comp val x = false := by simpa using hc
      refine ⟨q ++ [x] ++ [val], by simp, by simp, ?_, ?_⟩
      · rw [List.pairwise_append]
        refine ⟨List.pairwise_append.2 ⟨hq, List.pairwise_singleton _ _, hqx⟩,
          List.pairwise_singleton _ _, ?_⟩
        intro a ha b hb
        simp only [List.mem_singleton] at hb
        subst hb
        simp only [List.mem_append, List.mem_singleton] at ha
        rcases ha with ha | ha
        · exact h.neg_trans _ _ _ hc2 (hqx a ha x (by simp))
        · rw [ha]
          exact hc2
      · intro z hz
        simp only [List.mem_append, List.mem_singleton] at hz ⊢
        tauto

theorem take_succ_of_none {α : Type} (R : α → α → Prop) (v : List α) (i : Nat)
    (hv : v[i]? = none) (hs : (v.take i).Pairwise R) : (v.take (i + 1)).Pairwise R := by
  have hle : v.length ≤ i := List.getElem?_eq_none_iff.1 hv
  rw [List.take_of_length_le (by omega)]
  rwa [List.take_of_length_le hle] at hs

theorem unguarded_linear_insert_sorted {α : Type} (comp : α → α → Bool)
    (h : StrictWeakOrder comp) (v : List α) (i : Nat)
    (hs : (v.take i).Pairwise (fun a b => comp b a = false)) :
    ((unguarded_linear_insert comp v i).take (i + 1)).Pairwise (fun a b => comp b a = false) := by
  unfold unguarded_linear_insert
  cases hv : v[i]? with
  | none => exact take_succ_of_none _ v i hv hs
  | some val =>
    simp only
    obtain ⟨hlt, _⟩ := List.getElem?_eq_some_iff.1 hv
    have hdecomp := rotate_front_eq v i val hv
    have hl : (v.take i).length = i := by
      rw [List.length_take]
      omega
    obtain ⟨p2, he, hlen, hsorted, _⟩ :=
      linear_insert_loop_sorted comp h val (v.take i) val (v.drop (i + 1)) hs
    rw [hl, ← hdecomp] at he
    rw [he, List.take_left' (by omega)]
    exact hsorted

theorem insertion_step_sorted {α : Type} (comp : α → α → Bool)
    (h : StrictWeakOrder comp) (v : List α) (i : Nat)
    (hs : (v.take i).Pairwise (fun a b => comp b a = false)) :
    ((insertion_step comp v i).take (i + 1)).Pairwise (fun a b => comp b a = false) := by
  unfold insertion_step
  split
  · rename_i hc
    cases hv : v[i]? with
    | none => exact take_succ_of_none _ v i hv hs
    | some val =>
      simp only
      obtain ⟨hlt, _⟩ := List.getElem?_eq_some_iff.1 hv
      have hl : (val :: v.take i).length = i + 1 := by
        rw [List.length_cons, List.length_take]
        omega
      rw [List.take_left' hl, List.pairwise_cons]
      refine ⟨?_, hs⟩
      intro b hb
      cases v with
      | nil => simp at hv
      | cons a v2 =>
        cases i with
        | zero => simp at hb
        | succ j =>
          simp only [compAt, hv, List.getElem?_cons_zero] at hc
          rw [List.take_succ_cons, List.pairwise_cons] at hs
          rw [List.take_succ_cons, List.mem_cons] at hb
          cases hbv : comp b val with
          | false => rfl
          | true =>
            have h1 := h.trans b val a hbv hc
            rcases hb with hb | hb
            · rw [hb, h.irrefl a] at h1
              cases h1
            · rw [hs.1 b hb] at h1
              cases h1
  · exact unguarded_linear_insert_sorted comp h v i hs

theorem insertion_sort_loop_sorted {α : Type} (comp : α → α → Bool)
    (h : StrictWeakOrder comp) (k : Nat) :
    ∀ (i : Nat) (v : List α), (v.take i).Pairwise (fun a b => comp b a = false) →
      ((insertion_sort_loop comp k i v).take (i + k)).Pairwise (fun a b => comp b a = false) := by
  induction k with
  | zero => intro i v hs; exact hs
  | succ k ih =>
    intro i v hs
    simp only [insertion_sort_loop]
    have h1 := ih (i + 1) _ (insertion_step_sorted comp h v i hs)
    rwa [show i + (k + 1) = i + 1 + k by omega]

theorem unguarded_insertion_sort_loop_sorted {α : Type} (comp : α → α → Bool)
    (h : StrictWeakOrder comp) (k : Nat) :
    ∀ (i : Nat) (v : List α), (v.take i).Pairwise (fun a b => comp b a = false) →
      ((unguarded_insertion_sort_loop comp k i v).take (i + k)).Pairwise
        (fun a b => comp b a = false) := by
  induction k with
  | zero => intro i v hs; exact hs
  | succ k ih =>
    intro i v hs
    simp only [unguarded_insertion_sort_loop]
    have h1 := ih (i + 1) _ (unguarded_linear_insert_sorted comp h v i hs)
    rwa [show i + (k + 1) = i + 1 + k by omega]

theorem take_one_pairwise {α : Type} (R : α → α → Prop) (v : List α) :
    (v.take 1).Pairwise R := by
  cases v with
  | nil => exact List.Pairwise.nil
  | cons a v => exact List.pairwise_singleton _ _

theorem insertion_sort_sorted {α : Type} (comp : α → α → Bool)
    (h : StrictWeakOrder comp) (v : List α) (last : Nat) :
    ((insertion_sort comp v last).take last).Pairwise (fun a b => comp b a = false) := by
  unfold insertion_sort
  split
  · rename_i h0
    rw [h0]
    exact List.Pairwise.nil
  · have h1 := insertion_sort_loop_sorted comp h (last - 1) 1 v (take_one_pairwise _ v)
    rwa [show 1 + (last - 1) = last by omega] at h1

theorem final_insertion_sort_sorted {α : Type} (comp : α → α → Bool)
    (h : StrictWeakOrder comp) (v : List α) :
    (final_insertion_sort comp v).Pairwise (fun a b => comp b a = false) := by
  have hlen : (final_insertion_sort comp v).length = v.length :=
    (final_insertion_sort_perm comp v).length_eq
  have key : ((final_insertion_sort comp v).take v.length).Pairwise
      (fun a b => comp b a = false) := by
    unfold final_insertion_sort
    split
    · rename_i hgt
      have h1 := unguarded_insertion_sort_loop_sorted comp h (v.length - S_threshold)
        S_threshold _ (insertion_sort_sorted comp h v S_threshold)
      rwa [show S_threshold + (v.length - S_threshold) = v.length by omega] at h1
    · exact insertion_sort_sorted comp h v v.length
  rwa [List.take_of_length_le (by omega)] at key

/-- On a strict weak ordering the result of `std::sort` is sorted: no element
compares less than an element placed before it. -/
theorem sort_sorted {α : Type} (comp : α → α → Bool) (h : StrictWeakOrder comp) (v : List α) :
    (sort comp v).Pairwise (fun a b => comp b a = false) := by
  unfold sort
  split
  · rename_i h0
    rw [List.length_eq_zero.1 h0]
    exact List.Pairwise.nil
  · exact final_insertion_sort_sorted comp h _

/-! ## The iteration bounds of the loops are enough -/

theorem lg_loop_fuel (k : Nat) : ∀ n : Nat, n ≤ k → lg_loop (k + 1) n = lg_loop k n := by
  induction k with
  | zero =>
    intro n hn
    simp [lg_loop, Nat.le_zero.1 hn]
  | succ k ih =>
    intro n hn
    conv_lhs => rw [lg_loop]
    conv_rhs => rw [lg_loop]
    split
    · rfl
    · rw [ih (n / 2) (by omega)]

theorem scan_up_fuel {α : Type} (comp : α → α → Bool) (v : List α) (pivot : Nat) (k : Nat) :
    ∀ first : Nat, v.length ≤ first + k →
      scan_up comp v pivot (k + 1) first = scan_up comp v pivot k first := by
  induction k with
  | zero =>
    intro first h
    have hv : v[first]? = none := List.getElem?_eq_none (by omega)
    simp [scan_up, compAt, hv]
  | succ k ih =>
    intro first h
    conv_lhs => rw [scan_up]
    conv_rhs => rw [scan_up]
    split
    · exact ih (first + 1) (by omega)
    · rfl

theorem scan_up_ge {α : Type} (comp : α → α → Bool) (v : List α) (pivot : Nat) (k : Nat) :
    ∀ first : Nat, first ≤ scan_up comp v pivot k first := by
  induction k with
  | zero => intro first; exact le_refl _
  | succ k ih =>
    intro first
    rw [scan_up]
    split
    · exact le_trans (Nat.le_succ _) (ih (first + 1))
    · exact le_refl _

theorem scan_down_le {α : Type} (comp : α → α → Bool) (v : List α) (pivot : Nat) (last : Nat) :
    scan_down comp v pivot last ≤ last := by
  induction last with
  | zero => exact le_refl _
  | succ last ih =>
    rw [scan_down]
    split
    · exact le_trans ih (Nat.le_succ _)
    · exact le_refl _

theorem unguarded_partition_fuel {α : Type} (comp : α → α → Bool) (pivot : Nat) (k : Nat) :
    ∀ (v : List α) (first last : Nat), last ≤ first + k →
      unguarded_partition comp pivot (k + 2) v first last
        = unguarded_partition comp pivot (k + 1) v first last := by
  induction k with
  | zero =>
    intro v first last h
    conv_lhs => rw [unguarded_partition]
    conv_rhs => rw [unguarded_partition]
    have h1 := scan_up_ge comp v pivot v.length first
    have h2 := scan_down_le comp v pivot (last - 1)
    split
    · rfl
    · rename_i hc
      simp only [Bool.not_eq_true', decide_eq_false_iff_not, not_not] at hc
      omega
  | succ k ih =>
    intro v first last h
    conv_lhs => rw [unguarded_partition]
    conv_rhs => rw [unguarded_partition]
    have h1 := scan_up_ge comp v pivot v.length first
    have h2 := scan_down_le comp v pivot (last - 1)
    split
    · rfl
    · exact ih _ _ _ (by omega)

/-- The passes allowed to the partition loop in `unguarded_partition_pivot` are
enough: more passes give the same result. -/
theorem unguarded_partition_pivot_fuel {α : Type} (comp : α → α → Bool) (v : List α)
    (first last extra : Nat) (h : first < last) :
    unguarded_partition comp first (last - first + extra)
        (move_median_to_first comp v first (first + 1) (first + (last - first) / 2) (last - 1))
        (first + 1) last
      = unguarded_partition_pivot comp v first last := by
  unfold unguarded_partition_pivot
  simp only
  induction extra with
  | zero => rfl
  | succ e ih =>
    rw [← ih]
    obtain ⟨m, hm⟩ : ∃ m, last - first + e = m + 1 := ⟨last - first + e - 1, by omega⟩
    rw [show last - first + (e + 1) = m + 2 by omega, hm]
    exact unguarded_partition_fuel comp first m _ _ _ (by omega)

theorem push_heap_fuel {α : Type} (comp : α → α → Bool) (first : Nat) (value : α)
    (topIndex : Nat) (k : Nat) :
    ∀ (v : List α) (holeIndex : Nat), holeIndex ≤ k →
      push_heap comp first value topIndex (k + 1) v holeIndex
        = push_heap comp first value topIndex k v holeIndex := by
  induction k with
  | zero =>
    intro v holeIndex h
    simp [push_heap, Nat.le_zero.1 h]
  | succ k ih =>
    intro v holeIndex h
    conv_lhs => rw [push_heap]
    conv_rhs => rw [push_heap]
    split
    · split
      · split
        · exact ih _ _ (by omega)
        · rfl
      · rfl
    · rfl

theorem adjust_heap_loop_fuel {α : Type} (comp : α → α → Bool) (first len : Nat) (k : Nat) :
    ∀ (v : List α) (holeIndex secondChild : Nat), (len - 1) / 2 ≤ secondChild + k →
      adjust_heap_loop comp first len (k + 1) v holeIndex secondChild
        = adjust_heap_loop comp first len k v holeIndex secondChild := by
  induction k with
  | zero =>
    intro v holeIndex secondChild h
    simp only [adjust_heap_loop]
    rw [if_neg (by omega)]
  | succ k ih =>
    intro v holeIndex secondChild h
    conv_lhs => rw [adjust_heap_loop]
    conv_rhs => rw [adjust_heap_loop]
    split
    · simp only
      split
      · refine ih _ _ _ ?_
        split <;> omega
      · rfl
    · rfl

end LibStdCxx

namespace MergeSplitBam

/-! ## `headers_compatible` -/

theorem headers_compatible_loop_iff (a b : bam_hdr_t) (k i : Nat) :
    headers_compatible_loop a b k i = true ↔
      ∀ j, i ≤ j → j < i + k →
        a.target_name j = b.target_name j ∧ a.target_len j = b.target_len j := by
  induction k generalizing i with
  | zero =>
    simp only [headers_compatible_loop, true_iff]
    intro j h1 h2
    omega
  | succ k ih =>
    simp only [headers_compatible_loop]
    by_cases hn : a.target_name i = b.target_name i
    · by_cases hl : a.target_len i = b.target_len i
      · simp only [hn, hl, bne_self_eq_false, Bool.false_eq_true, if_false, ih]
        constructor
        · intro h j h1 h2
          rcases Nat.eq_or_lt_of_le h1 with h3 | h3
          · subst h3
            exact ⟨hn, hl⟩
          · exact h j h3 (by omega)
        · intro h j h1 h2
          exact h j (by omega) (by omega)
      · have hl' : (a.target_len i != b.target_len i) = true := by simpa using hl
        simp only [hn, bne_self_eq_false, Bool.false_eq_true, if_false, hl', if_true, false_iff]
        intro h
        exact hl (h i (le_refl i) (by omega)).2
    · have hn' : (a.target_name i != b.target_name i) = true := by simpa using hn
      simp only [hn', if_true, Bool.false_eq_true, false_iff]
      intro h
      exact hn (h i (le_refl i) (by omega)).1

theorem headers_compatible_iff (a b : bam_hdr_t) :
    headers_compatible a b = true ↔
      a.n_targets = b.n_targets ∧
        ∀ i, i < a.n_targets →
          a.target_name i = b.target_name i ∧ a.target_len i = b.target_len i := by
  unfold headers_compatible
  by_cases hn : a.n_targets = b.n_targets
  · have hn' : (a.n_targets != b.n_targets) = false := by simpa using hn
    simp only [hn', Bool.false_eq_true, if_false, headers_compatible_loop_iff]
    constructor
    · intro h
      exact ⟨hn, fun i hi => h i (Nat.zero_le i) (by omega)⟩
    · intro h j _ h2
      exact h.2 j (by omega)
  · have hn' : (a.n_targets != b.n_targets) = true := by simpa using hn
    simp only [hn', if_true, Bool.false_eq_true, false_iff]
    intro h
    exact hn h.1

theorem headers_compatible_iff_eq (a b : bam_hdr_t) :
    headers_compatible a b = true ↔ a = b := by
  rw [headers_compatible_iff]
  constructor
  · rintro ⟨hlen, h⟩
    cases a with
    | mk ta =>
      cases b with
      | mk tb =>
        simp only [bam_hdr_t.n_targets, bam_hdr_t.target_name, bam_hdr_t.target_len] at hlen h
        congr 1
        apply List.ext_getElem hlen
        intro i h1 h2
        have := h i h1
        rw [List.getD_eq_getElem _ _ h1, List.getD_eq_getElem _ _ h2] at this
        cases hx : ta[i] with
        | mk n1 l1 =>
          cases hy : tb[i] with
          | mk n2 l2 =>
            rw [hx, hy] at this
            simp only at this
            rw [this.1, this.2]
  · rintro rfl
    exact ⟨rfl, fun i _ => ⟨rfl, rfl⟩⟩

/-- C5: `headers_compatible a b` returns true exactly when the two dictionaries
have the same number of entries and the same name and length at every index;
it is therefore reflexive and symmetric. -/
theorem headers_compatible_spec (a b : bam_hdr_t) :
    (headers_compatible a b = true ↔
      a.n_targets = b.n_targets ∧
        ∀ i, i < a.n_targets →
          a.target_name i = b.target_name i ∧ a.target_len i = b.target_len i) ∧
    headers_compatible a a = true ∧
    headers_compatible a b = headers_compatible b a := by
  refine ⟨headers_compatible_iff a b, (headers_compatible_iff_eq a a).2 rfl, ?_⟩
  rw [Bool.eq_iff_iff, headers_compatible_iff_eq, headers_compatible_iff_eq]
  exact eq_comm

/-! ## The comparators are strict weak orderings -/

theorem byReadsDesc_swo : StrictWeakOrder ChrStat.byReadsDesc where
  irrefl := fun a => by simp [ChrStat.byReadsDesc]
  trans := fun a b c h1 h2 => by
    simp only [ChrStat.byReadsDesc, gt_iff_lt, decide_eq_true_eq] at *
    omega
  neg_trans := fun a b c h1 h2 => by
    simp only [ChrStat.byReadsDesc, gt_iff_lt, decide_eq_false_iff_not, not_lt] at *
    omega

theorem rec_lt_swo : StrictWeakOrder Rec.lt where
  irrefl := fun a => by simp [Rec.lt]
  trans := fun a b c h1 h2 => by
    simp only [Rec.lt, decide_eq_true_eq] at *
    omega
  neg_trans := fun a b c h1 h2 => by
    simp only [Rec.lt, decide_eq_false_iff_not, not_lt] at *
    omega

/-! ## `std::sort` on a list without equivalent elements -/

/-- A list that is already strictly sorted is left as it is by any
`std::sort`. -/
theorem std_sort_strict_fixed {α : Type} (S : StdSort) (comp : α → α → Bool)
    (h : StrictWeakOrder comp) (l : List α)
    (hl : l.Pairwise (fun a b => comp a b = true)) : S.sort comp l = l := by
  have hp := S.perm comp l h
  have hs := S.sorted comp l h
  haveI : IsAntisymm α (fun a b => comp a b = true ∨ a = b) := ⟨fun a b hab hba => by
    rcases hab with hab | hab
    · rcases hba with hba | hba
      · have h1 := h.trans a b a hab hba
        rw [h.irrefl] at h1
        cases h1
      · exact hba.symm
    · exact hab⟩
  have htot : ∀ ⦃a⦄, a ∈ l → ∀ ⦃b⦄, b ∈ l → a ≠ b → (comp a b = true ∨ comp b a = true) :=
    List.Pairwise.forall (fun _ _ hxy => hxy.symm) (hl.imp (fun hab => Or.inl hab))
  apply List.eq_of_perm_of_sorted (r := fun a b => comp a b = true ∨ a = b) hp
  · refine hs.imp_of_mem ?_
    intro a b ha hb hab
    by_cases e : a = b
    · exact Or.inr e
    · rcases htot (hp.mem_iff.1 ha) (hp.mem_iff.1 hb) e with h1 | h1
      · exact Or.inl h1
      · rw [hab] at h1
        cases h1
  · exact hl.imp (fun hab => Or.inl hab)

/-! ## `chr_stats` -/

theorem foldl_push_if {α β : Type} (p : α → Bool) (f : α → β) (l : List α) (init : List β) :
    l.foldl (fun acc x => if p x then acc ++ [f x] else acc) init
      = init ++ (l.filter p).map f := by
  induction l generalizing init with
  | nil => simp
  | cons x l ih =>
    simp only [List.foldl_cons, ih, List.filter_cons]
    by_cases hp : p x = true
    · simp [hp]
    · simp [hp]

theorem chr_stats_build_eq (chr_vec : List (List Rec)) (n_targets : Nat) :
    chr_stats_build chr_vec n_targets
      = ((List.range n_targets).filter (fun tid => !(chr_vec.getD tid []).isEmpty)).map
          (fun tid => ({ tid := tid, reads := (chr_vec.getD tid []).length } : ChrStat)) := by
  unfold chr_stats_build
  have h := foldl_push_if (fun tid => !(chr_vec.getD tid []).isEmpty)
    (fun tid => ({ tid := tid, reads := (chr_vec.getD tid []).length } : ChrStat))
    (List.range n_targets) []
  simp only [List.nil_append] at h
  exact h

theorem chr_stats_build_tids (chr_vec : List (List Rec)) (n_targets : Nat) :
    (chr_stats_build chr_vec n_targets).map ChrStat.tid
      = (List.range n_targets).filter (fun tid => !(chr_vec.getD tid []).isEmpty) := by
  rw [chr_stats_build_eq, List.map_map]
  exact List.map_id _

theorem mem_chr_stats_build (chr_vec : List (List Rec)) (n_targets : Nat) (cs : ChrStat) :
    cs ∈ chr_stats_build chr_vec n_targets ↔
      cs.tid < n_targets ∧ chr_vec.getD cs.tid [] ≠ [] ∧
        cs.reads = (chr_vec.getD cs.tid []).length := by
  rw [chr_stats_build_eq]
  simp only [List.mem_map, List.mem_filter, List.mem_range, Bool.not_eq_true',
    List.isEmpty_eq_false]
  constructor
  · rintro ⟨tid, ⟨h1, h2⟩, rfl⟩
    exact ⟨h1, h2, rfl⟩
  · rintro ⟨h1, h2, h3⟩
    refine ⟨cs.tid, ⟨h1, h2⟩, ?_⟩
    cases cs with
    | mk t r =>
      simp only at h3
      simp [h3]

theorem chr_stats_sorted_perm (S : StdSort) (chr_vec : List (List Rec)) (n_targets : Nat) :
    (chr_stats_sorted S chr_vec n_targets).Perm (chr_stats_build chr_vec n_targets) :=
  S.perm _ _ byReadsDesc_swo

theorem chr_stats_sorted_nodup (S : StdSort) (chr_vec : List (List Rec)) (n_targets : Nat) :
    ((chr_stats_sorted S chr_vec n_targets).map ChrStat.tid).Nodup := by
  have hp := (chr_stats_sorted_perm S chr_vec n_targets).map ChrStat.tid
  rw [hp.nodup_iff, chr_stats_build_tids]
  exact (List.nodup_range n_targets).filter _

theorem chr_stats_sorted_desc (S : StdSort) (chr_vec : List (List Rec)) (n_targets : Nat) :
    (chr_stats_sorted S chr_vec n_targets).Pairwise (fun a b => b.reads ≤ a.reads) := by
  have h := S.sorted ChrStat.byReadsDesc (chr_stats_build chr_vec n_targets) byReadsDesc_swo
  refine h.imp ?_
  intro a b hab
  simpa [ChrStat.byReadsDesc] using hab

/-- C3 (as amended): the sorted statistics list has exactly one entry
`(tid, count)` for each non-empty bucket, with `count` the bucket size, none
for an empty bucket, and is ordered by count descending. -/
theorem chr_stats_sorted_spec (S : StdSort) (chr_vec : List (List Rec)) :
    let stats := chr_stats_sorted S chr_vec chr_vec.length
    (∀ cs, cs ∈ stats ↔
        cs.tid < chr_vec.length ∧ chr_vec.getD cs.tid [] ≠ [] ∧
          cs.reads = (chr_vec.getD cs.tid []).length) ∧
    (stats.map ChrStat.tid).Nodup ∧
    stats.Pairwise (fun a b => b.reads ≤ a.reads) := by
  intro stats
  refine ⟨fun cs => ?_, chr_stats_sorted_nodup S chr_vec _, chr_stats_sorted_desc S chr_vec _⟩
  rw [(chr_stats_sorted_perm S chr_vec chr_vec.length).mem_iff, mem_chr_stats_build]

/-- C3 (counterexample): seventeen chromosomes with one record each, so that
all counts are equal. The `std::sort` of libstdc++, which meets the contract
`StdSort`, returns the entries in the order of `tid`
8, 16, 15, 14, 13, 12, 11, 10, 9, 0, 7, 6, 5, 4, 3, 2, 1; the entry of
chromosome 8 stands before that of chromosome 0, so entries with equal counts
are not in ascending `tid` order. -/
theorem chr_stats_tie_order_counterexample :
    ∃ S : StdSort,
      (∀ (α : Type) (comp : α → α → Bool) (v : List α), S.sort comp v = LibStdCxx.sort comp v) ∧
      chr_stats_sorted S tied_chr_vec tied_chr_vec.length
        = [8, 16, 15, 14, 13, 12, 11, 10, 9, 0, 7, 6, 5, 4, 3, 2, 1].map
            (fun tid => { tid := tid, reads := 1 }) ∧
      ¬ (chr_stats_sorted S tied_chr_vec tied_chr_vec.length).Pairwise
          (fun a b => a.reads = b.reads → a.tid < b.tid) := by
  have h : LibStdCxx.sort ChrStat.byReadsDesc (chr_stats_build tied_chr_vec tied_chr_vec.length)
      = [8, 16, 15, 14, 13, 12, 11, 10, 9, 0, 7, 6, 5, 4, 3, 2, 1].map
          (fun tid => { tid := tid, reads := 1 }) := by decide
  refine ⟨⟨LibStdCxx.sort, fun comp l _ => LibStdCxx.sort_perm comp l,
    fun comp l hc => LibStdCxx.sort_sorted comp hc l⟩, fun _ _ _ => rfl, h, ?_⟩
  show ¬ (LibStdCxx.sort ChrStat.byReadsDesc
    (chr_stats_build tied_chr_vec tied_chr_vec.length)).Pairwise
      (fun a b => a.reads = b.reads → a.tid < b.tid)
  rw [h]
  decide

/-! ## Round-robin assignment -/

theorem getD_modify_push {α : Type} (bc : List (List α)) (x : α) (j b : Nat) (hj : j < bc.length) :
    (bc.modify (fun v => v ++ [x]) j).getD b [] =
      if j = b then bc.getD b [] ++ [x] else bc.getD b [] := by
  simp only [List.getD_eq_getElem?_getD, List.getElem?_modify]
  by_cases hjb : j = b
  · subst hjb
    simp [List.getElem?_eq_getElem hj]
  · simp only [hjb, if_false]
    cases bc[b]? <;> simp

theorem bucket_chrs_loop_length (n : Nat) (stats : List ChrStat) (i : Nat)
    (bc : List (List Nat)) :
    (bucket_chrs_loop n i stats bc).length = bc.length := by
  induction stats generalizing i bc with
  | nil => rfl
  | cons cs rest ih =>
    simp only [bucket_chrs_loop, ih, List.length_modify]

theorem bucket_chrs_loop_getD (n : Nat) (hn : 0 < n) (stats : List ChrStat) (i : Nat)
    (bc : List (List Nat)) (hbc : bc.length = n) (b : Nat) :
    (bucket_chrs_loop n i stats bc).getD b [] =
      bc.getD b [] ++
        ((stats.enumFrom i).filter (fun p => p.1 % n = b)).map (fun p => p.2.tid) := by
  induction stats generalizing i bc with
  | nil => simp [bucket_chrs_loop]
  | cons cs rest ih =>
    have hlt : i % n < bc.length := by
      rw [hbc]
      exact Nat.mod_lt i hn
    simp only [bucket_chrs_loop, List.enumFrom_cons, List.filter_cons]
    rw [ih (i + 1) _ (by rw [List.length_modify]; exact hbc), getD_modify_push _ _ _ _ hlt]
    by_cases hib : i % n = b
    · simp [hib]
    · simp [hib]

theorem bucket_chrs_build_length (stats : List ChrStat) (n : Nat) :
    (bucket_chrs_build stats n).length = n := by
  simp [bucket_chrs_build, bucket_chrs_loop_length]

theorem bucket_chrs_build_getD (stats : List ChrStat) (n : Nat) (hn : 0 < n) (b : Nat) :
    (bucket_chrs_build stats n).getD b [] =
      (stats.enum.filter (fun p => p.1 % n = b)).map (fun p => p.2.tid) := by
  unfold bucket_chrs_build
  rw [bucket_chrs_loop_getD n hn stats 0 _ (by simp) b]
  have h0 : (List.replicate n ([] : List Nat)).getD b [] = [] := by
    simp only [List.getD_eq_getElem?_getD, List.getElem?_replicate]
    split <;> rfl
  rw [h0, List.nil_append]
  rfl

theorem mem_bucket_chrs_build (stats : List ChrStat) (n : Nat) (hn : 0 < n) (b tid : Nat) :
    tid ∈ (bucket_chrs_build stats n).getD b [] ↔
      ∃ i, ∃ h : i < stats.length, i % n = b ∧ (stats.get ⟨i, h⟩).tid = tid := by
  rw [bucket_chrs_build_getD stats n hn b]
  simp only [List.mem_map, List.mem_filter, decide_eq_true_eq, Prod.exists]
  constructor
  · rintro ⟨i, cs, ⟨hmem, hmod⟩, rfl⟩
    obtain ⟨hlt, hget⟩ := List.mem_enum hmem
    exact ⟨i, hlt, hmod, by simp [hget]⟩
  · rintro ⟨i, hlt, hmod, rfl⟩
    refine ⟨i, stats.get ⟨i, hlt⟩, ⟨?_, hmod⟩, rfl⟩
    rw [List.mk_mem_enum_iff_getElem?]
    simp [List.getElem?_eq_getElem hlt]

/-- C4: for `numPartitions >= 1` bucket `b` receives exactly the chromosomes
at the sorted indices `i` with `i mod numPartitions = b`, in sorted-list order;
the chromosome at index `i` is in bucket `i mod numPartitions` and, the
chromosomes of the list being distinct, in no other bucket; with one partition
everything goes to bucket 0; and counts A:100, B:80, C:20 with two partitions
give A->0, B->1, C->0 with totals 120 and 80. -/
theorem bucket_chrs_round_robin (stats : List ChrStat) (n : Nat) (hn : 1 ≤ n) :
    (bucket_chrs_build stats n).length = n ∧
    (∀ b, b < n →
      (bucket_chrs_build stats n).getD b [] =
        (stats.enum.filter (fun p => p.1 % n = b)).map (fun p => p.2.tid)) ∧
    (∀ i (h : i < stats.length),
      i % n < n ∧ (stats.get ⟨i, h⟩).tid ∈ (bucket_chrs_build stats n).getD (i % n) []) ∧
    ((stats.map ChrStat.tid).Nodup →
      ∀ i (h : i < stats.length) b,
        (stats.get ⟨i, h⟩).tid ∈ (bucket_chrs_build stats n).getD b [] → b = i % n) ∧
    (n = 1 → (bucket_chrs_build stats n).getD 0 [] = stats.map ChrStat.tid) ∧
    ((∀ S : StdSort, chr_stats_sorted S abc_chr_vec 3 =
        [{ tid := 0, reads := 100 }, { tid := 1, reads := 80 }, { tid := 2, reads := 20 }]) ∧
      bucket_chrs_build [{ tid := 0, reads := 100 }, { tid := 1, reads := 80 },
        { tid := 2, reads := 20 }] 2 = [[0, 2], [1]] ∧
      bucket_reads abc_chr_vec [0, 2] = 120 ∧
      bucket_reads abc_chr_vec [1] = 80) := by
  have hpos : 0 < n := hn
  refine ⟨bucket_chrs_build_length stats n,
    fun b _ => bucket_chrs_build_getD stats n hpos b, ?_, ?_, ?_, ?_⟩
  · intro i h
    refine ⟨Nat.mod_lt i hpos, ?_⟩
    rw [mem_bucket_chrs_build stats n hpos]
    exact ⟨i, h, rfl, rfl⟩
  · intro hnd i h b hmem
    rw [mem_bucket_chrs_build stats n hpos] at hmem
    obtain ⟨j, hj, hmod, htid⟩ := hmem
    have hij : j = i := by
      have h1 : (stats.map ChrStat.tid).get ⟨j, by simpa using hj⟩
          = (stats.map ChrStat.tid).get ⟨i, by simpa using h⟩ := by
        simpa using htid
      have := (List.Nodup.get_inj_iff hnd).1 h1
      simpa using this
    rw [← hmod, hij]
  · intro h1
    subst h1
    rw [bucket_chrs_build_getD stats 1 hpos 0]
    have hall : stats.enum.filter (fun p => p.1 % 1 = 0) = stats.enum := by
      apply List.filter_eq_self.2
      intro p _
      simp [Nat.mod_one]
    rw [hall]
    have : (fun p : Nat × ChrStat => p.2.tid) = ChrStat.tid ∘ Prod.snd := rfl
    rw [this, ← List.map_map, List.enum_map_snd]
  · refine ⟨fun S => ?_, by decide, ?_, ?_⟩
    · have hb : chr_stats_build abc_chr_vec 3 =
          [{ tid := 0, reads := 100 }, { tid := 1, reads := 80 }, { tid := 2, reads := 20 }] := by
        simp [chr_stats_build, abc_chr_vec, List.range_succ]
      unfold chr_stats_sorted
      rw [hb]
      exact std_sort_strict_fixed S _ byReadsDesc_swo _ (by simp [ChrStat.byReadsDesc])
    · simp [bucket_reads, abc_chr_vec]
    · simp [bucket_reads, abc_chr_vec]

/-- C4 (witness): the round-robin statement at the three-chromosome list with
two partitions. -/
theorem bucket_chrs_round_robin_witness :
    1 ≤ 2 ∧
    (bucket_chrs_build [{ tid := 0, reads := 100 }, { tid := 1, reads := 80 },
        { tid := 2, reads := 20 }] 2).length = 2 :=
  ⟨by decide,
    (bucket_chrs_round_robin [{ tid := 0, reads := 100 }, { tid := 1, reads := 80 },
        { tid := 2, reads := 20 }] 2 (by decide)).1⟩

/-! ## Totals of the round-robin buckets -/

theorem bucket_reads_eq_sum (chr_vec : List (List Rec)) (tids : List Nat) :
    bucket_reads chr_vec tids = (tids.map (fun tid => (chr_vec.getD tid []).length)).sum := by
  unfold bucket_reads
  have h : ∀ (l : List Nat) (init : Nat),
      l.foldl (fun sum tid => sum + (chr_vec.getD tid []).length) init
        = init + (l.map (fun tid => (chr_vec.getD tid []).length)).sum := by
    intro l
    induction l with
    | nil => intro init; simp
    | cons x l ih =>
      intro init
      simp only [List.foldl_cons, ih, List.map_cons, List.sum_cons]
      omega
  rw [h tids 0, Nat.zero_add]

theorem strideSum_enumFrom (n b : Nat) (stats : List ChrStat) (i : Nat) (f : Nat → Nat)
    (hf : ∀ cs ∈ stats, f cs.tid = cs.reads) :
    (((stats.enumFrom i).filter (fun p => p.1 % n = b)).map (fun p => f p.2.tid)).sum
      = strideSum n b i (stats.map ChrStat.reads) := by
  induction stats generalizing i with
  | nil => simp [strideSum]
  | cons cs rest ih =>
    have hrest : ∀ c ∈ rest, f c.tid = c.reads := fun c hc => hf c (List.mem_cons_of_mem _ hc)
    have hcs : f cs.tid = cs.reads := hf cs (List.mem_cons_self _ _)
    simp only [List.enumFrom_cons, List.filter_cons, List.map_cons, strideSum]
    by_cases hib : i % n = b
    · simp [hib, ih (i + 1) hrest, hcs]
    · simp [hib, ih (i + 1) hrest]

theorem bucket_reads_build (chr_vec : List (List Rec)) (stats : List ChrStat) (n : Nat)
    (hn : 0 < n) (hcons : ∀ cs ∈ stats, (chr_vec.getD cs.tid []).length = cs.reads) (b : Nat) :
    bucket_reads chr_vec ((bucket_chrs_build stats n).getD b [])
      = strideSum n b 0 (stats.map ChrStat.reads) := by
  rw [bucket_reads_eq_sum, bucket_chrs_build_getD stats n hn b, List.map_map]
  exact strideSum_enumFrom n b stats 0 (fun tid => (chr_vec.getD tid []).length) hcons

theorem strideSum_shift (n b : Nat) (c : List Nat) (i : Nat) :
    strideSum n b (i + n) c = strideSum n b i c := by
  induction c generalizing i with
  | nil => rfl
  | cons x c ih =>
    have h := ih (i + 1)
    have e : i + 1 + n = i + n + 1 := by omega
    rw [e] at h
    simp only [strideSum, Nat.add_mod_right, h]

theorem strideSum_skip (n b : Nat) (c : List Nat) (i : Nat) (hbi : b < i) (hin : i ≤ n) :
    strideSum n b i c = strideSum n b 0 (c.drop (n - i)) := by
  induction c generalizing i with
  | nil => simp [strideSum]
  | cons x c ih =>
    rcases Nat.eq_or_lt_of_le hin with h | h
    · subst h
      have := strideSum_shift i b (x :: c) 0
      simp only [Nat.zero_add] at this
      simp [this]
    · have hne : ¬ i % n = b := by
        rw [Nat.mod_eq_of_lt h]
        omega
      have e : n - i = (n - (i + 1)) + 1 := by omega
      simp only [strideSum, hne, if_false, Nat.zero_add]
      rw [ih (i + 1) (by omega) (by omega), e, List.drop_succ_cons]

theorem strideSum_head (n b : Nat) (c : List Nat) (i : Nat) (hib : i ≤ b) (hbn : b < n) :
    strideSum n b i c = c.getD (b - i) 0 + strideSum n b 0 (c.drop (n - i)) := by
  induction c generalizing i with
  | nil => simp [strideSum]
  | cons x c ih =>
    rcases Nat.eq_or_lt_of_le hib with h | h
    · subst h
      have hmod : i % n = i := Nat.mod_eq_of_lt hbn
      have e : n - i = (n - (i + 1)) + 1 := by omega
      simp only [strideSum, hmod, if_true, Nat.sub_self, List.getD_cons_zero]
      rw [strideSum_skip n i c (i + 1) (by omega) (by omega), e, List.drop_succ_cons]
    · have hne : ¬ i % n = b := by
        rw [Nat.mod_eq_of_lt (by omega)]
        omega
      have e : n - i = (n - (i + 1)) + 1 := by omega
      have e2 : b - i = (b - (i + 1)) + 1 := by omega
      simp only [strideSum, hne, if_false, Nat.zero_add]
      rw [ih (i + 1) (by omega), e, List.drop_succ_cons, e2, List.getD_cons_succ]

theorem strideSum_rec (n b : Nat) (c : List Nat) (hbn : b < n) :
    strideSum n b 0 c = c.getD b 0 + strideSum n b 0 (c.drop n) := by
  have := strideSum_head n b c 0 (Nat.zero_le b) hbn
  simpa using this

theorem getD_le_of_desc (c : List Nat) (hd : c.Pairwise (fun x y => y ≤ x)) (i j : Nat)
    (hij : i ≤ j) : c.getD j 0 ≤ c.getD i 0 := by
  by_cases hj : j < c.length
  · have hi : i < c.length := by omega
    rw [List.getD_eq_getElem _ _ hj, List.getD_eq_getElem _ _ hi]
    rcases Nat.eq_or_lt_of_le hij with h | h
    · subst h
      exact le_refl _
    · exact List.pairwise_iff_getElem.1 hd i j hi hj h
  · rw [List.getD_eq_default _ _ (by omega)]
    exact Nat.zero_le _

theorem getD_drop' (c : List Nat) (n b : Nat) : (c.drop n).getD b 0 = c.getD (n + b) 0 := by
  simp [List.getD_eq_getElem?_getD, List.getElem?_drop]

theorem strideSum_mono_aux (n : Nat) (b b' : Nat) (hbb : b < b') (hb' : b' < n) :
    ∀ (m : Nat) (c : List Nat), c.length ≤ m → c.Pairwise (fun x y => y ≤ x) →
      strideSum n b' 0 c ≤ strideSum n b 0 c ∧
      strideSum n b 0 c ≤ strideSum n b' 0 c + c.getD b 0 := by
  intro m
  induction m with
  | zero =>
    intro c hc _
    have : c = [] := List.length_eq_zero.1 (Nat.le_zero.1 hc)
    subst this
    simp [strideSum]
  | succ m ih =>
    intro c hc hd
    cases c with
    | nil => simp [strideSum]
    | cons x c =>
      have hlen : ((x :: c).drop n).length ≤ m := by
        rw [List.length_drop]
        simp only [List.length_cons] at hc ⊢
        omega
      have hd' : ((x :: c).drop n).Pairwise (fun x y => y ≤ x) :=
        hd.sublist (List.drop_sublist n _)
      obtain ⟨ih1, ih2⟩ := ih _ hlen hd'
      rw [strideSum_rec n b (x :: c) (by omega), strideSum_rec n b' (x :: c) hb']
      have h1 := getD_le_of_desc (x :: c) hd b b' (by omega)
      have h2 := getD_le_of_desc (x :: c) hd b' (n + b) (by omega)
      rw [getD_drop'] at ih2
      constructor
      · omega
      · omega

theorem getD_le_largest (c : List Nat) (i : Nat) : c.getD i 0 ≤ c.foldr max 0 := by
  induction c generalizing i with
  | nil => simp
  | cons x c ih =>
    cases i with
    | zero => simp
    | succ i =>
      simp only [List.getD_cons_succ, List.foldr_cons]
      exact le_trans (ih i) (le_max_right _ _)

theorem bucket_reads_ordered_pair (chr_vec : List (List Rec)) (stats : List ChrStat) (n : Nat)
    (hn : 1 ≤ n) (hdesc : stats.Pairwise (fun a b => b.reads ≤ a.reads))
    (hcons : ∀ cs ∈ stats, (chr_vec.getD cs.tid []).length = cs.reads)
    (b b' : Nat) (hbb : b < b') (hb' : b' < n) :
    bucket_reads chr_vec ((bucket_chrs_build stats n).getD b' [])
      ≤ bucket_reads chr_vec ((bucket_chrs_build stats n).getD b []) ∧
    bucket_reads chr_vec ((bucket_chrs_build stats n).getD b [])
      ≤ bucket_reads chr_vec ((bucket_chrs_build stats n).getD b' [])
        + largest_count stats := by
  have hpos : 0 < n := hn
  rw [bucket_reads_build chr_vec stats n hpos hcons b,
    bucket_reads_build chr_vec stats n hpos hcons b']
  have hd : (stats.map ChrStat.reads).Pairwise (fun x y => y ≤ x) :=
    (List.pairwise_map).2 hdesc
  obtain ⟨h1, h2⟩ := strideSum_mono_aux n b b' hbb hb' _ _ (le_refl _) hd
  refine ⟨h1, le_trans h2 ?_⟩
  have := getD_le_largest (stats.map ChrStat.reads) b
  unfold largest_count
  omega

/-- C10: for a statistics list ordered by count descending and
`numPartitions >= 1`, the total printed for bucket `b` is at least the total
printed for any later bucket `b'`, and the totals of any two buckets differ by
at most the largest chromosome count. -/
theorem bucket_reads_balance (chr_vec : List (List Rec)) (stats : List ChrStat) (n : Nat)
    (hn : 1 ≤ n) (hdesc : stats.Pairwise (fun a b => b.reads ≤ a.reads))
    (hcons : ∀ cs ∈ stats, (chr_vec.getD cs.tid []).length = cs.reads) :
    (∀ b b', b < b' → b' < n →
      bucket_reads chr_vec ((bucket_chrs_build stats n).getD b' [])
        ≤ bucket_reads chr_vec ((bucket_chrs_build stats n).getD b [])) ∧
    (∀ b b', b < n → b' < n →
      bucket_reads chr_vec ((bucket_chrs_build stats n).getD b [])
        ≤ bucket_reads chr_vec ((bucket_chrs_build stats n).getD b' [])
          + largest_count stats) := by
  refine ⟨fun b b' hbb hb' =>
    (bucket_reads_ordered_pair chr_vec stats n hn hdesc hcons b b' hbb hb').1, ?_⟩
  intro b b' hb hb'
  rcases Nat.lt_trichotomy b b' with h | h | h
  · exact (bucket_reads_ordered_pair chr_vec stats n hn hdesc hcons b b' h hb').2
  · subst h
    exact Nat.le_add_right _ _
  · exact le_trans (bucket_reads_ordered_pair chr_vec stats n hn hdesc hcons b' b h hb).1
      (Nat.le_add_right _ _)

/-- The statistics list of a run agrees with the chromosome vectors it was
computed from. -/
theorem chr_stats_sorted_consistent (S : StdSort) (chr_vec : List (List Rec)) (n_targets : Nat) :
    ∀ cs ∈ chr_stats_sorted S chr_vec n_targets, (chr_vec.getD cs.tid []).length = cs.reads := by
  intro cs hcs
  rw [(chr_stats_sorted_perm S chr_vec n_targets).mem_iff, mem_chr_stats_build] at hcs
  exact hcs.2.2.symm

/-- The totals printed by `main` for two buckets `b < b'`: the statistics list
that `main` sorts meets the conditions of the balance statement. -/
theorem main_bucket_reads_ordered (S : StdSort) (chr_vec : List (List Rec)) (n_targets n : Nat)
    (hn : 1 ≤ n) (b b' : Nat) (hbb : b < b') (hb' : b' < n) :
    bucket_reads chr_vec
        ((bucket_chrs_build (chr_stats_sorted S chr_vec n_targets) n).getD b' [])
      ≤ bucket_reads chr_vec
        ((bucket_chrs_build (chr_stats_sorted S chr_vec n_targets) n).getD b []) ∧
    bucket_reads chr_vec
        ((bucket_chrs_build (chr_stats_sorted S chr_vec n_targets) n).getD b [])
      ≤ bucket_reads chr_vec
        ((bucket_chrs_build (chr_stats_sorted S chr_vec n_targets) n).getD b' [])
        + largest_count (chr_stats_sorted S chr_vec n_targets) :=
  bucket_reads_ordered_pair chr_vec _ n hn (chr_stats_sorted_desc S chr_vec n_targets)
    (chr_stats_sorted_consistent S chr_vec n_targets) b b' hbb hb'

/-- C10 (witness): counts 100, 80, 20 over two buckets. -/
theorem bucket_reads_balance_witness :
    bucket_reads abc_chr_vec
        ((bucket_chrs_build [{ tid := 0, reads := 100 }, { tid := 1, reads := 80 },
          { tid := 2, reads := 20 }] 2).getD 1 [])
      ≤ bucket_reads abc_chr_vec
        ((bucket_chrs_build [{ tid := 0, reads := 100 }, { tid := 1, reads := 80 },
          { tid := 2, reads := 20 }] 2).getD 0 []) ∧
    bucket_reads abc_chr_vec
        ((bucket_chrs_build [{ tid := 0, reads := 100 }, { tid := 1, reads := 80 },
          { tid := 2, reads := 20 }] 2).getD 0 [])
      ≤ bucket_reads abc_chr_vec
        ((bucket_chrs_build [{ tid := 0, reads := 100 }, { tid := 1, reads := 80 },
          { tid := 2, reads := 20 }] 2).getD 1 [])
        + largest_count [{ tid := 0, reads := 100 }, { tid := 1, reads := 80 },
          { tid := 2, reads := 20 }] :=
  have h := bucket_reads_balance abc_chr_vec
    [{ tid := 0, reads := 100 }, { tid := 1, reads := 80 }, { tid := 2, reads := 20 }] 2
    (by decide) (by simp) (by simp [abc_chr_vec])
  ⟨h.1 0 1 (by decide) (by decide), h.2 0 1 (by decide) (by decide)⟩

/-! ## Loading -/

theorem flatten_modify_push {α : Type} (bc : List (List α)) (x : α) (j : Nat)
    (hj : j < bc.length) :
    (bc.modify (fun v => v ++ [x]) j).flatten.Perm (bc.flatten ++ [x]) := by
  induction bc generalizing j with
  | nil => simp at hj
  | cons v bc ih =>
    cases j with
    | zero =>
      simp only [List.modify_zero_cons, List.flatten_cons, List.append_assoc]
      exact List.Perm.append_left v List.perm_append_comm
    | succ j =>
      have hj' : j < bc.length := by simpa using hj
      simp only [List.modify_succ_cons, List.flatten_cons]
      rw [List.append_assoc]
      exact List.Perm.append_left v (ih j hj')

theorem load_records_length (n : Nat) (recs : List bam1_t) (chr_vec : List (List Rec)) :
    (load_records n recs chr_vec).length = chr_vec.length := by
  induction recs generalizing chr_vec with
  | nil => rfl
  | cons b rest ih =>
    simp only [load_records]
    split
    · exact ih chr_vec
    · rw [ih, List.length_modify]

theorem load_records_getD (n : Nat) (recs : List bam1_t) (chr_vec : List (List Rec))
    (hlen : chr_vec.length = n) (t : Nat) (ht : t < n) :
    (load_records n recs chr_vec).getD t [] =
      chr_vec.getD t [] ++ (recs.filter (fun b => b.tid = (t : Int))).map Rec.ofBam := by
  induction recs generalizing chr_vec with
  | nil => simp [load_records]
  | cons b rest ih =>
    simp only [load_records]
    split
    · rename_i hskip
      have hne : ¬ b.tid = (t : Int) := by omega
      rw [ih chr_vec hlen]
      simp [List.filter_cons, hne]
    · rename_i hkeep
      have hlt : b.tid.toNat < chr_vec.length := by omega
      rw [ih _ (by rw [List.length_modify]; exact hlen), getD_modify_push _ _ _ _ hlt]
      by_cases hbt : b.tid.toNat = t
      · have hbt' : b.tid = (t : Int) := by omega
        simp [List.filter_cons, hbt, hbt']
      · have hbt' : ¬ b.tid = (t : Int) := by omega
        simp [List.filter_cons, hbt, hbt']

theorem load_records_flatten (n : Nat) (recs : List bam1_t) (chr_vec : List (List Rec))
    (hlen : chr_vec.length = n) :
    (load_records n recs chr_vec).flatten.Perm
      (chr_vec.flatten ++ (recs.filter (fun b => 0 ≤ b.tid ∧ b.tid < (n : Int))).map Rec.ofBam) := by
  induction recs generalizing chr_vec with
  | nil => simp [load_records]
  | cons b rest ih =>
    simp only [load_records]
    split
    · rename_i hskip
      have hne : ¬ (0 ≤ b.tid ∧ b.tid < (n : Int)) := by omega
      simpa [List.filter_cons, hne] using ih chr_vec hlen
    · rename_i hkeep
      have hlt : b.tid.toNat < chr_vec.length := by omega
      have hin : 0 ≤ b.tid ∧ b.tid < (n : Int) := by omega
      refine (ih _ (by rw [List.length_modify]; exact hlen)).trans ?_
      simp only [List.filter_cons, hin, and_self, decide_True, if_true, List.map_cons]
      refine ((flatten_modify_push chr_vec (Rec.ofBam b) _ hlt).append_right _).trans ?_
      simp

theorem load_records_append (n : Nat) (l1 l2 : List bam1_t) (chr_vec : List (List Rec)) :
    load_records n (l1 ++ l2) chr_vec = load_records n l2 (load_records n l1 chr_vec) := by
  induction l1 generalizing chr_vec with
  | nil => rfl
  | cons b rest ih =>
    simp only [List.cons_append, load_records]
    split
    · exact ih chr_vec
    · exact ih _

/-- The loop over input files succeeds on files that all open and carry the
master dictionary, and leaves what reading their records one after the other
leaves. -/
theorem load_inputs_ok (env : Env) (master : bam_hdr_t) (n : Nat) (sources : List InputFile)
    (i : Nat) (chr_vec : List (List Rec))
    (hopen : ∀ j (h : j < sources.length), env.sam_open_in (i + j) = some (sources.get ⟨j, h⟩))
    (hhdr : ∀ f ∈ sources, f.hdr = some master) :
    load_inputs env master n sources.length i chr_vec
      = .ok (load_records n (sources.flatMap InputFile.recs) chr_vec) := by
  induction sources generalizing i chr_vec with
  | nil => simp [load_inputs, load_records]
  | cons f rest ih =>
    have h0 := hopen 0 (by simp)
    simp only [Nat.add_zero, List.get_eq_getElem, List.getElem_cons_zero] at h0
    have hf : f.hdr = some master := hhdr f (List.mem_cons_self _ _)
    have hc : headers_compatible master master = true := (headers_compatible_iff_eq _ _).2 rfl
    simp only [List.length_cons, load_inputs, h0, hf, hc, Bool.not_true, Bool.false_eq_true,
      if_false]
    rw [ih (i + 1) _ ?_ (fun g hg => hhdr g (List.mem_cons_of_mem _ hg))]
    · congr 1
      simp only [List.flatMap_cons]
      exact (load_records_append n f.recs _ chr_vec).symm
    · intro j h
      have := hopen (j + 1) (by simpa using h)
      have e : i + 1 + j = i + (j + 1) := by omega
      rw [e, this]
      rfl

/-- The loop over input files stops with an error when one of the files it
is to read does not carry the master dictionary. -/
theorem load_inputs_mismatch (env : Env) (master : bam_hdr_t) (n k i : Nat)
    (chr_vec : List (List Rec))
    (hbad : ∃ j, i ≤ j ∧ j < i + k ∧
      ∃ f, env.sam_open_in j = some f ∧ f.hdr ≠ some master) :
    ∃ msg, load_inputs env master n k i chr_vec = .error msg := by
  induction k generalizing i chr_vec with
  | zero =>
    obtain ⟨j, h1, h2, _⟩ := hbad
    omega
  | succ k ih =>
    cases hopen : env.sam_open_in i with
    | none => exact ⟨"Failed to open input", by simp only [load_inputs, hopen]⟩
    | some fp =>
      cases hh : fp.hdr with
      | none => exact ⟨"Failed to read header", by simp only [load_inputs, hopen, hh]⟩
      | some hdr =>
        by_cases hc : headers_compatible master hdr = true
        · have hstep : load_inputs env master n (k + 1) i chr_vec
              = load_inputs env master n k (i + 1) (load_records n fp.recs chr_vec) := by
            simp only [load_inputs, hopen, hh, hc, Bool.not_true, Bool.false_eq_true, if_false]
          rw [hstep]
          apply ih
          obtain ⟨j, h1, h2, f, hf1, hf2⟩ := hbad
          rcases Nat.eq_or_lt_of_le h1 with h | h
          · subst h
            rw [hopen] at hf1
            cases hf1
            rw [hh, (headers_compatible_iff_eq _ _).1 hc] at hf2
            exact absurd rfl hf2
          · exact ⟨j, h, by omega, f, hf1, hf2⟩
        · have hc' : headers_compatible master hdr = false := by simpa using hc
          exact ⟨"Headers are not compatible across inputs",
            by simp only [load_inputs, hopen, hh, hc', Bool.not_false, if_true]⟩

/-! ## Opening the outputs -/

theorem open_outputs_ok_eq (env : Env) (pfx out_fmt : String) (master : bam_hdr_t)
    (k b : Nat) (outs res : List OutHandle)
    (h : open_outputs env pfx out_fmt master k b outs = .ok res) :
    res = outs ++ (List.range' b k).map (opened_out pfx out_fmt master) := by
  induction k generalizing b outs with
  | zero =>
    simp only [open_outputs, Except.ok.injEq] at h
    simp [h]
  | succ k ih =>
    simp only [open_outputs] at h
    split at h
    · cases h
    · split at h
      · cases h
      · split at h
        · cases h
        · have := ih _ _ h
          rw [this, List.range'_succ, List.map_cons, List.append_assoc]
          rfl

theorem open_outputs_ok (env : Env) (pfx out_fmt : String) (master : bam_hdr_t)
    (k b : Nat) (outs : List OutHandle)
    (hopen : ∀ j, b ≤ j → j < b + k → env.sam_open_out (out_path pfx j out_fmt) = true)
    (hdup : ∀ j, b ≤ j → j < b + k → env.bam_hdr_dup_ok j = true)
    (hwr : ∀ j, b ≤ j → j < b + k → env.sam_hdr_write_ok (out_path pfx j out_fmt) = true) :
    open_outputs env pfx out_fmt master k b outs
      = .ok (outs ++ (List.range' b k).map (opened_out pfx out_fmt master)) := by
  induction k generalizing b outs with
  | zero => simp [open_outputs]
  | succ k ih =>
    have h1 := hopen b (le_refl b) (by omega)
    have h2 := hdup b (le_refl b) (by omega)
    have h3 := hwr b (le_refl b) (by omega)
    simp only [open_outputs, h1, h2, h3, Bool.not_true, Bool.false_eq_true, if_false]
    rw [ih (b + 1) _ (fun j hj1 hj2 => hopen j (by omega) (by omega))
      (fun j hj1 hj2 => hdup j (by omega) (by omega))
      (fun j hj1 hj2 => hwr j (by omega) (by omega))]
    rw [List.range'_succ, List.map_cons, List.append_assoc]
    rfl

/-! ## Writing -/

theorem write_vec_eq (env : Env) (b : Nat) (recs : List Rec) (out : OutHandle) :
    write_vec env b recs out =
      { out with
        written := out.written ++ surviving env b (out.written.length + out.failed.length) recs
        failed := out.failed ++ rejected env b (out.written.length + out.failed.length) recs } := by
  induction recs generalizing out with
  | nil => simp [write_vec, surviving, rejected]
  | cons r rest ih =>
    simp only [write_vec, sam_write1]
    by_cases hok : env.sam_write1_ok b (out.written.length + out.failed.length) = true
    · simp only [hok, if_true]
      rw [ih]
      have e : out.written.length + 1 + out.failed.length
          = out.written.length + out.failed.length + 1 := by omega
      simp [surviving, rejected, List.enumFrom_cons, List.filter_cons, hok, e]
    · have hok' : env.sam_write1_ok b (out.written.length + out.failed.length) = false := by
        simpa using hok
      simp only [hok', Bool.false_eq_true, if_false]
      rw [ih]
      simp [surviving, rejected, List.enumFrom_cons, List.filter_cons, hok', Nat.add_assoc]

theorem write_vec_append (env : Env) (b : Nat) (l1 l2 : List Rec) (out : OutHandle) :
    write_vec env b (l1 ++ l2) out = write_vec env b l2 (write_vec env b l1 out) := by
  induction l1 generalizing out with
  | nil => rfl
  | cons r rest ih =>
    rw [List.cons_append]
    simp only [write_vec]
    exact ih _

theorem surviving_rejected_perm (env : Env) (b k : Nat) (recs : List Rec) :
    (surviving env b k recs ++ rejected env b k recs).Perm (recs.map Rec.b) := by
  unfold surviving rejected
  rw [← List.map_append]
  have h1 := List.filter_append_perm (fun p : Nat × Rec => env.sam_write1_ok b p.1)
    (recs.enumFrom k)
  have h2 := h1.map (fun p : Nat × Rec => p.2.b)
  refine h2.trans ?_
  have : (fun p : Nat × Rec => p.2.b) = Rec.b ∘ Prod.snd := rfl
  rw [this, ← List.map_map, List.enumFrom_map_snd]

theorem surviving_sublist (env : Env) (b k : Nat) (recs : List Rec) :
    (surviving env b k recs).Sublist (recs.map Rec.b) := by
  unfold surviving
  have h1 : ((recs.enumFrom k).filter (fun p => env.sam_write1_ok b p.1)).Sublist
      (recs.enumFrom k) := List.filter_sublist _
  have h2 := h1.map (fun p : Nat × Rec => p.2.b)
  have : (fun p : Nat × Rec => p.2.b) = Rec.b ∘ Prod.snd := rfl
  rw [this, ← List.map_map (l := recs.enumFrom k), List.enumFrom_map_snd] at h2
  rw [this]
  exact h2

theorem surviving_all_ok (env : Env) (b k : Nat) (recs : List Rec)
    (hok : ∀ j, env.sam_write1_ok b j = true) :
    surviving env b k recs = recs.map Rec.b := by
  unfold surviving
  rw [List.filter_eq_self.2 (fun p _ => hok p.1)]
  have : (fun p : Nat × Rec => p.2.b) = Rec.b ∘ Prod.snd := rfl
  rw [this, ← List.map_map, List.enumFrom_map_snd]

theorem surviving_append (env : Env) (b k : Nat) (l1 l2 : List Rec) :
    surviving env b k (l1 ++ l2)
      = surviving env b k l1 ++ surviving env b (k + l1.length) l2 := by
  unfold surviving
  rw [List.enumFrom_append, List.filter_append, List.map_append]

theorem getD_set_ne {α : Type} (l : List α) (i j : Nat) (x d : α) (h : i ≠ j) :
    (l.set i x).getD j d = l.getD j d := by
  simp only [List.getD_eq_getElem?_getD, List.getElem?_set_ne h]

theorem write_sequence_congr (S : StdSort) (cv1 cv2 : List (List Rec)) (tids : List Nat)
    (h : ∀ t ∈ tids, cv1.getD t [] = cv2.getD t []) :
    write_sequence S cv1 tids = write_sequence S cv2 tids := by
  unfold write_sequence
  induction tids with
  | nil => rfl
  | cons t rest ih =>
    simp only [List.flatMap_cons, sorted_chr]
    rw [h t (List.mem_cons_self _ _)]
    congr 1
    exact ih (fun t' ht' => h t' (List.mem_cons_of_mem _ ht'))

theorem write_bucket_eq (S : StdSort) (env : Env) (b : Nat) (tids : List Nat)
    (chr_vec : List (List Rec)) (out : OutHandle) (hnd : tids.Nodup) :
    (write_bucket S env b tids chr_vec out).2
        = write_vec env b (write_sequence S chr_vec tids) out ∧
      ∀ t, t ∉ tids →
        (write_bucket S env b tids chr_vec out).1.getD t [] = chr_vec.getD t [] := by
  induction tids generalizing chr_vec out with
  | nil => simp [write_bucket, write_sequence, write_vec]
  | cons tid rest ih =>
    have hnotin : tid ∉ rest := (List.nodup_cons.1 hnd).1
    obtain ⟨ih1, ih2⟩ := ih (chr_vec.set tid (S.sort Rec.lt (chr_vec.getD tid [])))
      (write_vec env b (S.sort Rec.lt (chr_vec.getD tid [])) out) (List.nodup_cons.1 hnd).2
    simp only [write_bucket]
    constructor
    · rw [ih1]
      have hc : write_sequence S (chr_vec.set tid (S.sort Rec.lt (chr_vec.getD tid []))) rest
          = write_sequence S chr_vec rest := by
        apply write_sequence_congr
        intro t ht
        apply getD_set_ne
        intro e
        exact hnotin (e ▸ ht)
      rw [hc]
      have : write_sequence S chr_vec (tid :: rest)
          = S.sort Rec.lt (chr_vec.getD tid []) ++ write_sequence S chr_vec rest := by
        simp [write_sequence, sorted_chr]
      rw [this, write_vec_append]
    · intro t ht
      have ht1 : tid ≠ t := fun e => ht (e ▸ List.mem_cons_self _ _)
      have ht2 : t ∉ rest := fun hm => ht (List.mem_cons_of_mem _ hm)
      rw [ih2 t ht2]
      exact getD_set_ne _ _ _ _ _ ht1

theorem write_outputs_eq (S : StdSort) (env : Env) (B : List (List Nat))
    (chr_vec0 : List (List Rec))
    (hnd : ∀ b, (B.getD b []).Nodup)
    (hdisj : ∀ b1 b2 t, t ∈ B.getD b1 [] → t ∈ B.getD b2 [] → b1 = b2)
    (k b : Nat) (chr_vec : List (List Rec)) (outs : List OutHandle)
    (hagree : ∀ b2 t, b ≤ b2 → t ∈ B.getD b2 [] → chr_vec.getD t [] = chr_vec0.getD t []) :
    ∀ j, (write_outputs S env B k b chr_vec outs).2[j]? =
      if b ≤ j ∧ j < b + k then
        (outs[j]?).map (fun o => write_vec env j (write_sequence S chr_vec0 (B.getD j [])) o)
      else outs[j]? := by
  induction k generalizing b chr_vec outs with
  | zero =>
    intro j
    have : ¬ (b ≤ j ∧ j < b + 0) := by omega
    rw [if_neg this]
    rfl
  | succ k ih =>
    intro j
    simp only [write_outputs]
    cases hob : outs[b]? with
    | none =>
      simp only []
      rw [ih (b + 1) chr_vec outs (fun b2 t h1 h2 => hagree b2 t (by omega) h2) j]
      by_cases hj : j = b
      · subst hj
        have : ¬ (j + 1 ≤ j ∧ j < j + 1 + k) := by omega
        simp [this, hob]
      · have : (b + 1 ≤ j ∧ j < b + 1 + k) ↔ (b ≤ j ∧ j < b + (k + 1)) := by omega
        simp only [this]
    | some out =>
      simp only []
      obtain ⟨hb1, hb2⟩ := write_bucket_eq S env b (B.getD b []) chr_vec out (hnd b)
      have hseq : write_sequence S chr_vec (B.getD b []) = write_sequence S chr_vec0 (B.getD b []) :=
        write_sequence_congr S _ _ _ (fun t ht => hagree b t (le_refl b) ht)
      rw [hseq] at hb1
      have hag : ∀ b2 t, b + 1 ≤ b2 → t ∈ B.getD b2 [] →
          (write_bucket S env b (B.getD b []) chr_vec out).1.getD t [] = chr_vec0.getD t [] := by
        intro b2 t h1 h2
        have hnot : t ∉ B.getD b [] := by
          intro hm
          have := hdisj b b2 t hm h2
          omega
        rw [hb2 t hnot]
        exact hagree b2 t (by omega) h2
      rw [ih (b + 1) _ _ hag j, hb1]
      have hblt : b < outs.length := by
        rcases Nat.lt_or_ge b outs.length with h | h
        · exact h
        · rw [List.getElem?_eq_none h] at hob
          cases hob
      by_cases hj : j = b
      · subst hj
        have : ¬ (j + 1 ≤ j ∧ j < j + 1 + k) := by omega
        have h2 : (j ≤ j ∧ j < j + (k + 1)) := by omega
        simp [this, h2, hob, List.getElem?_set_self hblt]
      · have : (b + 1 ≤ j ∧ j < b + 1 + k) ↔ (b ≤ j ∧ j < b + (k + 1)) := by omega
        have hne : b ≠ j := fun e => hj e.symm
        simp only [this, List.getElem?_set_ne hne]

/-! ## The buckets partition the non-empty chromosomes -/

theorem bucket_chrs_loop_flatten (n : Nat) (hn : 0 < n) (stats : List ChrStat) (i : Nat)
    (bc : List (List Nat)) (hbc : bc.length = n) :
    (bucket_chrs_loop n i stats bc).flatten.Perm (bc.flatten ++ stats.map ChrStat.tid) := by
  induction stats generalizing i bc with
  | nil => simp [bucket_chrs_loop]
  | cons cs rest ih =>
    have hlt : i % n < bc.length := by
      rw [hbc]
      exact Nat.mod_lt i hn
    simp only [bucket_chrs_loop, List.map_cons]
    refine (ih (i + 1) _ (by rw [List.length_modify]; exact hbc)).trans ?_
    refine ((flatten_modify_push bc cs.tid _ hlt).append_right _).trans ?_
    simp

theorem bucket_chrs_build_flatten (stats : List ChrStat) (n : Nat) (hn : 0 < n) :
    (bucket_chrs_build stats n).flatten.Perm (stats.map ChrStat.tid) := by
  unfold bucket_chrs_build
  have h := bucket_chrs_loop_flatten n hn stats 0 (List.replicate n []) (by simp)
  have h0 : (List.replicate n ([] : List Nat)).flatten = [] := by
    induction n with
    | zero => rfl
    | succ m _ => simp [List.replicate_succ]
  rw [h0, List.nil_append] at h
  exact h

theorem bucket_chrs_build_nodup (stats : List ChrStat) (n : Nat) (hn : 0 < n)
    (hnd : (stats.map ChrStat.tid).Nodup) (b : Nat) :
    ((bucket_chrs_build stats n).getD b []).Nodup := by
  rw [bucket_chrs_build_getD stats n hn b]
  have h1 : (stats.enum.filter (fun p => p.1 % n = b)).Sublist stats.enum := List.filter_sublist _
  have h2 := h1.map (fun p : Nat × ChrStat => p.2.tid)
  have e : (fun p : Nat × ChrStat => p.2.tid) = ChrStat.tid ∘ Prod.snd := rfl
  rw [e, ← List.map_map (l := stats.enum), List.enum_map_snd] at h2
  rw [e]
  exact hnd.sublist h2

theorem bucket_chrs_build_disjoint (stats : List ChrStat) (n : Nat) (hn : 0 < n)
    (hnd : (stats.map ChrStat.tid).Nodup) (b1 b2 t : Nat)
    (h1 : t ∈ (bucket_chrs_build stats n).getD b1 [])
    (h2 : t ∈ (bucket_chrs_build stats n).getD b2 []) : b1 = b2 := by
  rw [mem_bucket_chrs_build stats n hn] at h1 h2
  obtain ⟨i, hi, hmi, hti⟩ := h1
  obtain ⟨j, hj, hmj, htj⟩ := h2
  have hij : i = j := by
    have e : (stats.map ChrStat.tid).get ⟨i, by simpa using hi⟩
        = (stats.map ChrStat.tid).get ⟨j, by simpa using hj⟩ := by
      simp only [List.get_eq_getElem, List.getElem_map]
      simp only [List.get_eq_getElem] at hti htj
      rw [hti, htj]
    have := (List.Nodup.get_inj_iff hnd).1 e
    simpa using this
  rw [← hmi, ← hmj, hij]

theorem map_getD_range {α : Type} (l : List α) (d : α) :
    (List.range l.length).map (fun j => l.getD j d) = l := by
  apply List.ext_getElem
  · simp
  · intro i h1 h2
    simp [List.getElem?_eq_getElem h2]

theorem flatMap_filter_nonempty {α : Type} (l : List Nat) (g : Nat → List α) :
    (l.filter (fun t => !(g t).isEmpty)).flatMap g = l.flatMap g := by
  induction l with
  | nil => rfl
  | cons t l ih =>
    simp only [List.filter_cons, List.flatMap_cons]
    cases hg : g t with
    | nil => simpa using ih
    | cons x xs => simp [ih, hg]

/-! ## The chromosome vectors after loading -/

theorem loaded_chr_vec_length (nt : Nat) (sources : List InputFile) :
    (loaded_chr_vec nt sources).length = nt := by
  simp [loaded_chr_vec, load_records_length]

theorem loaded_chr_vec_getD (nt : Nat) (sources : List InputFile) (t : Nat) (ht : t < nt) :
    (loaded_chr_vec nt sources).getD t [] =
      ((input_records sources).filter (fun b => b.tid = (t : Int))).map Rec.ofBam := by
  unfold loaded_chr_vec
  rw [load_records_getD nt _ _ (by simp) t ht]
  have h0 : (List.replicate nt ([] : List Rec)).getD t [] = [] := by
    simp only [List.getD_eq_getElem?_getD, List.getElem?_replicate]
    split <;> rfl
  rw [h0, List.nil_append]

theorem loaded_chr_vec_flatten (nt : Nat) (sources : List InputFile) :
    (loaded_chr_vec nt sources).flatten.Perm ((mapped_records nt sources).map Rec.ofBam) := by
  unfold loaded_chr_vec mapped_records
  have h := load_records_flatten nt (input_records sources) (List.replicate nt []) (by simp)
  have h0 : (List.replicate nt ([] : List Rec)).flatten = [] := by
    induction nt with
    | zero => rfl
    | succ m _ => simp [List.replicate_succ]
  rw [h0, List.nil_append] at h
  exact h

/-- The records handed to `sam_write1` over all buckets are, up to order, the
records of the chromosome vectors. -/
theorem write_sequences_perm (S : StdSort) (cv : List (List Rec)) (n : Nat) (hn : 0 < n) :
    ((List.range n).flatMap (fun j =>
        write_sequence S cv ((bucket_chrs_build (chr_stats_sorted S cv cv.length) n).getD j []))).Perm
      cv.flatten := by
  have hB := bucket_chrs_build_length (chr_stats_sorted S cv cv.length) n
  have e1 : (List.range n).flatMap (fun j =>
        write_sequence S cv ((bucket_chrs_build (chr_stats_sorted S cv cv.length) n).getD j []))
      = (bucket_chrs_build (chr_stats_sorted S cv cv.length) n).flatten.flatMap
          (sorted_chr S cv) := by
    have := map_getD_range (bucket_chrs_build (chr_stats_sorted S cv cv.length) n) []
    rw [hB] at this
    conv_rhs => rw [← this]
    simp only [write_sequence, List.flatMap_def, List.map_map, List.map_flatten,
      List.flatten_flatten]
    rfl
  rw [e1]
  refine (List.Perm.flatMap_right _
    (bucket_chrs_build_flatten (chr_stats_sorted S cv cv.length) n hn)).trans ?_
  refine (List.Perm.flatMap_right _
    ((chr_stats_sorted_perm S cv cv.length).map ChrStat.tid)).trans ?_
  rw [chr_stats_build_tids]
  refine (List.Perm.flatMap_left _
    (fun t _ => S.perm Rec.lt (cv.getD t []) rec_lt_swo)).trans ?_
  rw [flatMap_filter_nonempty (List.range cv.length) (fun t => cv.getD t [])]
  rw [List.flatMap_def, map_getD_range]

/-! ## A run on valid inputs -/

theorem load_inputs_sources (env : Env) (master : bam_hdr_t) (sources : List InputFile)
    (hin : ∀ j (h : j < sources.length), env.sam_open_in j = some (sources.get ⟨j, h⟩))
    (hhdr : ∀ f ∈ sources, f.hdr = some master) :
    load_inputs env master master.n_targets sources.length 0
        (List.replicate master.n_targets [])
      = .ok (loaded_chr_vec master.n_targets sources) := by
  have h := load_inputs_ok env master master.n_targets sources 0
    (List.replicate master.n_targets [])
    (fun j hj => by rw [Nat.zero_add]; exact hin j hj) hhdr
  rw [h]
  rfl

theorem run_bucket_chrs_nodup (S : StdSort) (master : bam_hdr_t) (sources : List InputFile)
    (n : Nat) (hn : 0 < n) (b : Nat) :
    ((run_bucket_chrs S master sources n).getD b []).Nodup :=
  bucket_chrs_build_nodup _ n hn (chr_stats_sorted_nodup S _ _) b

theorem run_bucket_chrs_disjoint (S : StdSort) (master : bam_hdr_t) (sources : List InputFile)
    (n : Nat) (hn : 0 < n) (b1 b2 t : Nat)
    (h1 : t ∈ (run_bucket_chrs S master sources n).getD b1 [])
    (h2 : t ∈ (run_bucket_chrs S master sources n).getD b2 []) : b1 = b2 :=
  bucket_chrs_build_disjoint _ n hn (chr_stats_sorted_nodup S _ _) b1 b2 t h1 h2

/-- On input files that all open and carry the master dictionary, and with
outputs that can be created, `main` returns 0 and leaves in bucket `b` the
file `final_out ... b`. -/
theorem main_valid (S : StdSort) (env : Env) (pfx out_fmt : String)
    (sources : List InputFile) (master : bam_hdr_t) (n : Nat)
    (hsrc : 0 < sources.length) (hn : 1 ≤ n)
    (hin : ∀ j (h : j < sources.length), env.sam_open_in j = some (sources.get ⟨j, h⟩))
    (hhdr : ∀ f ∈ sources, f.hdr = some master)
    (hopen : ∀ b, b < n → env.sam_open_out (out_path pfx b out_fmt) = true)
    (hdup : ∀ b, b < n → env.bam_hdr_dup_ok b = true)
    (hwr : ∀ b, b < n → env.sam_hdr_write_ok (out_path pfx b out_fmt) = true) :
    main S env pfx (sources.length : Int) (n : Int) out_fmt =
      { status := 0
        outs := (List.range n).map (final_out S env pfx out_fmt master sources n) } := by
  have hpos : 0 < n := hn
  have h0 := hin 0 hsrc
  have hf0 : (sources.get ⟨0, hsrc⟩).hdr = some master := hhdr _ (List.get_mem _ _ _)
  have hargs : ¬ ((sources.length : Int) ≤ 0 ∨ (n : Int) ≤ 0) := by omega
  have hload := load_inputs_sources env master sources hin hhdr
  have hout := open_outputs_ok env pfx out_fmt master n 0 []
    (fun j _ hj => hopen j (by omega)) (fun j _ hj => hdup j (by omega))
    (fun j _ hj => hwr j (by omega))
  unfold main
  rw [if_neg hargs]
  simp only [h0, hf0, Int.toNat_natCast, hload, hout, List.nil_append]
  congr 1
  apply List.ext_getElem?
  intro j
  change (write_outputs S env (run_bucket_chrs S master sources n) n 0 _ _).2[j]? = _
  rw [write_outputs_eq S env _ (loaded_chr_vec master.n_targets sources)
    (fun b => run_bucket_chrs_nodup S master sources n hpos b)
    (fun b1 b2 t => run_bucket_chrs_disjoint S master sources n hpos b1 b2 t)
    n 0 _ _ (fun _ _ _ _ => rfl) j]
  by_cases hj : j < n
  · have hc : 0 ≤ j ∧ j < 0 + n := by omega
    rw [if_pos hc, ← List.range_eq_range']
    simp only [List.getElem?_map, List.getElem?_range hj, Option.map_some']
    rfl
  · have hc : ¬ (0 ≤ j ∧ j < 0 + n) := by omega
    rw [if_neg hc, ← List.range_eq_range']
    simp only [List.getElem?_map]
    rw [List.getElem?_eq_none (by simpa using hj)]
    rfl

theorem main_valid_outs_get (S : StdSort) (env : Env) (pfx out_fmt : String)
    (sources : List InputFile) (master : bam_hdr_t) (n b : Nat) :
    ((List.range n).map (final_out S env pfx out_fmt master sources n))[b]? =
      if b < n then some (final_out S env pfx out_fmt master sources n b) else none := by
  by_cases hb : b < n
  · simp [hb, List.getElem?_range hb]
  · simp only [hb, if_false, List.getElem?_map]
    rw [List.getElem?_eq_none (by simpa using hb)]
    rfl

theorem final_out_written (S : StdSort) (env : Env) (pfx out_fmt : String)
    (sources : List InputFile) (master : bam_hdr_t) (n b : Nat) :
    (final_out S env pfx out_fmt master sources n b).written
      = surviving env b 0 (run_write_sequence S master sources n b) := by
  simp [final_out, write_vec_eq, opened_out]

theorem final_out_failed (S : StdSort) (env : Env) (pfx out_fmt : String)
    (sources : List InputFile) (master : bam_hdr_t) (n b : Nat) :
    (final_out S env pfx out_fmt master sources n b).failed
      = rejected env b 0 (run_write_sequence S master sources n b) := by
  simp [final_out, write_vec_eq, opened_out]

theorem final_out_hdr (S : StdSort) (env : Env) (pfx out_fmt : String)
    (sources : List InputFile) (master : bam_hdr_t) (n b : Nat) :
    (final_out S env pfx out_fmt master sources n b).hdr = some master ∧
    (final_out S env pfx out_fmt master sources n b).path = out_path pfx b out_fmt ∧
    (final_out S env pfx out_fmt master sources n b).mode = out_mode out_fmt := by
  simp [final_out, write_vec_eq, opened_out]

/-- Every record of a sorted chromosome vector of a run came from an input
record with that `tid`. -/
theorem mem_sorted_chr_loaded (S : StdSort) (nt : Nat) (sources : List InputFile) (t : Nat)
    (ht : t < nt) (r : Rec) (hr : r ∈ sorted_chr S (loaded_chr_vec nt sources) t) :
    r.b ∈ input_records sources ∧ r.b.tid = (t : Int) ∧ r = Rec.ofBam r.b := by
  unfold sorted_chr at hr
  rw [(S.perm Rec.lt _ rec_lt_swo).mem_iff, loaded_chr_vec_getD nt sources t ht] at hr
  simp only [List.mem_map, List.mem_filter, decide_eq_true_eq] at hr
  obtain ⟨x, ⟨hx1, hx2⟩, rfl⟩ := hr
  exact ⟨hx1, hx2, rfl⟩

theorem run_bucket_chrs_lt (S : StdSort) (master : bam_hdr_t) (sources : List InputFile)
    (n : Nat) (hn : 0 < n) (b t : Nat)
    (h : t ∈ (run_bucket_chrs S master sources n).getD b []) : t < master.n_targets := by
  unfold run_bucket_chrs at h
  rw [mem_bucket_chrs_build _ n hn] at h
  obtain ⟨i, hi, _, hti⟩ := h
  have hmem : (chr_stats_sorted S (loaded_chr_vec master.n_targets sources) master.n_targets).get
      ⟨i, hi⟩ ∈ chr_stats_sorted S (loaded_chr_vec master.n_targets sources) master.n_targets :=
    List.get_mem _ _ _
  rw [(chr_stats_sorted_perm S _ _).mem_iff, mem_chr_stats_build] at hmem
  rw [← hti]
  exact hmem.1

/-- A record written to bucket `b` is an input record whose chromosome is
listed in `bucket_chrs[b]`. -/
theorem mem_final_out_written (S : StdSort) (env : Env) (pfx out_fmt : String)
    (sources : List InputFile) (master : bam_hdr_t) (n b : Nat) (hn : 0 < n) (x : bam1_t)
    (hx : x ∈ (final_out S env pfx out_fmt master sources n b).written) :
    x ∈ input_records sources ∧ 0 ≤ x.tid ∧ x.tid < (master.n_targets : Int) ∧
      x.tid.toNat ∈ (run_bucket_chrs S master sources n).getD b [] := by
  rw [final_out_written] at hx
  have hx2 := (surviving_sublist env b 0 _).subset hx
  simp only [run_write_sequence, write_sequence, List.mem_map, List.mem_flatMap] at hx2
  obtain ⟨r, ⟨t, ht, hr⟩, rfl⟩ := hx2
  have htlt := run_bucket_chrs_lt S master sources n hn b t ht
  obtain ⟨h1, h2, _⟩ := mem_sorted_chr_loaded S master.n_targets sources t htlt r hr
  refine ⟨h1, by omega, by omega, ?_⟩
  have : r.b.tid.toNat = t := by omega
  rw [this]
  exact ht

/-! ## What reaches the output files -/

theorem outs_written_failed_perm (S : StdSort) (env : Env) (pfx out_fmt : String)
    (sources : List InputFile) (master : bam_hdr_t) (n : Nat) (hn : 0 < n) :
    (((List.range n).map (final_out S env pfx out_fmt master sources n)).flatMap OutHandle.written
      ++ ((List.range n).map (final_out S env pfx out_fmt master sources n)).flatMap
          OutHandle.failed).Perm
      (mapped_records master.n_targets sources) := by
  rw [List.flatMap_map, List.flatMap_map]
  refine (List.flatMap_append_perm _ _ _).trans ?_
  have h1 : ((List.range n).flatMap (fun j =>
        (final_out S env pfx out_fmt master sources n j).written
          ++ (final_out S env pfx out_fmt master sources n j).failed)).Perm
      ((List.range n).flatMap (fun j => (run_write_sequence S master sources n j).map Rec.b)) := by
    apply List.Perm.flatMap_left
    intro j _
    rw [final_out_written, final_out_failed]
    exact surviving_rejected_perm env j 0 _
  refine h1.trans ?_
  rw [← List.map_flatMap]
  have h2 := write_sequences_perm S (loaded_chr_vec master.n_targets sources) n hn
  rw [loaded_chr_vec_length] at h2
  have h3 := (h2.trans (loaded_chr_vec_flatten master.n_targets sources)).map Rec.b
  refine h3.trans ?_
  rw [List.map_map]
  have : (Rec.b ∘ Rec.ofBam) = id := rfl
  rw [this, List.map_id]

/-- The run on a non-empty list of input files with the master dictionary. -/
theorem merge_split_records_nonempty (S : StdSort) (env : Env) (pfx out_fmt : String)
    (sources : List InputFile) (master : bam_hdr_t) (n : Nat)
    (hsrc : 0 < sources.length) (hn : 1 ≤ n)
    (hin : ∀ j (h : j < sources.length), env.sam_open_in j = some (sources.get ⟨j, h⟩))
    (hhdr : ∀ f ∈ sources, f.hdr = some master)
    (hopen : ∀ b, b < n → env.sam_open_out (out_path pfx b out_fmt) = true)
    (hdup : ∀ b, b < n → env.bam_hdr_dup_ok b = true)
    (hwr : ∀ b, b < n → env.sam_hdr_write_ok (out_path pfx b out_fmt) = true) :
    (main S env pfx (sources.length : Int) (n : Int) out_fmt).status = 0 ∧
    (main S env pfx (sources.length : Int) (n : Int) out_fmt).outs.length = n ∧
    ((↑((main S env pfx (sources.length : Int) (n : Int) out_fmt).outs.flatMap
          OutHandle.written) : Multiset bam1_t)
      = (↑(mapped_records master.n_targets sources) : Multiset bam1_t)
        - (↑((main S env pfx (sources.length : Int) (n : Int) out_fmt).outs.flatMap
            OutHandle.failed) : Multiset bam1_t)) ∧
    ((↑((main S env pfx (sources.length : Int) (n : Int) out_fmt).outs.flatMap
          OutHandle.failed) : Multiset bam1_t)
      ≤ (↑(mapped_records master.n_targets sources) : Multiset bam1_t)) ∧
    (∀ (b : Nat) (out : OutHandle) (x : bam1_t), (main S env pfx (sources.length : Int) (n : Int) out_fmt).outs[b]? = some out →
      x ∈ out.written →
        0 ≤ x.tid ∧ x.tid < (master.n_targets : Int) ∧
          x.tid.toNat ∈ (run_bucket_chrs S master sources n).getD b []) ∧
    (∀ (b b2 : Nat) (out out2 : OutHandle) (x : bam1_t),
      (main S env pfx (sources.length : Int) (n : Int) out_fmt).outs[b]? = some out →
      (main S env pfx (sources.length : Int) (n : Int) out_fmt).outs[b2]? = some out2 →
      x ∈ out.written → x ∈ out2.written → b = b2) ∧
    (∀ out ∈ (main S env pfx (sources.length : Int) (n : Int) out_fmt).outs,
      ∀ x ∈ out.written, x.tid ≠ -1) := by
  have hpos : 0 < n := hn
  rw [main_valid S env pfx out_fmt sources master n hsrc hn hin hhdr hopen hdup hwr]
  dsimp only
  have hperm := outs_written_failed_perm S env pfx out_fmt sources master n hpos
  have hadd : (↑(((List.range n).map (final_out S env pfx out_fmt master sources n)).flatMap
        OutHandle.written) : Multiset bam1_t)
      + ↑(((List.range n).map (final_out S env pfx out_fmt master sources n)).flatMap
        OutHandle.failed)
      = ↑(mapped_records master.n_targets sources) := by
    rw [Multiset.coe_add]
    exact Multiset.coe_eq_coe.2 hperm
  have hget : ∀ b out, ((List.range n).map (final_out S env pfx out_fmt master sources n))[b]?
      = some out → b < n ∧ out = final_out S env pfx out_fmt master sources n b := by
    intro b out h
    rw [main_valid_outs_get] at h
    by_cases hb : b < n
    · rw [if_pos hb] at h
      exact ⟨hb, (Option.some.inj h).symm⟩
    · rw [if_neg hb] at h
      cases h
  refine ⟨rfl, by simp, eq_tsub_of_add_eq hadd, ?_, ?_, ?_, ?_⟩
  · rw [← hadd]
    exact Multiset.le_add_left _ _
  · intro b out x hb hx
    obtain ⟨_, rfl⟩ := hget b out hb
    exact (mem_final_out_written S env pfx out_fmt sources master n b hpos x hx).2
  · intro b b2 out out2 x hb hb2 hx hx2
    obtain ⟨_, rfl⟩ := hget b out hb
    obtain ⟨_, rfl⟩ := hget b2 out2 hb2
    have h1 := (mem_final_out_written S env pfx out_fmt sources master n b hpos x hx).2.2.2
    have h2 := (mem_final_out_written S env pfx out_fmt sources master n b2 hpos x hx2).2.2.2
    exact run_bucket_chrs_disjoint S master sources n hpos b b2 _ h1 h2
  · intro out hout x hx
    simp only [List.mem_map, List.mem_range] at hout
    obtain ⟨b, _, rfl⟩ := hout
    have := (mem_final_out_written S env pfx out_fmt sources master n b hpos x hx).2.1
    omega

/-- C1: for every list of input files with the master dictionary and
`numPartitions >= 1`, the records written to the output files, taken together
as a multiset, are the input records with `tid` in `[0, n_targets)` minus those
whose write failed; a written record sits in the file of the bucket that lists
its chromosome and in no other file; no record with `tid` outside
`[0, n_targets)`, in particular none with `tid = -1`, is written; and when
there is at least one input file the run returns 0 with `numPartitions` output
files. -/
theorem merge_split_records_conserved (S : StdSort) (env : Env) (pfx out_fmt : String)
    (sources : List InputFile) (master : bam_hdr_t) (n : Nat) (hn : 1 ≤ n)
    (hin : ∀ j (h : j < sources.length), env.sam_open_in j = some (sources.get ⟨j, h⟩))
    (hhdr : ∀ f ∈ sources, f.hdr = some master)
    (hopen : ∀ b, b < n → env.sam_open_out (out_path pfx b out_fmt) = true)
    (hdup : ∀ b, b < n → env.bam_hdr_dup_ok b = true)
    (hwr : ∀ b, b < n → env.sam_hdr_write_ok (out_path pfx b out_fmt) = true) :
    (0 < sources.length →
      (main S env pfx (sources.length : Int) (n : Int) out_fmt).status = 0 ∧
      (main S env pfx (sources.length : Int) (n : Int) out_fmt).outs.length = n) ∧
    ((↑((main S env pfx (sources.length : Int) (n : Int) out_fmt).outs.flatMap
          OutHandle.written) : Multiset bam1_t)
      = (↑(mapped_records master.n_targets sources) : Multiset bam1_t)
        - (↑((main S env pfx (sources.length : Int) (n : Int) out_fmt).outs.flatMap
            OutHandle.failed) : Multiset bam1_t)) ∧
    ((↑((main S env pfx (sources.length : Int) (n : Int) out_fmt).outs.flatMap
          OutHandle.failed) : Multiset bam1_t)
      ≤ (↑(mapped_records master.n_targets sources) : Multiset bam1_t)) ∧
    (∀ (b : Nat) (out : OutHandle) (x : bam1_t),
      (main S env pfx (sources.length : Int) (n : Int) out_fmt).outs[b]? = some out →
      x ∈ out.written →
        0 ≤ x.tid ∧ x.tid < (master.n_targets : Int) ∧
          x.tid.toNat ∈ (run_bucket_chrs S master sources n).getD b []) ∧
    (∀ (b b2 : Nat) (out out2 : OutHandle) (x : bam1_t),
      (main S env pfx (sources.length : Int) (n : Int) out_fmt).outs[b]? = some out →
      (main S env pfx (sources.length : Int) (n : Int) out_fmt).outs[b2]? = some out2 →
      x ∈ out.written → x ∈ out2.written → b = b2) ∧
    (∀ out ∈ (main S env pfx (sources.length : Int) (n : Int) out_fmt).outs,
      ∀ x ∈ out.written, x.tid ≠ -1) := by
  cases sources with
  | nil =>
    have hm : main S env pfx (([] : List InputFile).length : Int) (n : Int) out_fmt = die [] := by
      unfold main
      rw [if_pos (Or.inl (by simp))]
    rw [hm]
    refine ⟨fun h => absurd h (by simp), ?_, ?_, ?_, ?_, ?_⟩
    · simp [die, mapped_records, input_records]
    · simp [die]
    · intro b out x hb
      simp [die] at hb
    · intro b b2 out out2 x hb
      simp [die] at hb
    · intro out hout
      simp [die] at hout
  | cons f rest =>
    obtain ⟨h1, h2, h3, h4, h5, h6, h7⟩ := merge_split_records_nonempty S env pfx out_fmt
      (f :: rest) master n (by simp) hn hin hhdr hopen hdup hwr
    exact ⟨fun _ => ⟨h1, h2⟩, h3, h4, h5, h6, h7⟩

/-! ## Order inside an output file -/

theorem sorted_chr_pos (S : StdSort) (cv : List (List Rec)) (t : Nat) :
    (sorted_chr S cv t).Pairwise (fun a b => a.pos ≤ b.pos) := by
  have h := S.sorted Rec.lt (cv.getD t []) rec_lt_swo
  refine h.imp ?_
  intro a b hab
  simpa [Rec.lt] using hab

theorem surviving_blocks (env : Env) (b : Nat) (f : Nat → List Rec) (tids : List Nat) (k : Nat) :
    ∃ blocks : List (List bam1_t),
      surviving env b k (tids.flatMap f) = blocks.flatten ∧
      List.Forall₂ (fun tid blk =>
        blk.Sublist ((f tid).map Rec.b) ∧
          ((∀ j, env.sam_write1_ok b j = true) → blk = (f tid).map Rec.b)) tids blocks := by
  induction tids generalizing k with
  | nil => exact ⟨[], by simp [surviving], List.Forall₂.nil⟩
  | cons t rest ih =>
    obtain ⟨blocks, h1, h2⟩ := ih (k + (f t).length)
    refine ⟨surviving env b k (f t) :: blocks, ?_, List.Forall₂.cons ⟨?_, ?_⟩ h2⟩
    · rw [List.flatMap_cons, surviving_append, h1, List.flatten_cons]
    · exact surviving_sublist env b k (f t)
    · intro hok
      exact surviving_all_ok env b k (f t) hok

theorem run_write_sequence_pairwise (S : StdSort) (master : bam_hdr_t)
    (sources : List InputFile) (n b : Nat) (hn : 0 < n) (t : Int) :
    (run_write_sequence S master sources n b).Pairwise
      (fun r1 r2 => r1.b.tid = t → r2.b.tid = t → r1.b.pos ≤ r2.b.pos) := by
  unfold run_write_sequence write_sequence
  rw [List.flatMap_def, List.pairwise_flatten]
  constructor
  · intro l hl
    simp only [List.mem_map] at hl
    obtain ⟨t1, ht1, rfl⟩ := hl
    have hlt := run_bucket_chrs_lt S master sources n hn b t1 ht1
    refine (sorted_chr_pos S _ t1).imp_of_mem ?_
    intro r1 r2 hr1 hr2 hle _ _
    have e1 := (mem_sorted_chr_loaded S _ sources t1 hlt r1 hr1).2.2
    have e2 := (mem_sorted_chr_loaded S _ sources t1 hlt r2 hr2).2.2
    rw [e1, e2] at hle
    exact hle
  · rw [List.pairwise_map]
    have hnd := run_bucket_chrs_nodup S master sources n hn b
    refine (List.Pairwise.imp_of_mem ?_ hnd)
    intro t1 t2 ht1 ht2 hne r1 hr1 r2 hr2 e1 e2
    have hlt1 := run_bucket_chrs_lt S master sources n hn b t1 ht1
    have hlt2 := run_bucket_chrs_lt S master sources n hn b t2 ht2
    have a1 := (mem_sorted_chr_loaded S _ sources t1 hlt1 r1 hr1).2.1
    have a2 := (mem_sorted_chr_loaded S _ sources t2 hlt2 r2 hr2).2.1
    exact absurd (by omega : t1 = t2) hne

/-- C2: in a run on valid inputs, the records written to the file of bucket
`b` are a concatenation of blocks, one for each chromosome of `bucket_chrs[b]`
in the listed order; the block of a chromosome holds its records in the order
of its sorted chromosome vector (all of them when no write fails, otherwise
those whose write succeeded); the sorted vector is a rearrangement of the
chromosome's records with non-decreasing positions; hence the records of any
one chromosome appear in the file in non-decreasing position order. -/
theorem merge_split_sink_order (S : StdSort) (env : Env) (pfx out_fmt : String)
    (sources : List InputFile) (master : bam_hdr_t) (n : Nat)
    (hsrc : 0 < sources.length) (hn : 1 ≤ n)
    (hin : ∀ j (h : j < sources.length), env.sam_open_in j = some (sources.get ⟨j, h⟩))
    (hhdr : ∀ f ∈ sources, f.hdr = some master)
    (hopen : ∀ b, b < n → env.sam_open_out (out_path pfx b out_fmt) = true)
    (hdup : ∀ b, b < n → env.bam_hdr_dup_ok b = true)
    (hwr : ∀ b, b < n → env.sam_hdr_write_ok (out_path pfx b out_fmt) = true)
    (b : Nat) (hb : b < n) :
    ∃ out, (main S env pfx (sources.length : Int) (n : Int) out_fmt).outs[b]? = some out ∧
      (∃ blocks : List (List bam1_t),
        out.written = blocks.flatten ∧
        List.Forall₂ (fun tid blk =>
          blk.Sublist ((sorted_chr S (loaded_chr_vec master.n_targets sources) tid).map Rec.b) ∧
            ((∀ j, env.sam_write1_ok b j = true) →
              blk = (sorted_chr S (loaded_chr_vec master.n_targets sources) tid).map Rec.b))
          ((run_bucket_chrs S master sources n).getD b []) blocks) ∧
      (∀ tid,
        (sorted_chr S (loaded_chr_vec master.n_targets sources) tid).Perm
            ((loaded_chr_vec master.n_targets sources).getD tid []) ∧
          (sorted_chr S (loaded_chr_vec master.n_targets sources) tid).Pairwise
            (fun r1 r2 => r1.pos ≤ r2.pos)) ∧
      (∀ t : Int, (out.written.filter (fun x => x.tid = t)).Pairwise
        (fun x y => x.pos ≤ y.pos)) := by
  have hpos : 0 < n := hn
  rw [main_valid S env pfx out_fmt sources master n hsrc hn hin hhdr hopen hdup hwr]
  dsimp only
  refine ⟨final_out S env pfx out_fmt master sources n b, ?_, ?_, ?_, ?_⟩
  · simp only [main_valid_outs_get, hb, if_true]
  · rw [final_out_written]
    exact surviving_blocks env b _ _ 0
  · intro tid
    exact ⟨S.perm Rec.lt _ rec_lt_swo, sorted_chr_pos S _ tid⟩
  · intro t
    rw [final_out_written, List.pairwise_filter]
    have h1 := run_write_sequence_pairwise S master sources n b hpos t
    have h2 : ((run_write_sequence S master sources n b).map Rec.b).Pairwise
        (fun x y => x.tid = t → y.tid = t → x.pos ≤ y.pos) := List.pairwise_map.2 h1
    refine (h2.sublist (surviving_sublist env b 0 _)).imp ?_
    intro x y hxy hx hy
    exact hxy (by simpa using hx) (by simpa using hy)

/-! ## Fatal errors before the outputs are opened -/

/-- C6: when some input file among the `input_num` files to be read does not
carry the master dictionary (the dictionary of file 0), whichever file it is,
the run ends through `die` with exit status 1 and no output file has been
created. -/
theorem main_header_mismatch_fatal (S : StdSort) (env : Env) (pfx : String)
    (input_num output_num : Int) (out_fmt : String) (fp0 : InputFile) (master : bam_hdr_t)
    (h0 : env.sam_open_in 0 = some fp0) (hm : fp0.hdr = some master)
    (hbad : ∃ i, i < input_num.toNat ∧
      ∃ f hdr, env.sam_open_in i = some f ∧ f.hdr = some hdr ∧ hdr ≠ master) :
    (main S env pfx input_num output_num out_fmt).status = 1 ∧
    (main S env pfx input_num output_num out_fmt).status ≠ 0 ∧
    (main S env pfx input_num output_num out_fmt).outs = [] := by
  have key : main S env pfx input_num output_num out_fmt = die [] := by
    unfold main
    split
    · rfl
    · simp only [h0, hm]
      obtain ⟨i, hi, f, hdr, hf1, hf2, hf3⟩ := hbad
      have hne : f.hdr ≠ some master := by
        rw [hf2]
        intro e
        exact hf3 (Option.some.inj e)
      obtain ⟨msg, hmsg⟩ := load_inputs_mismatch env master master.n_targets input_num.toNat 0
        (List.replicate master.n_targets [])
        ⟨i, Nat.zero_le i, by omega, f, hf1, hne⟩
      rw [hmsg]
  rw [key]
  exact ⟨rfl, by decide, rfl⟩

/-- C6 (witness): two files whose dictionaries give `chr2` the lengths 500 and
501. -/
theorem main_header_mismatch_fatal_witness :
    (main stableSort (demo_env demo_sources_mismatch) "x" 2 3 "BAM").status = 1 ∧
    (main stableSort (demo_env demo_sources_mismatch) "x" 2 3 "BAM").status ≠ 0 ∧
    (main stableSort (demo_env demo_sources_mismatch) "x" 2 3 "BAM").outs = [] :=
  main_header_mismatch_fatal stableSort (demo_env demo_sources_mismatch) "x" 2 3 "BAM"
    { hdr := some demo_hdr, recs := [{ tid := 0, pos := 30, data := [1] }] } demo_hdr
    rfl rfl
    ⟨1, by decide,
      { hdr := some demo_hdr_other, recs := [{ tid := 1, pos := 7, data := [3] }] },
      demo_hdr_other, rfl, rfl, by decide⟩

/-! ## The output files of a completed run -/

theorem out_path_bam (pfx : String) (b : Nat) :
    out_path pfx b "BAM" = pfx ++ ".sorted.split." ++ toString b ++ ".bam" := by
  simp only [out_path, out_ext, String.append_assoc]
  rfl

theorem out_path_sam (pfx : String) (b : Nat) :
    out_path pfx b "SAM" = pfx ++ ".sorted.split." ++ toString b ++ ".sam" := by
  simp only [out_path, out_ext, String.append_assoc]
  rfl

theorem write_vec_meta (env : Env) (b : Nat) (recs : List Rec) (out : OutHandle) :
    (write_vec env b recs out).path = out.path ∧
    (write_vec env b recs out).mode = out.mode ∧
    (write_vec env b recs out).hdr = out.hdr := by
  rw [write_vec_eq]
  exact ⟨rfl, rfl, rfl⟩

theorem write_bucket_meta (S : StdSort) (env : Env) (b : Nat) (tids : List Nat)
    (chr_vec : List (List Rec)) (out : OutHandle) :
    (write_bucket S env b tids chr_vec out).2.path = out.path ∧
    (write_bucket S env b tids chr_vec out).2.mode = out.mode ∧
    (write_bucket S env b tids chr_vec out).2.hdr = out.hdr := by
  induction tids generalizing chr_vec out with
  | nil => exact ⟨rfl, rfl, rfl⟩
  | cons t rest ih =>
    simp only [write_bucket]
    obtain ⟨h1, h2, h3⟩ := ih (chr_vec.set t (S.sort Rec.lt (chr_vec.getD t [])))
      (write_vec env b (S.sort Rec.lt (chr_vec.getD t [])) out)
    obtain ⟨g1, g2, g3⟩ := write_vec_meta env b (S.sort Rec.lt (chr_vec.getD t [])) out
    exact ⟨h1.trans g1, h2.trans g2, h3.trans g3⟩

theorem write_outputs_meta (S : StdSort) (env : Env) (B : List (List Nat)) (k b : Nat)
    (chr_vec : List (List Rec)) (outs : List OutHandle) (j : Nat) :
    ((write_outputs S env B k b chr_vec outs).2[j]?).map
        (fun o => (o.path, o.mode, o.hdr))
      = (outs[j]?).map (fun o => (o.path, o.mode, o.hdr)) := by
  induction k generalizing b chr_vec outs with
  | zero => rfl
  | succ k ih =>
    simp only [write_outputs]
    cases hob : outs[b]? with
    | none => exact ih _ _ _
    | some out =>
      simp only []
      rw [ih]
      have hblt : b < outs.length := by
        rcases Nat.lt_or_ge b outs.length with h | h
        · exact h
        · rw [List.getElem?_eq_none h] at hob
          cases hob
      by_cases hj : j = b
      · subst hj
        obtain ⟨g1, g2, g3⟩ := write_bucket_meta S env j (B.getD j []) chr_vec out
        simp only [List.getElem?_set_self hblt, hob, Option.map_some', g1, g2, g3]
      · have hne : b ≠ j := fun e => hj e.symm
        rw [List.getElem?_set_ne hne]

theorem write_outputs_length (S : StdSort) (env : Env) (B : List (List Nat)) (k b : Nat)
    (chr_vec : List (List Rec)) (outs : List OutHandle) :
    (write_outputs S env B k b chr_vec outs).2.length = outs.length := by
  induction k generalizing b chr_vec outs with
  | zero => rfl
  | succ k ih =>
    simp only [write_outputs]
    cases hob : outs[b]? with
    | none => exact ih _ _ _
    | some out =>
      simp only []
      rw [ih, List.length_set]

/-- A run that returns 0 has a master dictionary, a positive number of output
buckets, and as output files the files opened by `open_outputs` after the
write loop has run over them. -/
theorem main_status_zero (S : StdSort) (env : Env) (pfx : String)
    (input_num output_num : Int) (out_fmt : String)
    (h : (main S env pfx input_num output_num out_fmt).status = 0) :
    0 < output_num ∧
    ∃ fp0 master B chr_vec,
      env.sam_open_in 0 = some fp0 ∧ fp0.hdr = some master ∧
      (main S env pfx input_num output_num out_fmt).outs
        = (write_outputs S env B output_num.toNat 0 chr_vec
            ((List.range' 0 output_num.toNat).map (opened_out pfx out_fmt master))).2 := by
  unfold main at h ⊢
  split at h
  · simp [die] at h
  · rename_i hargs
    rw [if_neg hargs]
    refine ⟨by omega, ?_⟩
    cases h0 : env.sam_open_in 0 with
    | none =>
      rw [h0] at h
      simp [die] at h
    | some fp0 =>
      rw [h0] at h
      cases hm : fp0.hdr with
      | none =>
        simp [hm, die] at h
      | some master =>
        simp only [hm] at h ⊢
        cases hl : load_inputs env master master.n_targets input_num.toNat 0
            (List.replicate master.n_targets []) with
        | error e =>
          simp [hl, die] at h
        | ok chr_vec =>
          simp only [hl] at h ⊢
          cases ho : open_outputs env pfx out_fmt master output_num.toNat 0 [] with
          | error created =>
            simp [ho, die] at h
          | ok outs =>
            simp only [ho]
            have := open_outputs_ok_eq env pfx out_fmt master _ _ _ _ ho
            rw [List.nil_append] at this
            subst this
            exact ⟨fp0, master, _, chr_vec, rfl, hm, rfl⟩

theorem run_write_sequence_nil (S : StdSort) (master : bam_hdr_t) (sources : List InputFile)
    (n : Nat) (hn : 0 < n) (hzero : mapped_records master.n_targets sources = [])
    (b : Nat) (hb : b < n) : run_write_sequence S master sources n b = [] := by
  have h2 := write_sequences_perm S (loaded_chr_vec master.n_targets sources) n hn
  rw [loaded_chr_vec_length] at h2
  have h3 := h2.trans (loaded_chr_vec_flatten master.n_targets sources)
  rw [hzero] at h3
  have h4 := List.Perm.eq_nil h3
  rw [List.flatMap_eq_nil_iff] at h4
  exact h4 b (List.mem_range.2 hb)

/-- C7: a run that returns 0 has `numPartitions >= 1` and has created exactly
`numPartitions` output files, the one of index `b` named
`<pfx>.sorted.split.<b>.bam` (format `BAM`) or `<pfx>.sorted.split.<b>.sam`
(format `SAM`) and carrying the master dictionary as header; and on valid
inputs without any mapped record the run returns 0 and every output file has
the header and no record. -/
theorem main_output_files (S : StdSort) (env : Env) (pfx : String)
    (input_num output_num : Int) (out_fmt : String) :
    ((main S env pfx input_num output_num out_fmt).status = 0 →
      1 ≤ output_num ∧
      (main S env pfx input_num output_num out_fmt).outs.length = output_num.toNat ∧
      ∃ fp0 master, env.sam_open_in 0 = some fp0 ∧ fp0.hdr = some master ∧
        ∀ b, b < output_num.toNat →
          ∃ out, (main S env pfx input_num output_num out_fmt).outs[b]? = some out ∧
            out.hdr = some master ∧
            (out_fmt = "BAM" →
              out.path = pfx ++ ".sorted.split." ++ toString b ++ ".bam" ∧ out.mode = "wb") ∧
            (out_fmt = "SAM" →
              out.path = pfx ++ ".sorted.split." ++ toString b ++ ".sam" ∧ out.mode = "w")) ∧
    (∀ (sources : List InputFile) (master : bam_hdr_t) (n : Nat),
      input_num = (sources.length : Int) → output_num = (n : Int) →
      0 < sources.length → 1 ≤ n →
      (∀ j (h : j < sources.length), env.sam_open_in j = some (sources.get ⟨j, h⟩)) →
      (∀ f ∈ sources, f.hdr = some master) →
      (∀ b, b < n → env.sam_open_out (out_path pfx b out_fmt) = true) →
      (∀ b, b < n → env.bam_hdr_dup_ok b = true) →
      (∀ b, b < n → env.sam_hdr_write_ok (out_path pfx b out_fmt) = true) →
      mapped_records master.n_targets sources = [] →
        (main S env pfx input_num output_num out_fmt).status = 0 ∧
        (main S env pfx input_num output_num out_fmt).outs.length = n ∧
        ∀ out ∈ (main S env pfx input_num output_num out_fmt).outs,
          out.hdr = some master ∧ out.written = [] ∧ out.failed = []) := by
  constructor
  · intro h
    obtain ⟨hpos, fp0, master, B, chr_vec, h0, hm, houts⟩ :=
      main_status_zero S env pfx input_num output_num out_fmt h
    refine ⟨by omega, ?_, fp0, master, h0, hm, ?_⟩
    · rw [houts, write_outputs_length]
      simp
    · intro b hb
      have hmeta := write_outputs_meta S env B output_num.toNat 0 chr_vec
        ((List.range' 0 output_num.toNat).map (opened_out pfx out_fmt master)) b
      rw [← houts] at hmeta
      have hget : ((List.range' 0 output_num.toNat).map (opened_out pfx out_fmt master))[b]?
          = some (opened_out pfx out_fmt master b) := by
        rw [List.getElem?_map, List.getElem?_range' 0 1 hb]
        simp
      rw [hget] at hmeta
      cases ho : (main S env pfx input_num output_num out_fmt).outs[b]? with
      | none =>
        rw [ho] at hmeta
        cases hmeta
      | some out =>
        rw [ho] at hmeta
        simp only [Option.map_some', Option.some.injEq, Prod.mk.injEq] at hmeta
        obtain ⟨e1, e2, e3⟩ := hmeta
        refine ⟨out, rfl, ?_, ?_, ?_⟩
        · rw [e3]
          rfl
        · intro hf
          subst hf
          rw [e1, e2]
          exact ⟨out_path_bam pfx b, rfl⟩
        · intro hf
          subst hf
          rw [e1, e2]
          exact ⟨out_path_sam pfx b, rfl⟩
  · intro sources master n hi ho hsrc hn hin hhdr hopen hdup hwr hzero
    subst hi
    subst ho
    rw [main_valid S env pfx out_fmt sources master n hsrc hn hin hhdr hopen hdup hwr]
    refine ⟨rfl, by simp, ?_⟩
    intro out hout
    simp only [List.mem_map, List.mem_range] at hout
    obtain ⟨b, hb, rfl⟩ := hout
    have hnil := run_write_sequence_nil S master sources n hn hzero b hb
    refine ⟨(final_out_hdr S env pfx out_fmt sources master n b).1, ?_, ?_⟩
    · rw [final_out_written, hnil]
      rfl
    · rw [final_out_failed, hnil]
      rfl

/-! ## The theorems on the small run -/

theorem demo_env_open (sources : List InputFile) (j : Nat) (h : j < sources.length) :
    (demo_env sources).sam_open_in j = some (sources.get ⟨j, h⟩) := by
  simp [demo_env, List.getElem?_eq_getElem h]

/-- C1 (witness): two input files, two buckets, one failed write. -/
theorem merge_split_records_conserved_witness :
    (main stableSort (demo_env demo_sources) "x" ((demo_sources.length : Nat) : Int)
        ((2 : Nat) : Int) "BAM").status = 0 ∧
    ((↑((main stableSort (demo_env demo_sources) "x" ((demo_sources.length : Nat) : Int)
          ((2 : Nat) : Int) "BAM").outs.flatMap OutHandle.written) : Multiset bam1_t)
      = (↑(mapped_records demo_hdr.n_targets demo_sources) : Multiset bam1_t)
        - (↑((main stableSort (demo_env demo_sources) "x" ((demo_sources.length : Nat) : Int)
            ((2 : Nat) : Int) "BAM").outs.flatMap OutHandle.failed) : Multiset bam1_t)) :=
  have h := merge_split_records_conserved stableSort (demo_env demo_sources) "x" "BAM"
    demo_sources demo_hdr 2 (by decide) (demo_env_open demo_sources)
    (by decide) (fun _ _ => rfl) (fun _ _ => rfl) (fun _ _ => rfl)
  ⟨(h.1 (by decide)).1, h.2.1⟩

/-- C2 (witness): the file of bucket 0 in the same run. -/
theorem merge_split_sink_order_witness :
    ∃ out, (main stableSort (demo_env demo_sources) "x" ((demo_sources.length : Nat) : Int)
        ((2 : Nat) : Int) "BAM").outs[0]? = some out ∧
      ∀ t : Int, (out.written.filter (fun x => x.tid = t)).Pairwise
        (fun x y => x.pos ≤ y.pos) :=
  have h := merge_split_sink_order stableSort (demo_env demo_sources) "x" "BAM"
    demo_sources demo_hdr 2 (by decide) (by decide) (demo_env_open demo_sources)
    (by decide) (fun _ _ => rfl) (fun _ _ => rfl) (fun _ _ => rfl) 0 (by decide)
  h.elim (fun out hout => ⟨out, hout.1, hout.2.2.2⟩)

/-- C7 (witness): two input files without mapped records, three buckets. -/
theorem main_output_files_witness :
    (main stableSort (demo_env demo_sources_unmapped) "x" 2 3 "BAM").status = 0 ∧
    (main stableSort (demo_env demo_sources_unmapped) "x" 2 3 "BAM").outs.length = 3 ∧
    (∀ out ∈ (main stableSort (demo_env demo_sources_unmapped) "x" 2 3 "BAM").outs,
      out.hdr = some demo_hdr ∧ out.written = [] ∧ out.failed = []) ∧
    (main stableSort (demo_env demo_sources_unmapped) "x" 2 3 "BAM").outs.length
      = (3 : Int).toNat :=
  have h := main_output_files stableSort (demo_env demo_sources_unmapped) "x" 2 3 "BAM"
  have h2 := h.2 demo_sources_unmapped demo_hdr 3 rfl rfl (by decide) (by decide)
    (demo_env_open demo_sources_unmapped) (by decide) (fun _ _ => rfl) (fun _ _ => rfl)
    (fun _ _ => rfl) (by decide)
  ⟨h2.1, h2.2.1, h2.2.2, (h.1 h2.1).2.1⟩

end MergeSplitBam

namespace Hisat3nTable

/-! ## `find` and `substr` -/

theorem findFrom_none (c : Char) (l : List Char) (i : Nat) (h : c ∉ l) :
    findFrom c l i = none := by
  induction l generalizing i with
  | nil => rfl
  | cons x xs ih =>
    have hx : ¬ x = c := fun e => h (e ▸ List.mem_cons_self _ _)
    simp only [findFrom, hx, if_false]
    exact ih (i + 1) (fun hm => h (List.mem_cons_of_mem _ hm))

theorem findFrom_append (c : Char) (f rest : List Char) (i : Nat) (h : c ∉ f) :
    findFrom c (f ++ c :: rest) i = some (i + f.length) := by
  induction f generalizing i with
  | nil => simp [findFrom]
  | cons x xs ih =>
    have hx : ¬ x = c := fun e => h (e ▸ List.mem_cons_self _ _)
    rw [List.cons_append]
    simp only [findFrom, hx, if_false, List.length_cons]
    rw [ih (i + 1) (fun hm => h (List.mem_cons_of_mem _ hm))]
    congr 1
    omega

theorem tab_cases (s : List Char) :
    '\t' ∉ s ∨ ∃ f rest, s = f ++ '\t' :: rest ∧ '\t' ∉ f := by
  by_cases h : '\t' ∈ s
  · exact Or.inr (List.eq_append_cons_of_mem h)
  · exact Or.inl h

/-! ## One iteration of the loop -/

theorem loop_no_tab (line : List Char) (k start count : Nat) (chr : List Char) (pos : Int)
    (h : '\t' ∉ line.drop start) :
    getSAMChromosomePos_loop line (k + 1) start count chr pos = .ok (false, chr, pos) := by
  simp only [getSAMChromosomePos_loop, find, findFrom_none _ _ _ h]

theorem loop_tab (line : List Char) (k start count : Nat) (chr : List Char) (pos : Int)
    (f rest : List Char) (h : line.drop start = f ++ '\t' :: rest) (hf : '\t' ∉ f) :
    getSAMChromosomePos_loop line (k + 1) start count chr pos =
      (if count = 2 then
        getSAMChromosomePos_loop line k (start + f.length + 1) (count + 1) f pos
      else if count = 3 then
        match stoll f with
        | .error err => .error err
        | .ok v => if chr = ['*'] then .ok (false, chr, v) else .ok (true, chr, v)
      else getSAMChromosomePos_loop line k (start + f.length + 1) (count + 1) chr pos) ∧
    line.drop (start + f.length + 1) = rest := by
  have hfind : find line '\t' start = some (start + f.length) := by
    unfold find
    rw [h]
    exact findFrom_append '\t' f rest start hf
  have hsub : substr line start (start + f.length - start) = f := by
    unfold substr
    rw [h, Nat.add_sub_cancel_left]
    exact List.take_left f _
  have hdrop : line.drop (start + f.length + 1) = rest := by
    have e : start + f.length + 1 = start + (f.length + 1) := by omega
    rw [e, ← List.drop_drop, h]
    have e2 : f ++ '\t' :: rest = (f ++ ['\t']) ++ rest := by simp
    rw [e2]
    have e3 : f.length + 1 = (f ++ ['\t']).length := by simp
    rw [e3]
    exact List.drop_left _ _
  refine ⟨?_, hdrop⟩
  simp only [getSAMChromosomePos_loop, hfind, hsub]

/-! ## `stoll` on a decimal integer -/

theorem digitsValue_foldl (ds : List Char) (a : Nat) :
    ds.foldl (fun acc c => acc * 10 + digitVal c) a
      = a * 10 ^ ds.length + Nat.ofDigits 10 (ds.reverse.map digitVal) := by
  induction ds generalizing a with
  | nil => simp
  | cons c ds ih =>
    simp only [List.foldl_cons, ih, List.reverse_cons, List.map_append, List.map_cons,
      List.map_nil, Nat.ofDigits_append, Nat.ofDigits_singleton, List.length_map,
      List.length_reverse, List.length_cons]
    ring

theorem digitsValue_eq (ds : List Char) :
    digitsValue ds = Nat.ofDigits 10 (ds.reverse.map digitVal) := by
  unfold digitsValue
  rw [digitsValue_foldl]
  simp

theorem isDigit_not_space (c : Char) (h : c.isDigit = true) : isspace c = false := by
  have h1 : c ≠ ' ' := by
    intro e
    subst e
    exact absurd h (by decide)
  have h2 : c ≠ '\t' := by
    intro e
    subst e
    exact absurd h (by decide)
  have h3 : c ≠ '\n' := by
    intro e
    subst e
    exact absurd h (by decide)
  have h4 : c ≠ '\x0b' := by
    intro e
    subst e
    exact absurd h (by decide)
  have h5 : c ≠ '\x0c' := by
    intro e
    subst e
    exact absurd h (by decide)
  have h6 : c ≠ '\r' := by
    intro e
    subst e
    exact absurd h (by decide)
  simp [isspace, h1, h2, h3, h4, h5, h6]

theorem splitSign_digit (c : Char) (ds : List Char) (h : c.isDigit = true) :
    splitSign (c :: ds) = (false, c :: ds) := by
  have h1 : c ≠ '-' := by
    intro e
    subst e
    exact absurd h (by decide)
  have h2 : c ≠ '+' := by
    intro e
    subst e
    exact absurd h (by decide)
  unfold splitSign
  split
  · rename_i heq
    exact absurd (List.cons.inj heq).1 h1
  · rename_i heq
    exact absurd (List.cons.inj heq).1 h2
  · rfl

/-- On an optional sign followed by one or more decimal digits whose value fits
`long long`, `stoll` returns that value. -/
theorem stoll_decimal (sgn ds : List Char)
    (hs : sgn = [] ∨ sgn = ['-'] ∨ sgn = ['+']) (hne : ds ≠ [])
    (hd : ∀ c ∈ ds, c.isDigit = true)
    (hlo : -(2 : Int) ^ 63 ≤ signedValue sgn ds) (hhi : signedValue sgn ds ≤ (2 : Int) ^ 63 - 1) :
    stoll (sgn ++ ds) = .ok (signedValue sgn ds) := by
  have htake : ds.takeWhile Char.isDigit = ds := List.takeWhile_eq_self_iff.2 hd
  cases ds with
  | nil => exact absurd rfl hne
  | cons c ds =>
    have hc : c.isDigit = true := hd c (List.mem_cons_self _ _)
    have hrange : ¬ (signedValue sgn (c :: ds) < -(2 : Int) ^ 63 ∨
        signedValue sgn (c :: ds) > (2 : Int) ^ 63 - 1) := by omega
    rcases hs with rfl | rfl | rfl
    · have h1 : ([] ++ c :: ds).dropWhile isspace = c :: ds := by
        simp [List.dropWhile_cons, isDigit_not_space c hc]
      have hv : signedValue [] (c :: ds) = (digitsValue (c :: ds) : Int) := by
        simp [signedValue, digitsValue_eq]
      rw [hv] at hrange
      unfold stoll
      simp only [h1, splitSign_digit c ds hc, htake]
      rw [if_neg (by simp), hv]
      simp only [Bool.false_eq_true, if_false]
      rw [if_neg hrange]
    · have h1 : (['-'] ++ c :: ds).dropWhile isspace = '-' :: c :: ds := by
        simp [List.dropWhile_cons, isspace]
      have hv : signedValue ['-'] (c :: ds) = -(digitsValue (c :: ds) : Int) := by
        simp [signedValue, digitsValue_eq]
      rw [hv] at hrange
      unfold stoll
      simp only [h1, splitSign, htake]
      rw [if_neg (by simp), hv]
      simp only [if_true]
      rw [if_neg hrange]
    · have h1 : (['+'] ++ c :: ds).dropWhile isspace = '+' :: c :: ds := by
        simp [List.dropWhile_cons, isspace]
      have hv : signedValue ['+'] (c :: ds) = (digitsValue (c :: ds) : Int) := by
        simp [signedValue, digitsValue_eq]
      rw [hv] at hrange
      unfold stoll
      simp only [h1, splitSign, htake]
      rw [if_neg (by simp), hv]
      simp only [Bool.false_eq_true, if_false]
      rw [if_neg hrange]

/-! ## Fields of a line -/

theorem split_no_tab (s : List Char) (h : '\t' ∉ s) :
    s.splitOn '\t' = [s] ∧ s.count '\t' = 0 := by
  refine ⟨?_, List.count_eq_zero_of_not_mem h⟩
  apply List.splitOnP_eq_single
  intro x hx hp
  have : x = '\t' := by simpa using hp
  exact h (this ▸ hx)

theorem split_tab (f rest : List Char) (h : '\t' ∉ f) :
    (f ++ '\t' :: rest).splitOn '\t' = f :: rest.splitOn '\t' ∧
    (f ++ '\t' :: rest).count '\t' = rest.count '\t' + 1 := by
  constructor
  · apply List.splitOnP_first
    · intro x hx hp
      have : x = '\t' := by simpa using hp
      exact h (this ▸ hx)
    · simp
  · rw [List.count_append, List.count_eq_zero_of_not_mem h, List.count_cons_self]
    omega

/-- The shape of a line and what `getSAMChromosomePos` does on it: either the
line has fewer than four tabs and the function returns false, leaving `pos`
as it was; or the line starts with four tab-terminated fields and the function
hands the fourth to `stoll` and compares the third with `*`. -/
theorem getSAMChromosomePos_shape (line chr0 : List Char) (pos0 : Int) :
    (line.count '\t' < 4 ∧
      ∃ chr, getSAMChromosomePos line chr0 pos0 = .ok (false, chr, pos0)) ∨
    (∃ f0 f1 f2 f3 r4 : List Char,
      4 ≤ line.count '\t' ∧
      line.splitOn '\t' = f0 :: f1 :: f2 :: f3 :: r4.splitOn '\t' ∧
      getSAMChromosomePos line chr0 pos0 =
        match stoll f3 with
        | .error err => .error err
        | .ok v => if f2 = ['*'] then .ok (false, f2, v) else .ok (true, f2, v)) := by
  unfold getSAMChromosomePos
  rcases tab_cases line with h0 | ⟨f0, r1, e0, hf0⟩
  · left
    exact ⟨by rw [(split_no_tab line h0).2]; decide,
      chr0, loop_no_tab line 3 0 0 chr0 pos0 (by simpa using h0)⟩
  obtain ⟨s0, d0⟩ := loop_tab line 3 0 0 chr0 pos0 f0 r1 (by simpa using e0) hf0
  simp only [Nat.zero_add] at s0 d0
  rw [s0]
  simp only [Nat.zero_ne_add_one, if_false, Nat.reduceEqDiff, OfNat.zero_ne_ofNat]
  obtain ⟨sp0, c0⟩ := split_tab f0 r1 hf0
  rw [← e0] at sp0 c0
  rcases tab_cases r1 with h1 | ⟨f1, r2, e1, hf1⟩
  · left
    refine ⟨by rw [c0, (split_no_tab r1 h1).2]; decide, chr0, ?_⟩
    exact loop_no_tab line 2 _ _ chr0 pos0 (by rw [d0]; exact h1)
  obtain ⟨s1, d1⟩ := loop_tab line 2 (f0.length + 1) 1 chr0 pos0 f1 r2
    (by rw [d0]; exact e1) hf1
  rw [s1]
  simp only [Nat.reduceEqDiff, if_false, OfNat.one_ne_ofNat, Nat.reduceAdd]
  obtain ⟨sp1, c1⟩ := split_tab f1 r2 hf1
  rw [← e1] at sp1 c1
  rcases tab_cases r2 with h2 | ⟨f2, r3, e2, hf2⟩
  · left
    refine ⟨by rw [c0, c1, (split_no_tab r2 h2).2]; decide, chr0, ?_⟩
    exact loop_no_tab line 1 _ _ chr0 pos0 (by rw [d1]; exact h2)
  obtain ⟨s2, d2⟩ := loop_tab line 1 (f0.length + 1 + f1.length + 1) 2 chr0 pos0
    f2 r3 (by rw [d1]; exact e2) hf2
  rw [s2]
  simp only [Nat.reduceAdd, if_true]
  obtain ⟨sp2, c2⟩ := split_tab f2 r3 hf2
  rw [← e2] at sp2 c2
  rcases tab_cases r3 with h3 | ⟨f3, r4, e3, hf3⟩
  · left
    refine ⟨by rw [c0, c1, c2, (split_no_tab r3 h3).2]; decide, f2, ?_⟩
    exact loop_no_tab line 0 _ _ f2 pos0 (by rw [d2]; exact h3)
  obtain ⟨s3, _⟩ := loop_tab line 0 (f0.length + 1 + f1.length + 1 + f2.length + 1) 3 f2 pos0
    f3 r4 (by rw [d2]; exact e3) hf3
  rw [s3]
  simp only [Nat.reduceEqDiff, if_false, if_true]
  obtain ⟨sp3, c3⟩ := split_tab f3 r4 hf3
  rw [← e3] at sp3 c3
  right
  refine ⟨f0, f1, f2, f3, r4, by omega, by rw [sp0, sp1, sp2, sp3], rfl⟩

/-! ## `getSAMChromosomePos` on lines with a decimal fourth field -/

theorem decimalInteger_some (s : List Char) (v : Int) (h : decimalInteger s = some v) :
    ∃ sgn ds, s = sgn ++ ds ∧ (sgn = [] ∨ sgn = ['-'] ∨ sgn = ['+']) ∧ ds ≠ [] ∧
      (∀ c ∈ ds, c.isDigit = true) ∧ v = signedValue sgn ds := by
  unfold decimalInteger at h
  split at h
  · rename_i ds
    split at h
    · rename_i hc
      exact ⟨['-'], ds, rfl, Or.inr (Or.inl rfl), hc.1, List.all_eq_true.1 hc.2,
        (Option.some.inj h).symm⟩
    · cases h
  · rename_i ds
    split at h
    · rename_i hc
      exact ⟨['+'], ds, rfl, Or.inr (Or.inr rfl), hc.1, List.all_eq_true.1 hc.2,
        (Option.some.inj h).symm⟩
    · cases h
  · split at h
    · rename_i hc
      exact ⟨[], s, rfl, Or.inl rfl, hc.1, List.all_eq_true.1 hc.2, (Option.some.inj h).symm⟩
    · cases h

theorem stoll_decimalInteger (s : List Char) (v : Int) (h : decimalInteger s = some v)
    (hlo : -(2 : Int) ^ 63 ≤ v) (hhi : v ≤ (2 : Int) ^ 63 - 1) : stoll s = .ok v := by
  obtain ⟨sgn, ds, rfl, hs, hne, hd, rfl⟩ := decimalInteger_some s v h
  exact stoll_decimal sgn ds hs hne hd hlo hhi

/-- C9 (as amended): on a line whose fourth tab-separated field, when the line
has at least four tabs, is a decimal integer that fits a signed 64-bit
`long long`, `getSAMChromosomePos` returns; it returns true exactly when the
line has at least four tabs and its third field is not `*`; when it returns
true, `chr` is the third field and `pos` the value of the fourth; on a line
with fewer than four tabs it returns false. -/
theorem getSAMChromosomePos_spec (line chr0 : List Char) (pos0 : Int)
    (hdec : 4 ≤ line.count '\t' →
      ∃ v, decimalInteger ((line.splitOn '\t').getD 3 []) = some v ∧
        -(2 : Int) ^ 63 ≤ v ∧ v ≤ (2 : Int) ^ 63 - 1) :
    ∃ ret chr pos, getSAMChromosomePos line chr0 pos0 = .ok (ret, chr, pos) ∧
      (ret = true ↔ 4 ≤ line.count '\t' ∧ (line.splitOn '\t').getD 2 [] ≠ ['*']) ∧
      (ret = true →
        chr = (line.splitOn '\t').getD 2 [] ∧
        decimalInteger ((line.splitOn '\t').getD 3 []) = some pos) ∧
      (line.count '\t' < 4 → ret = false) := by
  rcases getSAMChromosomePos_shape line chr0 pos0 with ⟨hlt, chr, hres⟩ |
    ⟨f0, f1, f2, f3, r4, hge, hsplit, hres⟩
  · refine ⟨false, chr, pos0, hres, ?_, ?_, fun _ => rfl⟩
    · constructor
      · intro h
        cases h
      · intro h
        omega
    · intro h
      cases h
  · obtain ⟨v, hv, hlo, hhi⟩ := hdec hge
    have h2 : (line.splitOn '\t').getD 2 [] = f2 := by
      rw [hsplit]
      rfl
    have h3 : (line.splitOn '\t').getD 3 [] = f3 := by
      rw [hsplit]
      rfl
    rw [h3] at hv
    rw [stoll_decimalInteger f3 v hv hlo hhi] at hres
    simp only at hres
    rw [h2, h3]
    by_cases hstar : f2 = ['*']
    · rw [if_pos hstar] at hres
      refine ⟨false, f2, v, hres, ?_, ?_, fun h => by omega⟩
      · constructor
        · intro h
          cases h
        · intro h
          exact absurd hstar h.2
      · intro h
        cases h
    · rw [if_neg hstar] at hres
      exact ⟨true, f2, v, hres, ⟨fun _ => ⟨hge, hstar⟩, fun _ => rfl⟩, fun _ => ⟨rfl, hv⟩,
        fun h => by omega⟩

/-- C9 (witness): a mapped line with `RNAME` `chr1` and `POS` 100. -/
theorem getSAMChromosomePos_spec_witness :
    ∃ ret chr pos, getSAMChromosomePos mapped_line [] 0 = .ok (ret, chr, pos) ∧
      (ret = true ↔
        4 ≤ mapped_line.count '\t' ∧ (mapped_line.splitOn '\t').getD 2 [] ≠ ['*']) ∧
      (ret = true →
        chr = (mapped_line.splitOn '\t').getD 2 [] ∧
        decimalInteger ((mapped_line.splitOn '\t').getD 3 []) = some pos) ∧
      (mapped_line.count '\t' < 4 → ret = false) :=
  getSAMChromosomePos_spec mapped_line [] 0
    (fun _ => ⟨100, by decide, by decide, by decide⟩)

/-- C9 (counterexample): the fourth field of `overflow_line` is the decimal
integer 99999999999999999999, the line has four tabs and its third field is
`chr1`, yet `getSAMChromosomePos` does not return true: `stoll` throws
`out_of_range`. -/
theorem getSAMChromosomePos_overflow_counterexample :
    4 ≤ overflow_line.count '\t' ∧
    (overflow_line.splitOn '\t').getD 2 [] = "chr1".toList ∧
    (overflow_line.splitOn '\t').getD 2 [] ≠ ['*'] ∧
    decimalInteger ((overflow_line.splitOn '\t').getD 3 []) = some 99999999999999999999 ∧
    getSAMChromosomePos overflow_line [] 0 = .error .out_of_range ∧
    ¬ ∃ chr pos, getSAMChromosomePos overflow_line [] 0 = .ok (true, chr, pos) := by
  have h : getSAMChromosomePos overflow_line [] 0 = .error .out_of_range := by rfl
  refine ⟨by decide, by decide, by decide, by decide, h, ?_⟩
  rintro ⟨chr, pos, hc⟩
  rw [h] at hc
  cases hc

/-! ## Lists of calls -/

theorem lastAppended_append (prev : Option Int) (a b : List Call) :
    lastAppended prev (a ++ b) = lastAppended (lastAppended prev a) b := by
  induction a generalizing prev with
  | nil => rfl
  | cons c cs ih =>
    rw [List.cons_append]
    cases c <;> simp only [lastAppended] <;> exact ih _

theorem appendsOrdered_append (prev : Option Int) (a b : List Call) :
    appendsOrdered prev (a ++ b) ↔
      appendsOrdered prev a ∧ appendsOrdered (lastAppended prev a) b := by
  induction a generalizing prev with
  | nil => simp [appendsOrdered, lastAppended]
  | cons c cs ih =>
    rw [List.cons_append]
    cases c with
    | appendSync l p =>
      simp only [appendsOrdered, lastAppended]
      rw [ih, and_assoc]
    | startOutput f =>
      simp only [appendsOrdered, lastAppended]
      exact ih _
    | loadNewChromosome n =>
      simp only [appendsOrdered, lastAppended]
      exact ih _
    | loadMore =>
      simp only [appendsOrdered, lastAppended]
      exact ih _
    | stop =>
      simp only [appendsOrdered, lastAppended]
      exact ih _

theorem appends_append (a b : List Call) : appends (a ++ b) = appends a ++ appends b := by
  simp [appends]

theorem reloadCalls_lastAppended (cs : List Call) (h : reloadCalls cs) (prev : Option Int) :
    lastAppended prev cs = prev := by
  induction cs with
  | nil => rfl
  | cons c cs ih =>
    have hc := h c (List.mem_cons_self _ _)
    have hcs : reloadCalls cs := fun x hx => h x (List.mem_cons_of_mem _ hx)
    rcases hc with rfl | rfl
    · simp only [lastAppended, ih hcs]
    · simp only [lastAppended, ih hcs]

theorem reloadCalls_ordered (cs : List Call) (h : reloadCalls cs) (prev : Option Int) :
    appendsOrdered prev cs := by
  induction cs with
  | nil => trivial
  | cons c cs ih =>
    have hc := h c (List.mem_cons_self _ _)
    have hcs : reloadCalls cs := fun x hx => h x (List.mem_cons_of_mem _ hx)
    rcases hc with rfl | rfl
    · simp only [appendsOrdered, ih hcs]
    · simp only [appendsOrdered, ih hcs]

theorem reloadCalls_appends (cs : List Call) (h : reloadCalls cs) : appends cs = [] := by
  induction cs with
  | nil => rfl
  | cons c cs ih =>
    have hc := h c (List.mem_cons_self _ _)
    have hcs : reloadCalls cs := fun x hx => h x (List.mem_cons_of_mem _ hx)
    rcases hc with rfl | rfl
    · simpa [appends] using ih hcs
    · simpa [appends] using ih hcs

theorem reloadCalls_nil : reloadCalls [] := by
  intro c hc
  cases hc

/-! ## The reload loop -/

theorem reload_loop_spec {P : Type} (ops : PositionsOps P) (k : Nat) (d : Driver P) :
    ∃ extra, (reload_loop ops k d).calls = d.calls ++ extra ∧ reloadCalls extra ∧
      (reload_loop ops k d).lastPos = d.lastPos ∧
      (reload_loop ops k d).samPos = d.samPos ∧
      (reload_loop ops k d).samChromosome = d.samChromosome ∧
      (reload_loop ops k d).firstChromLoaded = d.firstChromLoaded := by
  induction k generalizing d with
  | zero => exact ⟨[], by simp [reload_loop], reloadCalls_nil, rfl, rfl, rfl, rfl⟩
  | succ k ih =>
    simp only [reload_loop]
    split
    · obtain ⟨extra, h1, h2, h3, h4, h5, h6⟩ := ih
        { d with
          positions := (ops.loadMore (ops.startOutput d.positions false)).1
          reloadPos := d.reloadPos +
            (if (ops.loadMore (ops.startOutput d.positions false)).2 ≠ 0 then INF
              else LOADING_BLOCK_SIZE)
          calls := d.calls ++ [Call.startOutput false, Call.loadMore] }
      refine ⟨[Call.startOutput false, Call.loadMore] ++ extra, ?_, ?_, h3, h4, h5, h6⟩
      · rw [h1, List.append_assoc]
      · intro c hc
        rcases List.mem_append.1 hc with hc | hc
        · simp only [List.mem_cons, List.mem_singleton, List.not_mem_nil, or_false] at hc
          exact hc
        · exact h2 c hc
    · exact ⟨[], by simp, reloadCalls_nil, rfl, rfl, rfl, rfl⟩

/-- With `samPos - reloadPos` iterations allowed, the reload loop ends because
its condition has become false. -/
theorem reload_loop_exit {P : Type} (ops : PositionsOps P) (k : Nat) (d : Driver P)
    (hk : (d.samPos - d.reloadPos).toNat ≤ k) :
    (reload_loop ops k d).samPos ≤ (reload_loop ops k d).reloadPos := by
  induction k generalizing d with
  | zero =>
    simp only [reload_loop]
    omega
  | succ k ih =>
    simp only [reload_loop]
    split
    · rename_i hgt
      apply ih
      simp only []
      have hinc : (1 : Int) ≤ (if (ops.loadMore (ops.startOutput d.positions false)).2 ≠ 0
          then INF else LOADING_BLOCK_SIZE) := by
        split <;> decide
      omega
    · rename_i hle
      omega

/-! ## The stream loop -/

theorem switch_chromosome_spec {P : Type} (ops : PositionsOps P) (d : Driver P) (h : Inv d) :
    Inv (switch_chromosome ops d) ∧
    (switch_chromosome ops d).samPos = d.samPos ∧
    ((d.firstChromLoaded = true ∧ d.samChromosome = ops.chromosome d.positions) →
      switch_chromosome ops d = d) := by
  unfold switch_chromosome
  split
  · rename_i hsw
    refine ⟨⟨?_, ?_⟩, rfl, ?_⟩
    · simp only []
      rw [appendsOrdered_append]
      exact ⟨h.1, by simp [appendsOrdered]⟩
    · intro q hq
      simp only [] at hq
      rw [lastAppended_append] at hq
      simp [lastAppended] at hq
    · rintro ⟨h1, h2⟩
      rcases hsw with hsw | hsw
      · simp [h1] at hsw
      · exact absurd h2 hsw
  · exact ⟨h, rfl, fun _ => rfl⟩

theorem switch_chromosome_first {P : Type} (ops : PositionsOps P) (d : Driver P) :
    (switch_chromosome ops d).firstChromLoaded = true := by
  unfold switch_chromosome
  split
  · rfl
  · rename_i hns
    simp only [Bool.not_eq_true', not_or, Bool.not_eq_false, Decidable.not_not] at hns
    exact hns.1

theorem append_inv {P : Type} (ops : PositionsOps P) (d : Driver P) (line : List Char)
    (h : Inv d) (hle : ¬ d.lastPos > d.samPos) (hf : d.firstChromLoaded = true) :
    Inv (Step.next
      { d with
        positions := ops.appendSync d.positions line
        lastPos := d.samPos
        calls := d.calls ++ [Call.appendSync line d.samPos] }).driver := by
  constructor
  · show appendsOrdered none (d.calls ++ [Call.appendSync line d.samPos])
    rw [appendsOrdered_append]
    refine ⟨h.1, ?_⟩
    simp only [appendsOrdered, and_true]
    intro q hq
    have := (h.2 q hq).1
    omega
  · intro q hq
    have hq2 : lastAppended none (d.calls ++ [Call.appendSync line d.samPos]) = some q := hq
    rw [lastAppended_append] at hq2
    simp only [lastAppended, Option.some.injEq] at hq2
    exact ⟨hq2.symm, hf⟩

/-- One pass through the loop body keeps the invariant, whichever way it
ends. -/
theorem step_inv {P : Type} (ops : PositionsOps P) (d : Driver P) (line : List Char)
    (h : Inv d) : Inv (step ops d line).driver := by
  unfold step
  split
  · exact h
  · split
    · exact h
    · rename_i mapped chr pos _
      have hd1 : Inv { d with samChromosome := chr, samPos := pos } := h
      by_cases hm : mapped = true
      · subst hm
        simp only [Bool.not_true, Bool.false_eq_true, if_false]
        obtain ⟨hsw, _, _⟩ := switch_chromosome_spec ops
          { d with samChromosome := chr, samPos := pos } hd1
        obtain ⟨extra, e1, e2, e3, e4, _, e6⟩ := reload_loop_spec ops
          ((switch_chromosome ops { d with samChromosome := chr, samPos := pos }).samPos -
            (switch_chromosome ops { d with samChromosome := chr, samPos := pos }).reloadPos).toNat
          (switch_chromosome ops { d with samChromosome := chr, samPos := pos })
        have hd3 : Inv (reload_loop ops
            ((switch_chromosome ops { d with samChromosome := chr, samPos := pos }).samPos -
              (switch_chromosome ops { d with samChromosome := chr, samPos := pos }).reloadPos).toNat
            (switch_chromosome ops { d with samChromosome := chr, samPos := pos })) := by
          constructor
          · rw [e1, appendsOrdered_append]
            exact ⟨hsw.1, reloadCalls_ordered extra e2 _⟩
          · intro q hq
            rw [e1, lastAppended_append, reloadCalls_lastAppended extra e2] at hq
            rw [e3, e6]
            exact hsw.2 q hq
        split
        · exact hd3
        · rename_i hle
          refine append_inv ops _ line hd3 hle ?_
          rw [e6]
          exact switch_chromosome_first ops _
      · have hm2 : mapped = false := by simpa using hm
        subst hm2
        exact hd1

theorem stream_loop_inv {P : Type} (ops : PositionsOps P) (lines : List (List Char))
    (d : Driver P) (h : Inv d) : Inv (stream_loop ops lines d).2 := by
  induction lines generalizing d with
  | nil => exact h
  | cons line rest ih =>
    have hs := step_inv ops d line h
    simp only [stream_loop]
    cases heq : step ops d line with
    | next d1 =>
      rw [heq] at hs
      exact ih d1 hs
    | ret code d1 =>
      rw [heq] at hs
      exact hs
    | thrown err d1 =>
      rw [heq] at hs
      exact hs

theorem stream_loop_append {P : Type} (ops : PositionsOps P) (pre rest : List (List Char))
    (d d1 : Driver P) (h : stream_loop ops pre d = (.eof, d1)) :
    stream_loop ops (pre ++ rest) d = stream_loop ops rest d1 := by
  induction pre generalizing d with
  | nil =>
    simp only [stream_loop, Prod.mk.injEq, true_and] at h
    subst h
    rfl
  | cons line pre ih =>
    rw [List.cons_append]
    cases heq : step ops d line with
    | next d2 =>
      simp only [stream_loop, heq] at h ⊢
      exact ih d2 h
    | ret code d2 =>
      simp only [stream_loop, heq] at h
      cases h
    | thrown err d2 =>
      simp only [stream_loop, heq] at h
      cases h

theorem init_driver_inv {P : Type} (p0 : P) : Inv (init_driver p0) := by
  constructor
  · trivial
  · intro q hq
    cases hq

/-! ## Order of the `appendSync` calls -/

/-- A mapped record of the current chromosome whose position is below that of
the last appended record ends the pass with `return 1`, and no `appendSync` is
made in that pass. -/
theorem step_unsorted {P : Type} (ops : PositionsOps P) (d : Driver P) (l chr : List Char)
    (pos q : Int) (hinv : Inv d) (hne : l ≠ []) (hat : l.head? ≠ some '@')
    (hget : getSAMChromosomePos l d.samChromosome d.samPos = .ok (true, chr, pos))
    (hchr : chr = ops.chromosome d.positions)
    (hlast : lastAppended none d.calls = some q) (hlt : pos < q) :
    ∃ d1, step ops d l = .ret 1 d1 ∧ appends d1.calls = appends d.calls := by
  obtain ⟨hq, hfirst⟩ := hinv.2 q hlast
  have hskip : ¬ (l = [] ∨ l.head? = some '@') := by
    rintro (h | h)
    · exact hne h
    · exact hat h
  have hsw : switch_chromosome ops { d with samChromosome := chr, samPos := pos }
      = { d with samChromosome := chr, samPos := pos } := by
    unfold switch_chromosome
    rw [if_neg]
    simp only [hfirst, Bool.not_true, Bool.false_eq_true, false_or, hchr, ne_eq,
      not_true_eq_false, not_false_eq_true]
  obtain ⟨extra, e1, e2, e3, e4, _, _⟩ := reload_loop_spec ops
    (pos - d.reloadPos).toNat { d with samChromosome := chr, samPos := pos }
  refine ⟨reload_loop ops (pos - d.reloadPos).toNat { d with samChromosome := chr, samPos := pos },
    ?_, ?_⟩
  · unfold step
    rw [if_neg hskip, hget]
    simp only [Bool.not_true, Bool.false_eq_true, if_false, hsw]
    rw [if_pos]
    rw [e3, e4]
    show d.lastPos > pos
    omega
  · rw [e1, appends_append, reloadCalls_appends extra e2, List.append_nil]

/-- C8: whatever the input lines, the `appendSync` calls of the driver are
ordered: each has a position not below that of the `appendSync` before it,
unless the chromosome was switched (`loadNewChromosome`) between the two; and
the first mapped record of the current chromosome whose position is below that
of the last appended record makes `hisat_3n_table` return 1 without an
`appendSync` for that record or for any later one. -/
theorem hisat_appendSync_ordered {P : Type} (ops : PositionsOps P) (p0 : P)
    (lines : List (List Char)) :
    appendsOrdered none (hisat_3n_table ops p0 (some lines)).calls ∧
    (∀ (pre : List (List Char)) (l : List Char) (post : List (List Char)) (d : Driver P)
        (chr : List Char) (pos q : Int),
      lines = pre ++ l :: post →
      stream_loop ops pre (init_driver p0) = (.eof, d) →
      l ≠ [] → l.head? ≠ some '@' →
      getSAMChromosomePos l d.samChromosome d.samPos = .ok (true, chr, pos) →
      chr = ops.chromosome d.positions →
      lastAppended none d.calls = some q → pos < q →
        (hisat_3n_table ops p0 (some lines)).status = .ok 1 ∧
        appends (hisat_3n_table ops p0 (some lines)).calls = appends d.calls) := by
  constructor
  · have hinv := stream_loop_inv ops lines (init_driver p0) (init_driver_inv p0)
    unfold hisat_3n_table
    simp only []
    cases hres : stream_loop ops lines (init_driver p0) with
    | mk e d =>
      rw [hres] at hinv
      cases e with
      | eof =>
        simp only []
        rw [appendsOrdered_append]
        exact ⟨hinv.1, by simp [appendsOrdered]⟩
      | ret code => exact hinv.1
      | thrown err => exact hinv.1
  · intro pre l post d chr pos q hlines hpre hne hat hget hchr hlast hlt
    have hd : Inv d := by
      have := stream_loop_inv ops pre (init_driver p0) (init_driver_inv p0)
      rw [hpre] at this
      exact this
    obtain ⟨d1, hstep, happ⟩ := step_unsorted ops d l chr pos q hd hne hat hget hchr hlast hlt
    have hrun : stream_loop ops lines (init_driver p0) = (.ret 1, d1) := by
      rw [hlines, stream_loop_append ops pre (l :: post) _ d hpre]
      simp only [stream_loop, hstep]
    unfold hisat_3n_table
    simp only [hrun]
    exact ⟨trivial, happ⟩

/-- C8 (witness): a header line, two records of `chr1`, a record of `chr2` at
position 5, then a record of `chr2` at position 4, then one more record. -/
theorem hisat_appendSync_ordered_witness :
    (hisat_3n_table nameOnlyOps [] (some (sorted_lines ++ unsorted_line :: later_lines))).status
      = .ok 1 ∧
    appends (hisat_3n_table nameOnlyOps []
        (some (sorted_lines ++ unsorted_line :: later_lines))).calls
      = appends (stream_loop nameOnlyOps sorted_lines (init_driver [])).2.calls :=
  (hisat_appendSync_ordered nameOnlyOps [] (sorted_lines ++ unsorted_line :: later_lines)).2
    sorted_lines unsorted_line later_lines
    (stream_loop nameOnlyOps sorted_lines (init_driver [])).2
    "chr2".toList 4 5 rfl rfl (by decide) (by decide) rfl rfl rfl (by decide)

/-! ## Four iterations are enough for `getSAMChromosomePos` -/

/-- Allowing more than four iterations does not change the result of the loop
of `getSAMChromosomePos`: the iteration with `count == 3` leaves the
function. -/
theorem getSAMChromosomePos_loop_fuel (line chr0 : List Char) (pos0 : Int) (k : Nat) :
    getSAMChromosomePos_loop line (k + 4) 0 0 chr0 pos0 = getSAMChromosomePos line chr0 pos0 := by
  unfold getSAMChromosomePos
  rcases tab_cases line with h0 | ⟨f0, r1, e0, hf0⟩
  · rw [loop_no_tab line (k + 3) 0 0 chr0 pos0 (by simpa using h0),
      loop_no_tab line 3 0 0 chr0 pos0 (by simpa using h0)]
  obtain ⟨s0, d0⟩ := loop_tab line (k + 3) 0 0 chr0 pos0 f0 r1 (by simpa using e0) hf0
  obtain ⟨t0, _⟩ := loop_tab line 3 0 0 chr0 pos0 f0 r1 (by simpa using e0) hf0
  simp only [Nat.zero_add] at s0 d0 t0
  rw [s0, t0]
  simp only [Nat.zero_ne_add_one, if_false, Nat.reduceEqDiff, OfNat.zero_ne_ofNat]
  rcases tab_cases r1 with h1 | ⟨f1, r2, e1, hf1⟩
  · rw [loop_no_tab line (k + 2) _ _ chr0 pos0 (by rw [d0]; exact h1),
      loop_no_tab line 2 _ _ chr0 pos0 (by rw [d0]; exact h1)]
  obtain ⟨s1, d1⟩ := loop_tab line (k + 2) (f0.length + 1) 1 chr0 pos0 f1 r2
    (by rw [d0]; exact e1) hf1
  obtain ⟨t1, _⟩ := loop_tab line 2 (f0.length + 1) 1 chr0 pos0 f1 r2
    (by rw [d0]; exact e1) hf1
  rw [s1, t1]
  simp only [Nat.reduceEqDiff, if_false, OfNat.one_ne_ofNat, Nat.reduceAdd]
  rcases tab_cases r2 with h2 | ⟨f2, r3, e2, hf2⟩
  · rw [loop_no_tab line (k + 1) _ _ chr0 pos0 (by rw [d1]; exact h2),
      loop_no_tab line 1 _ _ chr0 pos0 (by rw [d1]; exact h2)]
  obtain ⟨s2, d2⟩ := loop_tab line (k + 1) (f0.length + 1 + f1.length + 1) 2 chr0 pos0
    f2 r3 (by rw [d1]; exact e2) hf2
  obtain ⟨t2, _⟩ := loop_tab line 1 (f0.length + 1 + f1.length + 1) 2 chr0 pos0
    f2 r3 (by rw [d1]; exact e2) hf2
  rw [s2, t2]
  simp only [Nat.reduceAdd, if_true]
  rcases tab_cases r3 with h3 | ⟨f3, r4, e3, hf3⟩
  · rw [loop_no_tab line k _ _ f2 pos0 (by rw [d2]; exact h3),
      loop_no_tab line 0 _ _ f2 pos0 (by rw [d2]; exact h3)]
  obtain ⟨s3, _⟩ := loop_tab line k (f0.length + 1 + f1.length + 1 + f2.length + 1) 3 f2 pos0
    f3 r4 (by rw [d2]; exact e3) hf3
  obtain ⟨t3, _⟩ := loop_tab line 0 (f0.length + 1 + f1.length + 1 + f2.length + 1) 3 f2 pos0
    f3 r4 (by rw [d2]; exact e3) hf3
  rw [s3, t3]
  simp only [Nat.reduceEqDiff, if_false, if_true]

end Hisat3nTable
